import Mathlib

set_option linter.unusedTactic false
set_option linter.unusedSectionVars false
set_option linter.unreachableTactic false
set_option linter.unnecessarySeqFocus false
set_option linter.unnecessarySimpa false

/-!
# Verification of the grafeyn (feynsum-rust) core against its specification

This file shallowly embeds the core of the `feynsum-rust` quantum-circuit
simulator (gate algebra with push/pull semantics, `push_to_pull` derivation,
the dense/sparse expansion engine, and the greedy nonbranching gate scheduler)
and proves/refutes the frozen claims about it.

Modelling conventions:

* A basis index (`BasisIdx`, source trait in the missing `types` module) is a
  natural number read as a little-endian bit string; the spec fixes its
  operations (`zeros/get/set/unset/flip/swap`), which we define through
  `Nat.testBit`, `|||`, `^^^`.
* The scalar field `f64` of the source is embedded as an arbitrary commutative
  ring `K`; complex weights are pairs `Cplx K`.  The numeric environment that
  the source pulls from its (missing) `types`/`utility` modules — the constant
  `RECP_SQRT_2`, the functions `cos`/`sin` used for rotation gates, and the
  near-zero predicate `is_zero` — is bundled in a structure `Consts K` that
  every definition takes as a parameter.  Floating-point rounding is out of
  scope: theorems are exact statements over `K`.
* Rust `panic!`/`unimplemented!`/failed `assert!` is modelled by `Option`
  (`none` = the call panics) in the definitions where a claim depends on it
  (`single_qubit_unitary_*_checked`, `push_to_pull`, `apply_pull_gates`);
  where no claim depends on the panic the total post-assertion behaviour is
  embedded directly.  The `Other { .. }` gate variant is omitted from the
  embedded `GateDefn`: the source panics both in `create_pull_action` and in
  `push_apply` for it, so no `Gate` with that definition can ever be
  constructed or expanded (spec §7, error kind 1).
-/

namespace Grafeyn

/-! ## Basis indices

Modelled from the spec (§3, "Basis index B"): bit-vector of length `N` with
`zeros/get/set/unset/flip/swap`, packing little-endian into a natural number
(`as_idx`/`from_idx` are the identity here).  The concrete Rust realizations
(`BasisIdx64`, the wide variant) are in the missing `types` module. -/

namespace Basis

/-- `BasisIdx::zeros()`: the all-zero basis index. -/
def zeros : Nat := 0

/-- `bidx.get(q)`: the bit of qubit `q`. -/
def get (b q : Nat) : Bool := Nat.testBit b q

/-- `bidx.set(q)`: set the bit of qubit `q`. -/
def set (b q : Nat) : Nat := b ||| 2 ^ q

/-- `bidx.unset(q)`: clear the bit of qubit `q`. -/
def unset (b q : Nat) : Nat := (b ||| 2 ^ q) ^^^ 2 ^ q

/-- `bidx.flip(q)`: toggle the bit of qubit `q`. -/
def flip (b q : Nat) : Nat := b ^^^ 2 ^ q

/-- `bidx.swap(q1, q2)`: exchange the bits of qubits `q1` and `q2`. -/
def swap (b q1 q2 : Nat) : Nat :=
  if get b q1 = get b q2 then b else flip (flip b q1) q2

theorem get_zeros (q : Nat) : get zeros q = false := Nat.zero_testBit q

theorem get_set_self (b q : Nat) : get (set b q) q = true := by
  simp [get, set, Nat.testBit_lor, Nat.testBit_two_pow_self]

theorem get_set_of_ne (b : Nat) {q q' : Nat} (h : q' ≠ q) :
    get (set b q) q' = get b q' := by
  simp [get, set, Nat.testBit_lor, Nat.testBit_two_pow_of_ne (fun e => h e.symm)]

theorem get_unset_self (b q : Nat) : get (unset b q) q = false := by
  simp [get, unset, Nat.testBit_xor, Nat.testBit_lor, Nat.testBit_two_pow_self]

theorem get_unset_of_ne (b : Nat) {q q' : Nat} (h : q' ≠ q) :
    get (unset b q) q' = get b q' := by
  simp [get, unset, Nat.testBit_xor, Nat.testBit_lor,
    Nat.testBit_two_pow_of_ne (fun e => h e.symm)]

theorem get_flip_self (b q : Nat) : get (flip b q) q = !get b q := by
  simp [get, flip, Nat.testBit_xor, Nat.testBit_two_pow_self]

theorem get_flip_of_ne (b : Nat) {q q' : Nat} (h : q' ≠ q) :
    get (flip b q) q' = get b q' := by
  simp [get, flip, Nat.testBit_xor, Nat.testBit_two_pow_of_ne (fun e => h e.symm)]

theorem ext_testBit {a b : Nat} (h : ∀ i, get a i = get b i) : a = b :=
  Nat.eq_of_testBit_eq h

theorem set_eq_self_of_get {b q : Nat} (h : get b q = true) : set b q = b := by
  refine ext_testBit fun i => ?_
  rcases eq_or_ne i q with rfl | hne
  · rw [get_set_self, h]
  · exact get_set_of_ne b hne

theorem unset_eq_self_of_get {b q : Nat} (h : get b q = false) : unset b q = b := by
  refine ext_testBit fun i => ?_
  rcases eq_or_ne i q with rfl | hne
  · rw [get_unset_self, h]
  · exact get_unset_of_ne b hne

theorem set_eq_flip_of_get {b q : Nat} (h : get b q = false) : set b q = flip b q := by
  refine ext_testBit fun i => ?_
  rcases eq_or_ne i q with rfl | hne
  · rw [get_set_self, get_flip_self, h]; rfl
  · rw [get_set_of_ne b hne, get_flip_of_ne b hne]

theorem unset_eq_flip_of_get {b q : Nat} (h : get b q = true) : unset b q = flip b q := by
  refine ext_testBit fun i => ?_
  rcases eq_or_ne i q with rfl | hne
  · rw [get_unset_self, get_flip_self, h]; rfl
  · rw [get_unset_of_ne b hne, get_flip_of_ne b hne]

theorem flip_flip (b q : Nat) : flip (flip b q) q = b := by
  simp [flip, Nat.xor_assoc]

theorem unset_set (b q : Nat) : unset (set b q) q = unset b q := by
  refine ext_testBit fun i => ?_
  rcases eq_or_ne i q with rfl | hne
  · rw [get_unset_self, get_unset_self]
  · rw [get_unset_of_ne _ hne, get_set_of_ne _ hne, get_unset_of_ne _ hne]

theorem set_unset (b q : Nat) : set (unset b q) q = set b q := by
  refine ext_testBit fun i => ?_
  rcases eq_or_ne i q with rfl | hne
  · rw [get_set_self, get_set_self]
  · rw [get_set_of_ne _ hne, get_unset_of_ne _ hne, get_set_of_ne _ hne]

theorem get_swap_fst (b : Nat) {q1 q2 : Nat} (h : q1 ≠ q2) :
    get (swap b q1 q2) q1 = get b q2 := by
  unfold swap
  split
  · next heq => exact heq
  · rw [get_flip_of_ne _ h, get_flip_self]
    next hne => cases hb : get b q1 <;> cases hb2 : get b q2 <;>
      simp_all

theorem get_swap_snd (b : Nat) {q1 q2 : Nat} (h : q1 ≠ q2) :
    get (swap b q1 q2) q2 = get b q1 := by
  unfold swap
  split
  · next heq => exact heq.symm
  · rw [get_flip_self, get_flip_of_ne _ (fun e => h e.symm)]
    next hne => cases hb : get b q1 <;> cases hb2 : get b q2 <;>
      simp_all

theorem get_swap_of_ne (b : Nat) {q1 q2 q : Nat} (h1 : q ≠ q1) (h2 : q ≠ q2) :
    get (swap b q1 q2) q = get b q := by
  unfold swap
  split
  · rfl
  · rw [get_flip_of_ne _ h2, get_flip_of_ne _ h1]

theorem swap_self (b q : Nat) : swap b q q = b := by
  simp [swap]

theorem swap_swap (b : Nat) {q1 q2 : Nat} (h : q1 ≠ q2) :
    swap (swap b q1 q2) q1 q2 = b := by
  refine ext_testBit fun i => ?_
  rcases eq_or_ne i q1 with rfl | h1
  · rw [get_swap_fst _ h, get_swap_snd _ h]
  rcases eq_or_ne i q2 with rfl | h2
  · rw [get_swap_snd _ h, get_swap_fst _ h]
  · rw [get_swap_of_ne _ h1 h2, get_swap_of_ne _ h1 h2]

/-- Bits at or above `n` of a number `< 2 ^ n` are clear. -/
theorem get_eq_false_of_lt {b n i : Nat} (hb : b < 2 ^ n) (hi : n ≤ i) :
    get b i = false := by
  have h2 : b < 2 ^ i := lt_of_lt_of_le hb (Nat.pow_le_pow_right (by omega) hi)
  simp [get, Nat.testBit, Nat.shiftRight_eq_div_pow, Nat.div_eq_of_lt h2]

/-- A number whose bits at or above `n` are clear is `< 2 ^ n`. -/
theorem lt_of_get_eq_false {b n : Nat} (h : ∀ i, n ≤ i → get b i = false) :
    b < 2 ^ n := by
  by_contra hb
  push_neg at hb
  obtain ⟨i, hi, hbit⟩ := Nat.ge_two_pow_implies_high_bit_true hb
  have hfalse := h i hi
  simp [get, hbit] at hfalse

theorem set_lt {b n q : Nat} (hb : b < 2 ^ n) (hq : q < n) : set b q < 2 ^ n := by
  refine lt_of_get_eq_false fun i hi => ?_
  rw [get_set_of_ne _ (by omega)]
  exact get_eq_false_of_lt hb hi

theorem unset_lt {b n q : Nat} (hb : b < 2 ^ n) (hq : q < n) : unset b q < 2 ^ n := by
  refine lt_of_get_eq_false fun i hi => ?_
  rw [get_unset_of_ne _ (by omega)]
  exact get_eq_false_of_lt hb hi

theorem flip_lt {b n q : Nat} (hb : b < 2 ^ n) (hq : q < n) : flip b q < 2 ^ n := by
  refine lt_of_get_eq_false fun i hi => ?_
  rw [get_flip_of_ne _ (by omega)]
  exact get_eq_false_of_lt hb hi

theorem swap_lt {b n q1 q2 : Nat} (hb : b < 2 ^ n) (h1 : q1 < n) (h2 : q2 < n) :
    swap b q1 q2 < 2 ^ n := by
  unfold swap
  split
  · exact hb
  · exact flip_lt (flip_lt hb h1) h2

end Basis

/-! ## Complex weights

The source works with `num_complex::Complex<f64>`.  We embed weights as pairs
over an arbitrary commutative ring `K` (f64 rounding is out of scope); the
ring structure makes the `ring` tactic available for weight algebra. -/

/-- A complex weight over the scalar ring `K` (source: `Complex = num_complex::Complex<f64>`). -/
@[ext]
structure Cplx (K : Type) where
  re : K
  im : K
deriving DecidableEq, Repr

namespace Cplx

@[simp] theorem mk_re {K : Type} (a b : K) : (Cplx.mk a b).re = a := rfl
@[simp] theorem mk_im {K : Type} (a b : K) : (Cplx.mk a b).im = b := rfl

variable {K : Type} [CommRing K]

instance : Zero (Cplx K) := ⟨⟨0, 0⟩⟩

instance : One (Cplx K) := ⟨⟨1, 0⟩⟩

instance : Add (Cplx K) := ⟨fun u v => ⟨u.re + v.re, u.im + v.im⟩⟩

instance : Neg (Cplx K) := ⟨fun u => ⟨-u.re, -u.im⟩⟩

instance : Mul (Cplx K) :=
  ⟨fun u v => ⟨u.re * v.re - u.im * v.im, u.re * v.im + u.im * v.re⟩⟩

@[simp] theorem zero_re : (0 : Cplx K).re = 0 := rfl
@[simp] theorem zero_im : (0 : Cplx K).im = 0 := rfl
@[simp] theorem one_re : (1 : Cplx K).re = 1 := rfl
@[simp] theorem one_im : (1 : Cplx K).im = 0 := rfl
@[simp] theorem add_re (u v : Cplx K) : (u + v).re = u.re + v.re := rfl
@[simp] theorem add_im (u v : Cplx K) : (u + v).im = u.im + v.im := rfl
@[simp] theorem neg_re (u : Cplx K) : (-u).re = -u.re := rfl
@[simp] theorem neg_im (u : Cplx K) : (-u).im = -u.im := rfl
@[simp] theorem mul_re (u v : Cplx K) : (u * v).re = u.re * v.re - u.im * v.im := rfl
@[simp] theorem mul_im (u v : Cplx K) : (u * v).im = u.re * v.im + u.im * v.re := rfl

instance : CommRing (Cplx K) where
  add := (· + ·)
  add_assoc := by intros; ext <;> simp <;> ring
  zero := 0
  zero_add := by intros; ext <;> simp
  add_zero := by intros; ext <;> simp
  add_comm := by intros; ext <;> simp <;> ring
  mul := (· * ·)
  mul_assoc := by intros; ext <;> simp <;> ring
  one := 1
  one_mul := by intros; ext <;> simp
  mul_one := by intros; ext <;> simp
  left_distrib := by intros; ext <;> simp <;> ring
  right_distrib := by intros; ext <;> simp <;> ring
  mul_comm := by intros; ext <;> simp <;> ring
  zero_mul := by intros; ext <;> simp
  mul_zero := by intros; ext <;> simp
  neg := (- ·)
  neg_add_cancel := by intros; ext <;> simp
  nsmul := nsmulRec
  zsmul := zsmulRec

/-- Multiplication of a complex weight by a real scalar (`Complex<f64> * f64`
in the source); componentwise, i.e. multiplication by `⟨r, 0⟩`. -/
def rmul (u : Cplx K) (r : K) : Cplx K := ⟨u.re * r, u.im * r⟩

@[simp] theorem rmul_re (u : Cplx K) (r : K) : (u.rmul r).re = u.re * r := rfl
@[simp] theorem rmul_im (u : Cplx K) (r : K) : (u.rmul r).im = u.im * r := rfl

theorem rmul_eq_mul (u : Cplx K) (r : K) : u.rmul r = u * ⟨r, 0⟩ := by
  ext <;> simp

end Cplx

/-- The numeric environment the gate algebra pulls from the source's missing
`types`/`utility` modules: the constant `constants::RECP_SQRT_2` (the `f64`
nearest `1/√2`), the `f64::cos`/`f64::sin` functions used by rotation gates,
and the near-zero predicate `utility::is_zero` (spec §3: `|re| < ε ∧ |im| < ε`
with ε = 1e-30).  All embedded definitions are parameterized by it. -/
structure Consts (K : Type) where
  recpSqrt2 : K
  cos : K → K
  sin : K → K
  isZero : Cplx K → Bool

/-- `utility::is_nonzero` (modelled from the spec: negation of the near-zero
predicate). -/
def Consts.isNonzero {K : Type} (C : Consts K) (w : Cplx K) : Bool := !(C.isZero w)

/-! ## Gate algebra (`src/circuit/gate.rs`)

The scalar type is an arbitrary field `K` (`f64` in the source; `/ 2.0` on
rotation angles needs division).  `GateDefn` mirrors the source enum minus the
`Other { .. }` variant (see the header comment). -/

/-- Source `PushApplyOutput`: one or two successor `(bidx, weight)` pairs. -/
inductive PushApplyOutput (K : Type) where
  | nonbranching (bidx : Nat) (weight : Cplx K)
  | branching (out1 out2 : Nat × Cplx K)
deriving DecidableEq, Repr

/-- Source `PullApplyOutput`: one or two `(neighbor, multiplier)` pairs. -/
inductive PullApplyOutput (K : Type) where
  | nonbranching (neighbor : Nat) (multiplier : Cplx K)
  | branching (out1 out2 : Nat × Cplx K)
deriving DecidableEq, Repr

/-- Source `BranchingType`. -/
inductive BranchingType where
  | nonbranching
  | branching
  | maybeBranching
deriving DecidableEq, Repr

/-- Source `GateDefn` (without `Other { .. }`, which cannot be turned into a
`Gate`: the source's `create_pull_action` and `push_apply` are `unimplemented!`
for it). -/
inductive GateDefn (K : Type) where
  | CCX (control1 control2 target : Nat)
  | CPhase (control target : Nat) (rot : K)
  | CSwap (control target1 target2 : Nat)
  | CX (control target : Nat)
  | CZ (control target : Nat)
  | FSim (left right : Nat) (theta phi : K)
  | Hadamard (q : Nat)
  | PauliY (q : Nat)
  | PauliZ (q : Nat)
  | Phase (rot : K) (target : Nat)
  | RX (rot : K) (target : Nat)
  | RY (rot : K) (target : Nat)
  | RZ (rot : K) (target : Nat)
  | S (q : Nat)
  | Sdg (q : Nat)
  | SqrtX (q : Nat)
  | SqrtXdg (q : Nat)
  | Swap (target1 target2 : Nat)
  | T (q : Nat)
  | Tdg (q : Nat)
  | U (target : Nat) (theta phi lambda : K)
  | X (q : Nat)
deriving DecidableEq, Repr

/-- Source `create_touches`. -/
def create_touches {K : Type} : GateDefn K → List Nat
  | .Hadamard qi | .PauliY qi | .PauliZ qi | .Phase _ qi | .S qi | .Sdg qi
  | .SqrtX qi | .SqrtXdg qi | .T qi | .Tdg qi | .X qi => [qi]
  | .CPhase control target _ | .CZ control target | .CX control target =>
      [control, target]
  | .CCX control1 control2 target => [control1, control2, target]
  | .FSim left right _ _ => [left, right]
  | .RX _ target | .RY _ target | .RZ _ target => [target]
  | .CSwap control target1 target2 => [control, target1, target2]
  | .Swap target1 target2 => [target1, target2]
  | .U target _ _ _ => [target]

/-- Source `GateDefn::branching_type`. -/
def branching_type {K : Type} : GateDefn K → BranchingType
  | .CCX .. | .CPhase .. | .CSwap .. | .CX .. | .CZ .. | .PauliY _ | .PauliZ _
  | .Phase .. | .RZ .. | .S _ | .Sdg _ | .Swap .. | .T _ | .Tdg _ | .X _ =>
      .nonbranching
  | .Hadamard _ | .RY .. | .SqrtX _ | .SqrtXdg _ => .branching
  | .FSim .. | .RX .. | .U .. => .maybeBranching

section GateAlgebra

variable {K : Type} [Field K]

/-- Source `single_qubit_unitary_push`, after its two `assert!`s (the asserted
precondition itself is `single_qubit_unitary_push_checked` below). -/
def single_qubit_unitary_push (C : Consts K) (bidx : Nat) (weight : Cplx K)
    (target : Nat) (a b c d : Cplx K) : PushApplyOutput K :=
  if C.isZero a && C.isZero d then
    let new_bidx := Basis.flip bidx target
    let new_weight := if Basis.get bidx target then b * weight else c * weight
    .nonbranching new_bidx new_weight
  else if C.isZero c && C.isZero b then
    let new_weight := if Basis.get bidx target then d * weight else a * weight
    .nonbranching bidx new_weight
  else
    let bidx0 := Basis.unset bidx target
    let bidx1 := Basis.set bidx target
    let m := if Basis.get bidx target then (b, d) else (a, c)
    .branching (bidx0, m.1 * weight) (bidx1, m.2 * weight)

/-- Source `single_qubit_unitary_push` with its `assert!`s: `none` models the
panic when an asserted precondition fails. -/
def single_qubit_unitary_push_checked (C : Consts K) (bidx : Nat)
    (weight : Cplx K) (target : Nat) (a b c d : Cplx K) :
    Option (PushApplyOutput K) :=
  if (C.isZero a && C.isZero b) || (C.isZero c && C.isZero d) then none
  else some (single_qubit_unitary_push C bidx weight target a b c d)

/-- Source `single_qubit_unitary_pull`, after its two `assert!`s. -/
def single_qubit_unitary_pull (C : Consts K) (bidx : Nat) (target : Nat)
    (a b c d : Cplx K) : PullApplyOutput K :=
  if C.isZero a && C.isZero d then
    let neighbor := Basis.flip bidx target
    let multiplier := if Basis.get bidx target then c else b
    .nonbranching neighbor multiplier
  else if C.isZero c && C.isZero b then
    let multiplier := if Basis.get bidx target then d else a
    .nonbranching bidx multiplier
  else
    let bidx0 := Basis.unset bidx target
    let bidx1 := Basis.set bidx target
    if Basis.get bidx target then .branching (bidx0, c) (bidx1, d)
    else .branching (bidx0, a) (bidx1, b)

/-- Source `single_qubit_unitary_pull` with its `assert!`s: `none` models the
panic when an asserted precondition fails. -/
def single_qubit_unitary_pull_checked (C : Consts K) (bidx : Nat)
    (target : Nat) (a b c d : Cplx K) : Option (PullApplyOutput K) :=
  if (C.isZero a && C.isZero b) || (C.isZero c && C.isZero d) then none
  else some (single_qubit_unitary_pull C bidx target a b c d)

/-- Source `GateDefn::push_apply` (the `Tdg` arm's dead constructed-and-dropped
complex is omitted; the `Other` arm is `unimplemented!` and `Other` is not in
the embedded `GateDefn`). -/
def push_apply (C : Consts K) : GateDefn K → Nat → Cplx K → PushApplyOutput K
  | .CCX control1 control2 target, bidx, weight =>
    let new_bidx :=
      if Basis.get bidx control1 && Basis.get bidx control2 then
        Basis.flip bidx target
      else bidx
    .nonbranching new_bidx weight
  | .CPhase control target rot, bidx, weight =>
    let new_weight :=
      if Basis.get bidx control && Basis.get bidx target then
        weight * Cplx.mk (C.cos rot) (C.sin rot)
      else weight
    .nonbranching bidx new_weight
  | .CSwap control target1 target2, bidx, weight =>
    let new_bidx :=
      if Basis.get bidx control then Basis.swap bidx target1 target2 else bidx
    .nonbranching new_bidx weight
  | .CX control target, bidx, weight =>
    let new_bidx :=
      if Basis.get bidx control then Basis.flip bidx target else bidx
    .nonbranching new_bidx weight
  | .CZ control target, bidx, weight =>
    let new_weight :=
      if Basis.get bidx control && Basis.get bidx target then -weight else weight
    .nonbranching bidx new_weight
  | .FSim left right theta phi, bidx, weight =>
    match Basis.get bidx left, Basis.get bidx right with
    | false, false => .nonbranching bidx weight
    | true, true => .nonbranching bidx (weight * Cplx.mk (C.cos phi) (C.sin phi))
    | _, _ =>
      let bidx0 := Basis.set (Basis.unset bidx left) right
      let bidx1 := Basis.set (Basis.unset bidx right) left
      let weight_a := weight * Cplx.mk (C.cos theta) 0
      let weight_b := weight * Cplx.mk 0 (-(C.sin theta))
      if Basis.get bidx left then .branching (bidx0, weight_b) (bidx1, weight_a)
      else .branching (bidx0, weight_a) (bidx1, weight_b)
  | .Hadamard qi, bidx, weight =>
    let bidx0 := Basis.unset bidx qi
    let bidx1 := Basis.set bidx qi
    let new_weight := weight.rmul C.recpSqrt2
    if Basis.get bidx qi then .branching (bidx0, new_weight) (bidx1, -new_weight)
    else .branching (bidx0, new_weight) (bidx1, new_weight)
  | .Phase rot target, bidx, weight =>
    let new_weight :=
      if Basis.get bidx target then weight * Cplx.mk (C.cos rot) (C.sin rot)
      else weight
    .nonbranching bidx new_weight
  | .RX rot target, bidx, weight =>
    let cos := Cplx.mk (C.cos (rot / 2)) 0
    let sin := Cplx.mk (C.sin (rot / 2)) 0
    let a := cos
    let b := sin * Cplx.mk 0 (-1)
    let c := b
    let d := a
    single_qubit_unitary_push C bidx weight target a b c d
  | .RY rot target, bidx, weight =>
    let bidx0 := Basis.unset bidx target
    let bidx1 := Basis.set bidx target
    if Basis.get bidx target then
      .branching (bidx0, weight.rmul (-(C.sin (rot / 2))))
        (bidx1, weight.rmul (C.cos (rot / 2)))
    else
      .branching (bidx0, weight.rmul (C.cos (rot / 2)))
        (bidx1, weight.rmul (C.sin (rot / 2)))
  | .RZ rot target, bidx, weight =>
    let new_weight :=
      if Basis.get bidx target then
        weight * Cplx.mk (C.cos (rot / 2)) (C.sin (rot / 2))
      else weight * Cplx.mk (C.cos (rot / 2)) (-(C.sin (rot / 2)))
    .nonbranching bidx new_weight
  | .S qi, bidx, weight =>
    let new_weight :=
      if Basis.get bidx qi then weight * Cplx.mk 0 1 else weight
    .nonbranching bidx new_weight
  | .Sdg qi, bidx, weight =>
    let new_weight :=
      if Basis.get bidx qi then weight * Cplx.mk 0 (-1) else weight
    .nonbranching bidx new_weight
  | .Swap target1 target2, bidx, weight =>
    .nonbranching (Basis.swap bidx target1 target2) weight
  | .SqrtX qi, bidx, weight =>
    let bidx0 := Basis.unset bidx qi
    let bidx1 := Basis.set bidx qi
    let weight_a := weight * Cplx.mk (1 / 2) (1 / 2)
    let weight_b := weight * Cplx.mk (1 / 2) (-(1 / 2))
    if Basis.get bidx qi then .branching (bidx0, weight_b) (bidx1, weight_a)
    else .branching (bidx0, weight_a) (bidx1, weight_b)
  | .SqrtXdg qi, bidx, weight =>
    let bidx0 := Basis.unset bidx qi
    let bidx1 := Basis.set bidx qi
    let weight_a := weight * Cplx.mk (1 / 2) (1 / 2)
    let weight_b := weight * Cplx.mk (1 / 2) (-(1 / 2))
    if Basis.get bidx qi then .branching (bidx0, weight_a) (bidx1, weight_b)
    else .branching (bidx0, weight_b) (bidx1, weight_a)
  | .T qi, bidx, weight =>
    let new_weight :=
      if Basis.get bidx qi then weight * Cplx.mk C.recpSqrt2 C.recpSqrt2
      else weight
    .nonbranching bidx new_weight
  | .Tdg qi, bidx, weight =>
    let new_weight :=
      if Basis.get bidx qi then weight * Cplx.mk C.recpSqrt2 (-C.recpSqrt2)
      else weight
    .nonbranching bidx new_weight
  | .U target theta phi lambda, bidx, weight =>
    let cos := Cplx.mk (C.cos (theta / 2)) 0
    let sin := Cplx.mk (C.sin (theta / 2)) 0
    let a := cos
    let b := -sin * Cplx.mk (C.cos lambda) (C.sin lambda)
    let c := sin * Cplx.mk (C.cos phi) (C.sin phi)
    let d := cos * Cplx.mk (C.cos (phi + lambda)) (C.sin (phi + lambda))
    single_qubit_unitary_push C bidx weight target a b c d
  | .PauliY qi, bidx, weight =>
    let new_bidx := Basis.flip bidx qi
    let new_weight :=
      if Basis.get bidx qi then weight * Cplx.mk 0 (-1)
      else weight * Cplx.mk 0 1
    .nonbranching new_bidx new_weight
  | .PauliZ qi, bidx, weight =>
    let new_weight := if Basis.get bidx qi then -weight else weight
    .nonbranching bidx new_weight
  | .X qi, bidx, weight => .nonbranching (Basis.flip bidx qi) weight

end GateAlgebra

section PullActions

variable {K : Type} [Field K]

/-- Source `push_to_pull`: derive a pull action by probing `push_apply` on the
computational-basis values of the touched qubits with unit weight.  The
source's `unreachable!`/failed-`assert!` paths (a probe of unexpected shape, a
missing `find` match, a branch misalignment) are modelled as `none` — in Rust
they panic while constructing the gate. -/
def push_to_pull (C : Consts K) (defn : GateDefn K) (touches : List Nat) :
    Option (Nat → PullApplyOutput K) :=
  match touches.length, branching_type defn with
  | 1, .nonbranching =>
    let qi := touches.getD 0 0
    match push_apply C defn Basis.zeros (Cplx.mk 1 0) with
    | .nonbranching b0 m0 =>
      match push_apply C defn (Basis.set Basis.zeros qi) (Cplx.mk 1 0) with
      | .nonbranching _bidx2 m1 =>
        if b0 = Basis.zeros then
          some fun bidx =>
            .nonbranching bidx (if Basis.get bidx qi then m1 else m0)
        else
          some fun bidx =>
            .nonbranching (Basis.flip bidx qi) (if Basis.get bidx qi then m0 else m1)
      | .branching _ _ => none
    | .branching _ _ => none
  | 2, .nonbranching =>
    let qi := touches.getD 0 0
    let qj := touches.getD 1 0
    let a00 := Basis.zeros
    let a01 := Basis.set Basis.zeros qj
    let a10 := Basis.set Basis.zeros qi
    let a11 := Basis.set (Basis.set Basis.zeros qi) qj
    match push_apply C defn a00 (Cplx.mk 1 0) with
    | .branching _ _ => none
    | .nonbranching b00 m00 =>
    match push_apply C defn a01 (Cplx.mk 1 0) with
    | .branching _ _ => none
    | .nonbranching b01 m01 =>
    match push_apply C defn a10 (Cplx.mk 1 0) with
    | .branching _ _ => none
    | .nonbranching b10 m10 =>
    match push_apply C defn a11 (Cplx.mk 1 0) with
    | .branching _ _ => none
    | .nonbranching b11 m11 =>
    let apply_match := fun (left right : Bool) (bb : Nat) =>
      left = Basis.get bb qi ∧ right = Basis.get bb qj
    let find := fun (left right : Bool) =>
      if apply_match left right b00 then some (a00, m00)
      else if apply_match left right b01 then some (a01, m01)
      else if apply_match left right b10 then some (a10, m10)
      else if apply_match left right b11 then some (a11, m11)
      else none
    match find false false, find false true, find true false, find true true with
    | some (new_b00, new_m00), some (new_b01, new_m01),
      some (new_b10, new_m10), some (new_b11, new_m11) =>
      let align_with := fun (bb bidx : Nat) =>
        match Basis.get bb qi, Basis.get bb qj with
        | true, true => Basis.set (Basis.set bidx qi) qj
        | true, false => Basis.unset (Basis.set bidx qi) qj
        | false, true => Basis.set (Basis.unset bidx qi) qj
        | false, false => Basis.unset (Basis.unset bidx qi) qj
      some fun bidx =>
        match Basis.get bidx qi, Basis.get bidx qj with
        | true, true => .nonbranching (align_with new_b11 bidx) new_m11
        | true, false => .nonbranching (align_with new_b10 bidx) new_m10
        | false, true => .nonbranching (align_with new_b01 bidx) new_m01
        | false, false => .nonbranching (align_with new_b00 bidx) new_m00
    | _, _, _, _ => none
  | 1, .branching =>
    let qi := touches.getD 0 0
    match push_apply C defn Basis.zeros (Cplx.mk 1 0) with
    | .nonbranching _ _ => none
    | .branching (b00, m00) (b01, m01) =>
    match push_apply C defn (Basis.set Basis.zeros qi) (Cplx.mk 1 0) with
    | .nonbranching _ _ => none
    | .branching (b10, m10) (b11, m11) =>
    let p0 := if Basis.get b00 qi then ((b01, m01), (b00, m00))
      else ((b00, m00), (b01, m01))
    let p1 := if Basis.get b10 qi then ((b11, m11), (b10, m10))
      else ((b10, m10), (b11, m11))
    match p0, p1 with
    | ((c00, n00), (c01, n01)), ((c10, n10), (c11, n11)) =>
      if !Basis.get c00 qi && !Basis.get c10 qi
          && Basis.get c01 qi && Basis.get c11 qi then
        some fun bidx =>
          if Basis.get bidx qi then
            .branching (Basis.unset bidx qi, n01) (bidx, n11)
          else
            .branching (bidx, n00) (Basis.set bidx qi, n10)
      else none
  | _, _ => none

/-- Source `create_pull_action`.  The twelve permutation×phase definitions are
routed through `push_to_pull`; the others carry closed-form pull closures.
The `Other` arm of the source is `unimplemented!` (and `Other` is not in the
embedded `GateDefn`); the `U` arm's two `assert!`s are modelled as `none`. -/
def create_pull_action (C : Consts K) (defn : GateDefn K) :
    Option (Nat → PullApplyOutput K) :=
  match defn with
  | .CCX .. | .CPhase .. | .CSwap .. | .Swap .. | .FSim .. | .PauliY _
  | .PauliZ _ | .S _ | .Sdg _ | .T _ | .Tdg _ | .X _ =>
      push_to_pull C defn (create_touches defn)
  | .CX control target =>
    some fun bidx =>
      if Basis.get bidx control then
        .nonbranching (Basis.flip bidx target) (Cplx.mk 1 0)
      else .nonbranching bidx (Cplx.mk 1 0)
  | .CZ control target =>
    some fun bidx =>
      if Basis.get bidx control && Basis.get bidx target then
        .nonbranching bidx (Cplx.mk (-1) 0)
      else .nonbranching bidx (Cplx.mk 1 0)
  | .Hadamard qi =>
    some fun bidx =>
      let bidx0 := Basis.unset bidx qi
      let bidx1 := Basis.set bidx qi
      if Basis.get bidx qi then
        .branching (bidx0, Cplx.mk C.recpSqrt2 0) (bidx1, Cplx.mk (-C.recpSqrt2) 0)
      else
        .branching (bidx0, Cplx.mk C.recpSqrt2 0) (bidx1, Cplx.mk C.recpSqrt2 0)
  | .Phase rot target =>
    let cos := C.cos rot
    let sin := C.sin rot
    some fun bidx =>
      if Basis.get bidx target then .nonbranching bidx (Cplx.mk cos sin)
      else .nonbranching bidx (Cplx.mk 1 0)
  | .RX rot target =>
    let cos := Cplx.mk (C.cos (rot / 2)) 0
    let sin := Cplx.mk (C.sin (rot / 2)) 0
    let a := cos
    let b := sin * Cplx.mk 0 (-1)
    let c := b
    let d := a
    some fun bidx => single_qubit_unitary_pull C bidx target a b c d
  | .RY rot target =>
    let cos := C.cos (rot / 2)
    let sin := C.sin (rot / 2)
    some fun bidx =>
      let bidx0 := Basis.unset bidx target
      let bidx1 := Basis.set bidx target
      if Basis.get bidx target then
        .branching (bidx0, Cplx.mk sin 0) (bidx1, Cplx.mk cos 0)
      else
        .branching (bidx0, Cplx.mk cos 0) (bidx1, Cplx.mk (-sin) 0)
  | .RZ rot target =>
    let cos := C.cos (rot / 2)
    let sin := C.sin (rot / 2)
    some fun bidx =>
      if Basis.get bidx target then .nonbranching bidx (Cplx.mk cos sin)
      else .nonbranching bidx (Cplx.mk cos (-sin))
  | .SqrtX qi =>
    some fun bidx =>
      let bidx0 := Basis.unset bidx qi
      let bidx1 := Basis.set bidx qi
      if Basis.get bidx qi then
        .branching (bidx0, Cplx.mk (1 / 2) (-(1 / 2))) (bidx1, Cplx.mk (1 / 2) (1 / 2))
      else
        .branching (bidx0, Cplx.mk (1 / 2) (1 / 2)) (bidx1, Cplx.mk (1 / 2) (-(1 / 2)))
  | .SqrtXdg qi =>
    some fun bidx =>
      let bidx0 := Basis.unset bidx qi
      let bidx1 := Basis.set bidx qi
      if Basis.get bidx qi then
        .branching (bidx0, Cplx.mk (1 / 2) (1 / 2)) (bidx1, Cplx.mk (1 / 2) (-(1 / 2)))
      else
        .branching (bidx0, Cplx.mk (1 / 2) (-(1 / 2))) (bidx1, Cplx.mk (1 / 2) (1 / 2))
  | .U target theta phi lambda =>
    let cos := Cplx.mk (C.cos (theta / 2)) 0
    let sin := Cplx.mk (C.sin (theta / 2)) 0
    let a := cos
    let b := -sin * Cplx.mk (C.cos lambda) (C.sin lambda)
    let c := sin * Cplx.mk (C.cos phi) (C.sin phi)
    let d := cos * Cplx.mk (C.cos (phi + lambda)) (C.sin (phi + lambda))
    if (C.isZero a && C.isZero b) || (C.isZero c && C.isZero d) then none
    else some fun bidx => single_qubit_unitary_pull C bidx target a b c d

/-- Source `Gate`: a definition together with its touched qubits and optional
pull action. -/
structure Gate (K : Type) where
  defn : GateDefn K
  touches : List Nat
  pull_action : Option (Nat → PullApplyOutput K)

/-- Source `Gate::new`. -/
def Gate.new (C : Consts K) (defn : GateDefn K) : Gate K :=
  { defn := defn
    touches := create_touches defn
    pull_action := create_pull_action C defn }

/-- Source `Gate::is_branching`. -/
def Gate.is_branching (g : Gate K) : Bool :=
  decide (branching_type g.defn ≠ .nonbranching)

/-- Source `Gate::is_pullable`. -/
def Gate.is_pullable (g : Gate K) : Bool := g.pull_action.isSome

/-- Source `GateDefn::decompose_ccx`. -/
def decompose_ccx (defn : GateDefn K) : List (GateDefn K) :=
  match defn with
  | .CCX control1 control2 target =>
    [.Hadamard target,
     .CX control2 target,
     .Tdg target,
     .CX control1 target,
     .T target,
     .CX control2 target,
     .Tdg target,
     .CX control1 target,
     .T control2,
     .T target,
     .Hadamard target]
  | _ => []

/-- Source `GateDefn::decompose_cswap`. -/
def decompose_cswap (gate : GateDefn K) : List (GateDefn K) :=
  match gate with
  | .CSwap control target1 target2 =>
    [GateDefn.CX target1 target2]
      ++ decompose_ccx (.CCX control target2 target1)
      ++ [GateDefn.CX target1 target2]
  | _ => []

/-- Source `GateDefn::decompose_gate`. -/
def decompose_gate (defn : GateDefn K) : List (GateDefn K) :=
  match defn with
  | .CCX .. => decompose_ccx defn
  | .CSwap .. => decompose_cswap defn
  | _ => [defn]

end PullActions

/-! ## Concrete scalar instantiations for witnesses and counterexamples

`ℚ` (with the spec's ε = 1e-30 near-zero predicate) serves for circuits that
use only permutation×phase gates; `Qr` adjoins the value `1/√2` of
`RECP_SQRT_2` to `ℚ` so that Hadamard/T-gate circuits can be evaluated
exactly. -/

/-- `utility::is_zero`, modelled from the spec (§3): `|re| < ε ∧ |im| < ε`
with ε = 1e-30, over exact rationals. -/
def is_zero_spec (w : Cplx ℚ) : Bool :=
  decide (|w.re| < 1 / 10 ^ 30 ∧ |w.im| < 1 / 10 ^ 30)

/-- The numeric environment over `ℚ` with the spec's near-zero predicate.
`cos`/`sin`/`recpSqrt2` are irrational in the source; circuits evaluated over
`ℚ` only use gates that never consult them, so any rational stand-in works
(they are environment parameters, not translated code). -/
def ratConsts : Consts ℚ :=
  { recpSqrt2 := 0, cos := fun _ => 0, sin := fun _ => 0, isZero := is_zero_spec }

/-- There is no rational square root of 2. -/
theorem no_rat_sqrt_two (q : ℚ) : q ^ 2 ≠ 2 := by
  intro h
  have h2 : ((q : ℝ)) ^ 2 = 2 := by exact_mod_cast congrArg (Rat.cast : ℚ → ℝ) h
  have habs : Real.sqrt 2 = |(q : ℝ)| := by
    rw [← h2, Real.sqrt_sq_eq_abs]
  have hirr : Irrational (Real.sqrt 2) := irrational_sqrt_two
  rw [habs, ← Rat.cast_abs] at hirr
  exact Rat.not_irrational _ hirr

/-- The field `ℚ(1/√2) = ℚ(√2)`: `⟨a, b⟩` stands for `a + b·(1/√2)`, so the
adjoined generator squares to `1/2`. -/
@[ext]
structure Qr where
  a : ℚ
  b : ℚ
deriving DecidableEq, Repr

namespace Qr

instance : Zero Qr := ⟨⟨0, 0⟩⟩
instance : One Qr := ⟨⟨1, 0⟩⟩
instance : Add Qr := ⟨fun u v => ⟨u.a + v.a, u.b + v.b⟩⟩
instance : Neg Qr := ⟨fun u => ⟨-u.a, -u.b⟩⟩
instance : Mul Qr := ⟨fun u v => ⟨u.a * v.a + u.b * v.b / 2, u.a * v.b + u.b * v.a⟩⟩
instance : Inv Qr :=
  ⟨fun u => ⟨u.a / (u.a ^ 2 - u.b ^ 2 / 2), -u.b / (u.a ^ 2 - u.b ^ 2 / 2)⟩⟩

@[simp] theorem zero_a : (0 : Qr).a = 0 := rfl
@[simp] theorem zero_b : (0 : Qr).b = 0 := rfl
@[simp] theorem one_a : (1 : Qr).a = 1 := rfl
@[simp] theorem one_b : (1 : Qr).b = 0 := rfl
@[simp] theorem add_a (u v : Qr) : (u + v).a = u.a + v.a := rfl
@[simp] theorem add_b (u v : Qr) : (u + v).b = u.b + v.b := rfl
@[simp] theorem neg_a (u : Qr) : (-u).a = -u.a := rfl
@[simp] theorem neg_b (u : Qr) : (-u).b = -u.b := rfl
@[simp] theorem mul_a (u v : Qr) : (u * v).a = u.a * v.a + u.b * v.b / 2 := rfl
@[simp] theorem mul_b (u v : Qr) : (u * v).b = u.a * v.b + u.b * v.a := rfl
@[simp] theorem inv_a (u : Qr) : (u⁻¹).a = u.a / (u.a ^ 2 - u.b ^ 2 / 2) := rfl
@[simp] theorem inv_b (u : Qr) : (u⁻¹).b = -u.b / (u.a ^ 2 - u.b ^ 2 / 2) := rfl

theorem norm_ne_zero {u : Qr} (hu : u ≠ 0) : u.a ^ 2 - u.b ^ 2 / 2 ≠ 0 := by
  intro h
  rcases eq_or_ne u.b 0 with hb | hb
  · apply hu
    have ha : u.a = 0 := by
      have := h
      rw [hb] at this
      simpa [pow_eq_zero_iff] using this
    ext <;> simp [ha, hb]
  · have hq : (2 * u.a / u.b) ^ 2 = 2 := by
      have h2 : 2 * u.a ^ 2 = u.b ^ 2 := by linarith
      field_simp
      linarith [h2]
    exact no_rat_sqrt_two _ hq

instance instField : Field Qr :=
  Field.ofMinimalAxioms Qr
    (by intros; ext <;> simp <;> ring)
    (by intros; ext <;> simp)
    (by intros; ext <;> simp)
    (by intros; ext <;> simp <;> ring)
    (by intros; ext <;> simp <;> ring)
    (by intros; ext <;> simp)
    (by
      intro u hu
      have hd := norm_ne_zero hu
      ext
      · rw [mul_a, inv_a, inv_b, one_a]
        have key : u.a * (u.a / (u.a ^ 2 - u.b ^ 2 / 2))
              + u.b * (-u.b / (u.a ^ 2 - u.b ^ 2 / 2)) / 2
            = (u.a ^ 2 - u.b ^ 2 / 2) / (u.a ^ 2 - u.b ^ 2 / 2) := by ring
        rw [key, div_self hd]
      · rw [mul_b, inv_a, inv_b, one_b]
        ring)
    (by ext <;> simp)
    (by intros; ext <;> simp <;> ring)
    ⟨0, 1, by decide⟩

/-- The embedding `ℚ →+* Qr`. -/
def ofRat : ℚ →+* Qr :=
  { toFun := fun q => ⟨q, 0⟩
    map_one' := rfl
    map_mul' := by intros; ext <;> simp
    map_zero' := rfl
    map_add' := by intros; ext <;> simp }

/-- The adjoined generator `1/√2` (the exact value of `RECP_SQRT_2`). -/
def r0 : Qr := ⟨0, 1⟩

theorem two_mul_r0_sq : (2 : Qr) * r0 ^ 2 = 1 := by
  have h2 : (2 : Qr) = ⟨2, 0⟩ := (map_ofNat ofRat 2).symm
  rw [h2, pow_two]
  ext <;> simp [r0]

/-- The numeric environment over `Qr`: `recpSqrt2` is the genuine `1/√2`; the
near-zero predicate is the exact zero test (the weights arising in the
`Qr`-evaluated circuits are far from the spec's ε = 1e-30); `cos`/`sin` are
never consulted by the gates evaluated over `Qr`. -/
def qrConsts : Consts Qr :=
  { recpSqrt2 := r0, cos := fun _ => 0, sin := fun _ => 0,
    isZero := fun w => decide (w = 0) }

end Qr

/-! ## Expansion engine (`src/simulator/parallel_simulator/state_expander.rs`) -/

/-- Source `ExpandMethod`. -/
inductive ExpandMethod where
  | sparse
  | pushDense
  | pullDense
deriving DecidableEq, Repr

section Expander

variable {K : Type} [Field K]

/-- The mathematical content of the source `State`: either representation
holds, per basis index `< 2^N`, a complex amplitude.  The hash-table/array
realizations (`SparseStateTable`, `DenseStateTable`) live in the missing
`state.rs`; modelled from the spec (§4.2) as total amplitude maps. -/
inductive St (K : Type) where
  | sparse (v : Nat → Cplx K)
  | dense (v : Nat → Cplx K)

/-- `State::get` with the caller's `unwrap_or(0)` folded in (spec §6:
`get(bidx) → Option<Complex>`, missing = zero). -/
def St.get : St K → Nat → Cplx K
  | .sparse v, b => v b
  | .dense v, b => v b

/-- Number of table entries passing the near-zero filter (spec §4.2:
`num_nonzeros` scans counting cells passing the near-zero predicate). -/
def table_num_nonzeros (C : Consts K) (num_qubits : Nat) (v : Nat → Cplx K) : Nat :=
  ((Finset.range (2 ^ num_qubits)).filter fun x => C.isNonzero (v x) = true).card

/-- `State::num_nonzeros` (missing `state.rs`; modelled from the spec). -/
def St.num_nonzeros (C : Consts K) (num_qubits : Nat) : St K → Nat
  | .sparse v => table_num_nonzeros C num_qubits v
  | .dense v => table_num_nonzeros C num_qubits v

/-- Source `ExpandResult`. -/
structure ExpandResult (K : Type) where
  state : St K
  num_nonzeros : Nat
  num_gate_apps : Nat
  method : ExpandMethod

/-- Source `apply_gates` (dense push; also `apply_gates1/2` of the sparse path
under the no-overflow table model): recursively push the kernel through one
source `(bidx, weight)` pair.  Returns the list of `atomic_put`/`try_put`
calls the source performs plus the gate-application count it returns.  The
near-zero early return (`if is_zero(weight) { return 0 }`) is the first
branch. -/
def apply_gates (C : Consts K) (gates : List (Gate K)) (bidx : Nat)
    (weight : Cplx K) : List (Nat × Cplx K) × Nat :=
  if C.isZero weight then ([], 0)
  else
    match gates with
    | [] => ([(bidx, weight)], 0)
    | g :: rest =>
      match push_apply C g.defn bidx weight with
      | .nonbranching new_bidx new_weight =>
        let r := apply_gates C rest new_bidx new_weight
        (r.1, 1 + r.2)
      | .branching (new_bidx1, new_weight1) (new_bidx2, new_weight2) =>
        let r1 := apply_gates C rest new_bidx1 new_weight1
        let r2 := apply_gates C rest new_bidx2 new_weight2
        (r1.1 ++ r2.1, 1 + r1.2 + r2.2)

/-- The accumulated weight a list of puts contributes to cell `y` (the
content of the additive `atomic_put`/`try_put` contract, spec §4.2). -/
def puts_at (l : List (Nat × Cplx K)) (y : Nat) : Cplx K :=
  (l.map fun p => if p.1 = y then p.2 else 0).sum

/-- The source entries iterated by a push expansion: a sparse previous state
iterates `prev_table.nonzeros()` (near-zero filtered, spec §4.2); a dense one
iterates all `2^N` cells. -/
def push_sources (C : Consts K) (num_qubits : Nat) : St K → Finset Nat
  | .sparse v => (Finset.range (2 ^ num_qubits)).filter fun x => C.isNonzero (v x) = true
  | .dense _ => Finset.range (2 ^ num_qubits)

/-- Source `expand_push_dense`. -/
def expand_push_dense (C : Consts K) (gates : List (Gate K)) (num_qubits : Nat)
    (state : St K) : ExpandResult K :=
  let srcs := push_sources C num_qubits state
  let table := fun y => ∑ x ∈ srcs, puts_at (apply_gates C gates x (state.get x)).1 y
  { state := .dense table
    num_nonzeros := table_num_nonzeros C num_qubits table
    num_gate_apps := ∑ x ∈ srcs, (apply_gates C gates x (state.get x)).2
    method := .pushDense }

/-- Source `apply_pull_gates`: walk the kernel from first to last via each
gate's pull action; at kernel end read the previous state.  `none` models the
`pull_action.as_ref().unwrap()` panic on a gate without a pull action. -/
def apply_pull_gates (C : Consts K) (gates : List (Gate K)) (prev_state : St K)
    (bidx : Nat) : Option (Cplx K × Nat) :=
  match gates with
  | [] => some (prev_state.get bidx, 0)
  | g :: rest =>
    match g.pull_action with
    | none => none
    | some act =>
      match act bidx with
      | .nonbranching neighbor multiplier =>
        (apply_pull_gates C rest prev_state neighbor).map fun r =>
          (r.1 * multiplier, 1 + r.2)
      | .branching (neighbor1, multiplier1) (neighbor2, multiplier2) =>
        match apply_pull_gates C rest prev_state neighbor1,
            apply_pull_gates C rest prev_state neighbor2 with
        | some r1, some r2 =>
          some (r1.1 * multiplier1 + r2.1 * multiplier2, 1 + r1.2 + r2.2)
        | _, _ => none

/-- Source `expand_pull_dense`: per output cell `0 ≤ i < 2^N`, pull the kernel
and `atomic_put` the resulting weight; `num_gate_apps`/`num_nonzeros` are the
summed per-cell counts.  `none` models a panic of `apply_pull_gates` at some
cell. -/
def expand_pull_dense (C : Consts K) (gates : List (Gate K)) (num_qubits : Nat)
    (state : St K) : Option (ExpandResult K) :=
  let capacity := 2 ^ num_qubits
  if ∀ i ∈ Finset.range capacity, (apply_pull_gates C gates state i).isSome then
    let cell := fun i => (apply_pull_gates C gates state i).getD (0, 0)
    let table := fun i => if i < capacity then (cell i).1 else 0
    some
      { state := .dense table
        num_nonzeros :=
          ((Finset.range capacity).filter fun i => C.isNonzero (cell i).1 = true).card
        num_gate_apps := ∑ i ∈ Finset.range capacity, (cell i).2
        method := .pullDense }
  else none

/-- Spec §6 configuration record (the source `config.rs` is missing;
thresholds are exact rationals here). -/
structure Config where
  dense_threshold : ℚ
  pull_threshold : ℚ
  maxload : ℚ
  block_size : Nat

/-- `expected_cost` (called by `expand`; it lives in the missing
`simulator.rs`).  Modelled from the spec §4.4: `rate = max(1, C/P)`,
`expected = min(M, rate·C)`, `expected_density = expected/M`.  Division is
exact rational division; `P = 0` yields `rate = 1` by the `x/0 = 0`
convention. -/
def expected_cost (num_qubits num_nonzeros prev_num_nonzeros : Nat) : ℚ × Nat :=
  let max_num_states : ℚ := 2 ^ num_qubits
  let rate := max 1 ((num_nonzeros : ℚ) / (prev_num_nonzeros : ℚ))
  let expected := min max_num_states (rate * num_nonzeros)
  (expected / max_num_states, min (2 ^ num_qubits) (rate * (num_nonzeros : ℚ)).ceil.toNat)

/-- Source `expand_sparse`.  The `SparseStateTable` (missing `state.rs`) is
modelled from the spec as unbounded additive accumulation: `try_put` never
overflows, the `is_full` flag stays clear, and the block/postponed-path
resume machinery of the source degenerates to one complete pass whose puts
are those of `apply_gates1` (= `apply_gates`) on every source entry.  The
returned `num_gate_apps` is literally `0` as in the source
(`let num_gate_apps = 0;`), which discards the per-path counts. -/
def expand_sparse (C : Consts K) (gates : List (Gate K)) (num_qubits : Nat)
    (_config : Config) (_expected_num_nonzeros : Nat) (state : St K) :
    ExpandResult K :=
  let srcs := push_sources C num_qubits state
  let table := fun y => ∑ x ∈ srcs, puts_at (apply_gates C gates x (state.get x)).1 y
  { state := .sparse table
    num_nonzeros := table_num_nonzeros C num_qubits table
    num_gate_apps := 0
    method := .sparse }

/-- Source `expand`: density-driven dispatch between the three expansion
methods.  `none` models the `assert!(dense_threshold <= pull_threshold)`
panic (or a panic inside `expand_pull_dense`, which the pullability guard in
fact rules out). -/
def expand (C : Consts K) (gates : List (Gate K)) (config : Config)
    (num_qubits prev_num_nonzeros : Nat) (state : St K) :
    Option (ExpandResult K) :=
  let costs := expected_cost num_qubits (state.num_nonzeros C num_qubits) prev_num_nonzeros
  let expected_density := costs.1
  let expected_num_nonzeros := costs.2
  let all_gates_pullable := gates.all fun gate => gate.is_pullable
  if ¬(config.dense_threshold ≤ config.pull_threshold) then none
  else if expected_density < config.dense_threshold then
    some (expand_sparse C gates num_qubits config expected_num_nonzeros state)
  else if config.pull_threshold ≤ expected_density ∧ all_gates_pullable = true then
    expand_pull_dense C gates num_qubits state
  else some (expand_push_dense C gates num_qubits state)

end Expander

/-! ## Greedy nonbranching gate scheduler
(`src/gate_scheduler/greedy_nonbranching_gate_scheduler.rs`)

The scheduler state carries the per-qubit frontier.  The source's `HashSet`
of touched qubits per gate is a `List Nat` here (iteration order is
irrelevant: `visit` updates distinct frontier entries).  The two source
`loop`s have no structural bound, so they take explicit fuel; the fuel
`num_gates + 1` is proved sufficient under the scheduler invariant (each
productive iteration visits a fresh gate). -/

/-- Source `GreedyNonbranchingGateScheduler`'s fields. -/
structure GNBScheduler where
  frontier : List Nat
  num_gates : Nat
  num_qubits : Nat
  gate_touches : List (List Nat)
  gate_is_branching : List Bool
  max_branching_stride : Nat
deriving DecidableEq, Repr

/-- Source free function `next_touch`. -/
def next_touch (num_gates : Nat) (gate_touches : List (List Nat)) (qi gi : Nat) :
    Nat :=
  if gi ≥ num_gates then num_gates
  else if qi ∈ gate_touches.getD gi [] then gi
  else next_touch num_gates gate_touches qi (gi + 1)
termination_by num_gates - gi
decreasing_by omega

namespace GNBScheduler

/-- Source `GreedyNonbranchingGateScheduler::new` (`max_branching_stride = 2`). -/
def new (num_gates num_qubits : Nat) (gate_touches : List (List Nat))
    (gate_is_branching : List Bool) : GNBScheduler :=
  { frontier := (List.range num_qubits).map fun qi => next_touch num_gates gate_touches qi 0
    num_gates := num_gates
    num_qubits := num_qubits
    gate_touches := gate_touches
    gate_is_branching := gate_is_branching
    max_branching_stride := 2 }

/-- Source `okay_to_visit`. -/
def okay_to_visit (s : GNBScheduler) (gi : Nat) : Bool :=
  gi < s.num_gates && (s.gate_touches.getD gi []).all fun qi => s.frontier.getD qi 0 == gi

/-- Source `visit`: advance the frontier of every qubit the gate touches. -/
def visit (s : GNBScheduler) (gi : Nat) : GNBScheduler :=
  { s with
    frontier := (s.gate_touches.getD gi []).foldl
      (fun f qi => f.set qi (next_touch s.num_gates s.gate_touches qi (gi + 1)))
      s.frontier }

/-- The inner `loop` of `visit_maximal_nonbranching_run` for one qubit `qi`
(fuelled). -/
def visit_qubit_chain (fuel : Nat) (s : GNBScheduler) (qi : Nat)
    (sel : List Nat) : GNBScheduler × List Nat :=
  match fuel with
  | 0 => (s, sel)
  | fuel + 1 =>
    let next_gi := s.frontier.getD qi 0
    if next_gi ≥ s.num_gates || s.gate_is_branching.getD next_gi false
        || !s.okay_to_visit next_gi then
      (s, sel)
    else
      visit_qubit_chain fuel (s.visit next_gi) qi (sel ++ [next_gi])

/-- The `for qi in 0..num_qubits` sweep of `visit_maximal_nonbranching_run`,
collecting one `selection`. -/
def sweep_qubits (inner_fuel : Nat) (s : GNBScheduler) : GNBScheduler × List Nat :=
  (List.range s.num_qubits).foldl
    (fun acc qi => visit_qubit_chain inner_fuel acc.1 qi acc.2) (s, [])

/-- Source `visit_maximal_nonbranching_run` (outer `loop` fuelled): repeat the
qubit sweep until it selects nothing. -/
def visit_maximal_run (outer_fuel inner_fuel : Nat) (s : GNBScheduler)
    (acc : List Nat) : GNBScheduler × List Nat :=
  match outer_fuel with
  | 0 => (s, acc)
  | fuel + 1 =>
    let step := sweep_qubits inner_fuel s
    if step.2.isEmpty then (step.1, acc)
    else visit_maximal_run fuel inner_fuel step.1 (acc ++ step.2)

/-- Source `visit_branching`: the first frontier entry that is a ready
branching gate, visited. -/
def visit_branching (s : GNBScheduler) : Option Nat × GNBScheduler :=
  let result := s.frontier.find? fun gi =>
    gi < s.num_gates && s.gate_is_branching.getD gi false && s.okay_to_visit gi
  match result with
  | some gi => (some gi, s.visit gi)
  | none => (none, s)

/-- The `while num_branching_so_far < max_branching_stride` loop of
`pick_next_gates`; structural recursion on the remaining branching budget.
The trailing `assert!` of the source (no returned gate is still
`okay_to_visit`) always holds under the scheduler invariant and is not
modelled. -/
def pick_loop (remaining fuel : Nat) (s : GNBScheduler) (acc : List Nat) :
    List Nat × GNBScheduler :=
  match remaining with
  | 0 => (acc, s)
  | r + 1 =>
    let step := visit_maximal_run fuel fuel s []
    let acc1 := acc ++ step.2
    match visit_branching step.1 with
    | (some gi, s2) => pick_loop r fuel s2 (acc1 ++ [gi])
    | (none, s2) => (acc1, s2)

/-- Source `pick_next_gates` (loop fuel `num_gates + 1`). -/
def pick_next_gates (s : GNBScheduler) : List Nat × GNBScheduler :=
  pick_loop s.max_branching_stride (s.num_gates + 1) s []

/-- Run `pick_next_gates` repeatedly until it returns an empty kernel,
collecting the kernels. -/
def run_scheduler (fuel : Nat) (s : GNBScheduler) : List (List Nat) :=
  match fuel with
  | 0 => []
  | fuel + 1 =>
    let step := pick_next_gates s
    if step.1.isEmpty then [] else step.1 :: run_scheduler fuel step.2

end GNBScheduler

/-! ## Weight homogeneity of push application (claim C10 and supporting
lemmas) -/

/-- Scale every output weight by `z`, keeping the output bases. -/
def PushApplyOutput.scale {K : Type} [Field K] (z : Cplx K) :
    PushApplyOutput K → PushApplyOutput K
  | .nonbranching b w => .nonbranching b (z * w)
  | .branching (b1, w1) (b2, w2) => .branching (b1, z * w1) (b2, z * w2)

section Homogeneity

variable {K : Type} [Field K]

theorem single_qubit_unitary_push_smul (C : Consts K) (bidx : Nat) (z w : Cplx K)
    (target : Nat) (a b c d : Cplx K) :
    single_qubit_unitary_push C bidx (z * w) target a b c d
      = (single_qubit_unitary_push C bidx w target a b c d).scale z := by
  unfold single_qubit_unitary_push
  split_ifs <;> simp only [PushApplyOutput.scale] <;> congr 1 <;> ring

theorem push_apply_smul (C : Consts K) (g : GateDefn K) (bidx : Nat)
    (z w : Cplx K) :
    push_apply C g bidx (z * w) = (push_apply C g bidx w).scale z := by
  cases g
  case FSim left right theta phi =>
    simp only [push_apply]
    cases hl : Basis.get bidx left <;> cases hr : Basis.get bidx right <;>
      simp only [PushApplyOutput.scale] <;>
      (try split_ifs) <;> congr 1 <;> ring
  all_goals
    simp only [push_apply, PushApplyOutput.scale, Cplx.rmul_eq_mul,
      single_qubit_unitary_push_smul]
  all_goals
    try (split_ifs <;> congr 1 <;> ring)

end Homogeneity

/-- **C10** (confirmed): `push_apply` is homogeneous in the weight: scaling
the input weight by a complex scalar `z` leaves every output basis unchanged
and scales every output weight by `z` (the content of
`PushApplyOutput.scale`).  This underwrites `push_to_pull`'s probing of gates
at unit weight. -/
theorem c10_push_apply_homogeneous {K : Type} [Field K] (C : Consts K)
    (g : GateDefn K) (bidx : Nat) (z w : Cplx K) :
    push_apply C g bidx (z * w) = (push_apply C g bidx w).scale z :=
  push_apply_smul C g bidx z w

/-- **C9** (corrected): the `assert!`s of the single-qubit 2×2 unitary
routines fail exactly when some ROW of `(a, b; c, d)` is wholly near-zero —
`(a, b)` or `(c, d)` — not, as the claim states, some column `(a, c)` or
`(b, d)`. -/
theorem c9_unitary_assert_rows {K : Type} [Field K] (C : Consts K)
    (bidx : Nat) (weight : Cplx K) (target : Nat) (a b c d : Cplx K) :
    (single_qubit_unitary_push_checked C bidx weight target a b c d = none
      ↔ ((C.isZero a = true ∧ C.isZero b = true)
          ∨ (C.isZero c = true ∧ C.isZero d = true)))
    ∧ (single_qubit_unitary_pull_checked C bidx target a b c d = none
      ↔ ((C.isZero a = true ∧ C.isZero b = true)
          ∨ (C.isZero c = true ∧ C.isZero d = true))) := by
  cases ha : C.isZero a <;> cases hb : C.isZero b <;> cases hc : C.isZero c <;>
    cases hd : C.isZero d <;>
    simp [single_qubit_unitary_push_checked, single_qubit_unitary_pull_checked,
      ha, hb, hc, hd]

theorem is_zero_spec_zero : is_zero_spec 0 = true := by
  simp [is_zero_spec]

theorem is_zero_spec_one : is_zero_spec (Cplx.mk 1 0) = false := by
  simp [is_zero_spec]
  norm_num

/-- **C9**, counterexample: for the matrix `(a, b; c, d) = (0, 1; 0, 1)` the
column `(a, c) = (0, 0)` is wholly (near-)zero, yet neither checked routine
panics — refuting "they fail the assertion exactly when some column is wholly
zero" at a concrete input (over `ℚ` with the spec's ε = 1e-30 predicate). -/
theorem c9_column_counterexample :
    ratConsts.isZero (Cplx.mk 0 0) = true
    ∧ ratConsts.isZero (Cplx.mk 0 0) = true
    ∧ (single_qubit_unitary_push_checked ratConsts 0 (Cplx.mk 1 0) 0
        (Cplx.mk 0 0) (Cplx.mk 1 0) (Cplx.mk 0 0) (Cplx.mk 1 0)).isSome = true
    ∧ (single_qubit_unitary_pull_checked ratConsts 0 0
        (Cplx.mk 0 0) (Cplx.mk 1 0) (Cplx.mk 0 0) (Cplx.mk 1 0)).isSome = true := by
  have h0 : ratConsts.isZero (Cplx.mk 0 0) = true := is_zero_spec_zero
  have h1 : ratConsts.isZero (Cplx.mk 1 0) = false := is_zero_spec_one
  refine ⟨h0, h0, ?_, ?_⟩ <;>
    simp [single_qubit_unitary_push_checked, single_qubit_unitary_pull_checked,
      h0, h1]

/-! ## Push-pull duality per gate (claims C2, C1 groundwork)

`outContrib out y` is the weight a push output contributes to cell `y`;
`push_contrib_sum` totals it over all `2^N` inputs; `pullEval` evaluates a
pull output against previous amplitudes, in the source's
`weight * multiplier` orientation. -/

section Duality

variable {K : Type} [Field K]

@[simp] theorem Cplx.mk_one : (Cplx.mk 1 0 : Cplx K) = 1 := rfl

@[simp] theorem Cplx.mk_zero : (Cplx.mk 0 0 : Cplx K) = 0 := rfl

theorem Cplx.mk_neg_one : (Cplx.mk (-1) 0 : Cplx K) = -1 := by ext <;> simp

/-- The weight a `push_apply` output contributes to output basis `y`. -/
def outContrib : PushApplyOutput K → Nat → Cplx K
  | .nonbranching b w, y => if b = y then w else 0
  | .branching (b1, w1) (b2, w2), y =>
      (if b1 = y then w1 else 0) + (if b2 = y then w2 else 0)

/-- Total weight pushed into output basis `y` from all `2^N` input bases with
amplitudes `amp` under one gate. -/
def push_contrib_sum (C : Consts K) (g : GateDefn K) (N : Nat)
    (amp : Nat → Cplx K) (y : Nat) : Cplx K :=
  ∑ x ∈ Finset.range (2 ^ N), outContrib (push_apply C g x (amp x)) y

/-- Evaluate a pull output against previous amplitudes: `Σᵢ amp nᵢ · mᵢ`. -/
def pullEval : PullApplyOutput K → (Nat → Cplx K) → Cplx K
  | .nonbranching n m, amp => amp n * m
  | .branching (n1, m1) (n2, m2), amp => amp n1 * m1 + amp n2 * m2

/-- Summation lemma for permutation×phase gates: if push maps `x` to `π x`
with phase `φ x`, and `σ y` is the unique preimage of `y`, the pushed sum at
`y` collapses to one term. -/
theorem sum_outContrib_perm (C : Consts K) (g : GateDefn K) {N : Nat}
    (amp : Nat → Cplx K) {y : Nat} (π σ : Nat → Nat) (φ : Nat → Cplx K)
    (hpush : ∀ x, push_apply C g x (amp x) = .nonbranching (π x) (amp x * φ x))
    (hmem : σ y < 2 ^ N) (hπσ : π (σ y) = y)
    (hinj : ∀ x, π x = y → x = σ y) :
    push_contrib_sum C g N amp y = amp (σ y) * φ (σ y) := by
  unfold push_contrib_sum
  rw [Finset.sum_eq_single (σ y)]
  · rw [hpush (σ y)]
    simp [outContrib, hπσ]
  · intro x _ hne
    rw [hpush x]
    simp only [outContrib]
    rw [if_neg fun h => hne (hinj x h)]
  · intro h
    exact absurd (Finset.mem_range.mpr hmem) h

/-- `Basis.set x t = y` characterization when `y`'s bit `t` is set. -/
theorem set_eq_iff {x y t : Nat} (hy : Basis.get y t = true) :
    Basis.set x t = y ↔ x = Basis.unset y t ∨ x = y := by
  constructor
  · intro h
    rcases hx : Basis.get x t with hfalse | htrue
    · left
      rw [← h, Basis.unset_set, Basis.unset_eq_self_of_get hx]
    · right
      rw [← h, Basis.set_eq_self_of_get hx]
  · rintro (rfl | rfl)
    · rw [Basis.set_unset, Basis.set_eq_self_of_get hy]
    · exact Basis.set_eq_self_of_get hy

/-- `Basis.unset x t = y` characterization when `y`'s bit `t` is clear. -/
theorem unset_eq_iff {x y t : Nat} (hy : Basis.get y t = false) :
    Basis.unset x t = y ↔ x = Basis.set y t ∨ x = y := by
  constructor
  · intro h
    rcases hx : Basis.get x t with hfalse | htrue
    · right
      rw [← h, Basis.unset_eq_self_of_get hx]
    · left
      rw [← h, Basis.set_unset, Basis.set_eq_self_of_get hx]
  · rintro (rfl | rfl)
    · rw [Basis.unset_set, Basis.unset_eq_self_of_get hy]
    · exact Basis.unset_eq_self_of_get hy

/-- Summation lemma for branching single-qubit gates with transition weights
`M i j` (input bit `i` → output bit `j`). -/
theorem sum_outContrib_branching (C : Consts K) (g : GateDefn K) {N : Nat}
    (amp : Nat → Cplx K) {y t : Nat} (M00 M01 M10 M11 : Cplx K)
    (hpush : ∀ x, push_apply C g x (amp x) = .branching
        (Basis.unset x t, amp x * (if Basis.get x t then M10 else M00))
        (Basis.set x t, amp x * (if Basis.get x t then M11 else M01)))
    (ht : t < N) (hy : y < 2 ^ N) :
    push_contrib_sum C g N amp y
      = amp (Basis.unset y t) * (if Basis.get y t then M01 else M00)
        + amp (Basis.set y t) * (if Basis.get y t then M11 else M10) := by
  unfold push_contrib_sum
  rcases hb : Basis.get y t with hfalse | htrue
  · -- bit of y is clear: sources are y (bit clear) and set y t (bit set)
    have hyy : Basis.unset y t = y := Basis.unset_eq_self_of_get hb
    have hne : y ≠ Basis.set y t := by
      intro h
      have := Basis.get_set_self y t
      rw [← h, hb] at this
      cases this
    have hsub : ({y, Basis.set y t} : Finset Nat) ⊆ Finset.range (2 ^ N) := by
      intro z hz
      rcases Finset.mem_insert.mp hz with rfl | hz2
      · exact Finset.mem_range.mpr hy
      · rw [Finset.mem_singleton.mp hz2]
        exact Finset.mem_range.mpr (Basis.set_lt hy ht)
    rw [← Finset.sum_subset hsub]
    · rw [Finset.sum_insert (by simpa using hne), Finset.sum_singleton]
      rw [hpush y, hpush (Basis.set y t)]
      simp only [outContrib, hb, hyy]
      have h1 : Basis.get (Basis.set y t) t = true := Basis.get_set_self y t
      have h2 : Basis.unset (Basis.set y t) t = y := by
        rw [Basis.unset_set, hyy]
      have h3 : Basis.set (Basis.set y t) t ≠ y := by
        rw [Basis.set_eq_self_of_get h1]
        exact fun h => hne h.symm
      have h4 : Basis.set y t ≠ y := fun h => hne h.symm
      simp [h1, h2, h3, h4, hyy]
    · intro x hx hnotin
      rw [hpush x]
      simp only [outContrib]
      have hx1 : Basis.unset x t ≠ y := by
        intro h
        rcases (unset_eq_iff hb).mp h with rfl | rfl
        · exact hnotin (by simp)
        · exact hnotin (by simp)
      have hx2 : Basis.set x t ≠ y := by
        intro h
        have := Basis.get_set_self x t
        rw [h, hb] at this
        cases this
      rw [if_neg hx1, if_neg hx2, add_zero]
  · -- bit of y is set: sources are unset y t (bit clear) and y (bit set)
    have hyy : Basis.set y t = y := Basis.set_eq_self_of_get hb
    have hne : Basis.unset y t ≠ y := by
      intro h
      have := Basis.get_unset_self y t
      rw [h, hb] at this
      cases this
    have hsub : ({Basis.unset y t, y} : Finset Nat) ⊆ Finset.range (2 ^ N) := by
      intro z hz
      rcases Finset.mem_insert.mp hz with rfl | hz2
      · exact Finset.mem_range.mpr (Basis.unset_lt hy ht)
      · rw [Finset.mem_singleton.mp hz2]
        exact Finset.mem_range.mpr hy
    rw [← Finset.sum_subset hsub]
    · rw [Finset.sum_insert (by simpa using hne), Finset.sum_singleton]
      rw [hpush (Basis.unset y t), hpush y]
      simp only [outContrib, hb]
      have h1 : Basis.get (Basis.unset y t) t = false := Basis.get_unset_self y t
      have h2 : Basis.set (Basis.unset y t) t = y := by
        rw [Basis.set_unset, hyy]
      have h3 : Basis.unset (Basis.unset y t) t ≠ y := by
        rw [Basis.unset_eq_self_of_get h1]
        exact hne
      have h4 : Basis.unset y t ≠ y := hne
      simp [h1, h2, h3, h4, hyy]
    · intro x hx hnotin
      rw [hpush x]
      simp only [outContrib]
      have hx2 : Basis.set x t ≠ y := by
        intro h
        rcases (set_eq_iff hb).mp h with rfl | rfl
        · exact hnotin (by simp)
        · exact hnotin (by simp)
      have hx1 : Basis.unset x t ≠ y := by
        intro h
        have := Basis.get_unset_self x t
        rw [h, hb] at this
        cases this
      rw [if_neg hx1, if_neg hx2, add_zero]

end Duality

/-! ## Closed forms of the `push_to_pull`-derived pull actions -/

section EvalLemmas
variable {K : Type} [Field K]

theorem flip_zeros_ne (q : Nat) : Basis.flip Basis.zeros q ≠ Basis.zeros := by
  simp [Basis.flip, Basis.zeros]

theorem cpa_S (C : Consts K) (q : Nat) :
    create_pull_action C (.S q) = some fun bidx =>
      .nonbranching bidx (if Basis.get bidx q then Cplx.mk 0 1 else 1) := by
  simp [create_pull_action, push_to_pull, create_touches, branching_type,
    push_apply, Basis.get_zeros, Basis.get_set_self]

theorem cpa_Sdg (C : Consts K) (q : Nat) :
    create_pull_action C (.Sdg q) = some fun bidx =>
      .nonbranching bidx (if Basis.get bidx q then Cplx.mk 0 (-1) else 1) := by
  simp [create_pull_action, push_to_pull, create_touches, branching_type,
    push_apply, Basis.get_zeros, Basis.get_set_self]

theorem cpa_T (C : Consts K) (q : Nat) :
    create_pull_action C (.T q) = some fun bidx =>
      .nonbranching bidx
        (if Basis.get bidx q then Cplx.mk C.recpSqrt2 C.recpSqrt2 else 1) := by
  simp [create_pull_action, push_to_pull, create_touches, branching_type,
    push_apply, Basis.get_zeros, Basis.get_set_self]

theorem cpa_Tdg (C : Consts K) (q : Nat) :
    create_pull_action C (.Tdg q) = some fun bidx =>
      .nonbranching bidx
        (if Basis.get bidx q then Cplx.mk C.recpSqrt2 (-C.recpSqrt2) else 1) := by
  simp [create_pull_action, push_to_pull, create_touches, branching_type,
    push_apply, Basis.get_zeros, Basis.get_set_self]

theorem cpa_PauliZ (C : Consts K) (q : Nat) :
    create_pull_action C (.PauliZ q) = some fun bidx =>
      .nonbranching bidx (if Basis.get bidx q then -1 else 1) := by
  simp [create_pull_action, push_to_pull, create_touches, branching_type,
    push_apply, Basis.get_zeros, Basis.get_set_self]

theorem cpa_X (C : Consts K) (q : Nat) :
    create_pull_action C (.X q) = some fun bidx =>
      .nonbranching (Basis.flip bidx q) 1 := by
  simp [create_pull_action, push_to_pull, create_touches, branching_type,
    push_apply, Basis.get_zeros, Basis.get_set_self, flip_zeros_ne]

theorem cpa_PauliY (C : Consts K) (q : Nat) :
    create_pull_action C (.PauliY q) = some fun bidx =>
      .nonbranching (Basis.flip bidx q)
        (if Basis.get bidx q then Cplx.mk 0 1 else Cplx.mk 0 (-1)) := by
  simp [create_pull_action, push_to_pull, create_touches, branching_type,
    push_apply, Basis.get_zeros, Basis.get_set_self, flip_zeros_ne]

theorem swap_eq_of_tf {b q1 q2 : Nat} (h : q1 ≠ q2) (h1 : Basis.get b q1 = true)
    (h2 : Basis.get b q2 = false) :
    Basis.set (Basis.unset b q1) q2 = Basis.swap b q1 q2 := by
  refine Basis.ext_testBit fun i => ?_
  rcases eq_or_ne i q1 with rfl | hne1
  · rw [Basis.get_swap_fst _ h, h2, Basis.get_set_of_ne _ h, Basis.get_unset_self]
  rcases eq_or_ne i q2 with rfl | hne2
  · rw [Basis.get_swap_snd _ h, h1, Basis.get_set_self]
  · rw [Basis.get_swap_of_ne _ hne1 hne2, Basis.get_set_of_ne _ hne2,
      Basis.get_unset_of_ne _ hne1]

theorem swap_eq_of_ft {b q1 q2 : Nat} (h : q1 ≠ q2) (h1 : Basis.get b q1 = false)
    (h2 : Basis.get b q2 = true) :
    Basis.unset (Basis.set b q1) q2 = Basis.swap b q1 q2 := by
  refine Basis.ext_testBit fun i => ?_
  rcases eq_or_ne i q1 with rfl | hne1
  · rw [Basis.get_swap_fst _ h, h2, Basis.get_unset_of_ne _ h, Basis.get_set_self]
  rcases eq_or_ne i q2 with rfl | hne2
  · rw [Basis.get_swap_snd _ h, h1, Basis.get_unset_self]
  · rw [Basis.get_swap_of_ne _ hne1 hne2, Basis.get_unset_of_ne _ hne2,
      Basis.get_set_of_ne _ hne1]

theorem cpa_CPhase (C : Consts K) {control target : Nat} (h : control ≠ target)
    (rot : K) :
    create_pull_action C (.CPhase control target rot) = some fun bidx =>
      .nonbranching bidx
        (if Basis.get bidx control && Basis.get bidx target then
          Cplx.mk (C.cos rot) (C.sin rot)
        else 1) := by
  have hts : target ≠ control := h.symm
  simp [create_pull_action, push_to_pull, create_touches, branching_type,
    push_apply, Basis.get_zeros, Basis.get_set_self,
    Basis.get_set_of_ne _ h, Basis.get_set_of_ne _ hts]
  funext bidx
  rcases h1 : Basis.get bidx control <;> rcases h2 : Basis.get bidx target <;>
    simp [h1, h2, Basis.get_set_self, Basis.get_set_of_ne _ h,
      Basis.get_set_of_ne _ hts, Basis.get_zeros,
      Basis.set_eq_self_of_get, Basis.unset_eq_self_of_get]

theorem swap_eq_self_of_eq {b q1 q2 : Nat}
    (h : Basis.get b q1 = Basis.get b q2) : Basis.swap b q1 q2 = b := by
  simp [Basis.swap, h]

theorem cpa_Swap (C : Consts K) {t1 t2 : Nat} (h : t1 ≠ t2) :
    create_pull_action C (.Swap t1 t2) = some fun bidx =>
      .nonbranching (Basis.swap bidx t1 t2) 1 := by
  have hts : t2 ≠ t1 := h.symm
  simp [create_pull_action, push_to_pull, create_touches, branching_type,
    push_apply, Basis.get_zeros, Basis.get_set_self, Basis.get_set_of_ne _ h,
    Basis.get_set_of_ne _ hts, Basis.get_swap_fst _ h, Basis.get_swap_snd _ h]
  funext bidx
  rcases h1 : Basis.get bidx t1 <;> rcases h2 : Basis.get bidx t2 <;>
    simp [h1, h2, Basis.get_swap_fst _ h, Basis.get_swap_snd _ h,
      Basis.get_set_self, Basis.get_set_of_ne _ h, Basis.get_set_of_ne _ hts,
      Basis.get_zeros, Basis.get_unset_self, Basis.swap_self,
      Basis.set_eq_self_of_get, Basis.unset_eq_self_of_get,
      swap_eq_of_tf h, swap_eq_of_ft h, swap_eq_self_of_eq]

end EvalLemmas

/-! ## Per-gate push-pull duality lemmas -/

section DualityCases
variable {K : Type} [Field K]

/-- Specialization of `sum_outContrib_perm` to diagonal (identity-permutation)
gates. -/
theorem sum_outContrib_diag (C : Consts K) (g : GateDefn K) {N : Nat}
    (amp : Nat → Cplx K) {y : Nat} (φ : Nat → Cplx K)
    (hpush : ∀ x, push_apply C g x (amp x) = .nonbranching x (amp x * φ x))
    (hy : y < 2 ^ N) :
    push_contrib_sum C g N amp y = amp y * φ y :=
  sum_outContrib_perm C g amp id id φ hpush hy rfl (fun _ h => h)

/-- Specialization of `sum_outContrib_perm` to involutive permutations. -/
theorem sum_outContrib_invol (C : Consts K) (g : GateDefn K) {N : Nat}
    (amp : Nat → Cplx K) {y : Nat} (π : Nat → Nat) (φ : Nat → Cplx K)
    (hpush : ∀ x, push_apply C g x (amp x) = .nonbranching (π x) (amp x * φ x))
    (hπ : ∀ z, π (π z) = z) (hmem : π y < 2 ^ N) :
    push_contrib_sum C g N amp y = amp (π y) * φ (π y) :=
  sum_outContrib_perm C g amp π π φ hpush hmem (hπ y)
    (fun x h => by rw [← h, hπ])

theorem duality_CX (C : Consts K) {N c t : Nat} (_hc : c < N) (ht : t < N)
    (hne : c ≠ t) (act : Nat → PullApplyOutput K)
    (hact : create_pull_action C (.CX c t) = some act)
    (amp : Nat → Cplx K) {y : Nat} (hy : y < 2 ^ N) :
    push_contrib_sum C (.CX c t) N amp y = pullEval (act y) amp := by
  simp only [create_pull_action, Option.some.injEq] at hact
  subst hact
  have hpush : ∀ x, push_apply C (.CX c t) x (amp x)
      = .nonbranching (if Basis.get x c then Basis.flip x t else x) (amp x * 1) := by
    intro x
    by_cases hx : Basis.get x c <;> simp [push_apply, hx]
  have hπ : ∀ z, (if Basis.get (if Basis.get z c then Basis.flip z t else z) c
      then Basis.flip (if Basis.get z c then Basis.flip z t else z) t
      else (if Basis.get z c then Basis.flip z t else z)) = z := by
    intro z
    by_cases hz : Basis.get z c <;>
      simp [hz, Basis.get_flip_of_ne _ hne, Basis.flip_flip]
  rw [sum_outContrib_invol C _ amp (fun x => if Basis.get x c then Basis.flip x t else x)
    (fun _ => 1) hpush hπ (by
      by_cases hyc : Basis.get y c <;> simp [hyc, Basis.flip_lt hy ht, hy])]
  by_cases hyc : Basis.get y c <;> simp [pullEval, hyc]

theorem duality_CZ (C : Consts K) {N c t : Nat} (_hc : c < N) (_ht : t < N)
    (act : Nat → PullApplyOutput K)
    (hact : create_pull_action C (.CZ c t) = some act)
    (amp : Nat → Cplx K) {y : Nat} (hy : y < 2 ^ N) :
    push_contrib_sum C (.CZ c t) N amp y = pullEval (act y) amp := by
  simp only [create_pull_action, Option.some.injEq] at hact
  subst hact
  have hpush : ∀ x, push_apply C (.CZ c t) x (amp x)
      = .nonbranching x (amp x *
          (if Basis.get x c && Basis.get x t then -1 else 1)) := by
    intro x
    by_cases hx1 : Basis.get x c <;> by_cases hx2 : Basis.get x t <;>
      (simp [push_apply, hx1, hx2]; try ring)
  rw [sum_outContrib_diag C _ amp _ hpush hy]
  by_cases hy1 : Basis.get y c <;> by_cases hy2 : Basis.get y t <;>
    simp [pullEval, hy1, hy2, Cplx.mk_neg_one]

theorem duality_Phase (C : Consts K) {N t : Nat} (_ht : t < N) (rot : K)
    (act : Nat → PullApplyOutput K)
    (hact : create_pull_action C (.Phase rot t) = some act)
    (amp : Nat → Cplx K) {y : Nat} (hy : y < 2 ^ N) :
    push_contrib_sum C (.Phase rot t) N amp y = pullEval (act y) amp := by
  simp only [create_pull_action, Option.some.injEq] at hact
  subst hact
  have hpush : ∀ x, push_apply C (.Phase rot t) x (amp x)
      = .nonbranching x (amp x *
          (if Basis.get x t then Cplx.mk (C.cos rot) (C.sin rot) else 1)) := by
    intro x
    by_cases hx : Basis.get x t <;> simp [push_apply, hx]
  rw [sum_outContrib_diag C _ amp _ hpush hy]
  by_cases hyt : Basis.get y t <;> simp [pullEval, hyt]

theorem duality_RZ (C : Consts K) {N t : Nat} (_ht : t < N) (rot : K)
    (act : Nat → PullApplyOutput K)
    (hact : create_pull_action C (.RZ rot t) = some act)
    (amp : Nat → Cplx K) {y : Nat} (hy : y < 2 ^ N) :
    push_contrib_sum C (.RZ rot t) N amp y = pullEval (act y) amp := by
  simp only [create_pull_action, Option.some.injEq] at hact
  subst hact
  have hpush : ∀ x, push_apply C (.RZ rot t) x (amp x)
      = .nonbranching x (amp x *
          (if Basis.get x t then Cplx.mk (C.cos (rot / 2)) (C.sin (rot / 2))
            else Cplx.mk (C.cos (rot / 2)) (-(C.sin (rot / 2))))) := by
    intro x
    by_cases hx : Basis.get x t <;> simp [push_apply, hx]
  rw [sum_outContrib_diag C _ amp _ hpush hy]
  by_cases hyt : Basis.get y t <;> simp [pullEval, hyt]

theorem duality_S (C : Consts K) {N q : Nat} (_hq : q < N)
    (act : Nat → PullApplyOutput K)
    (hact : create_pull_action C (.S q) = some act)
    (amp : Nat → Cplx K) {y : Nat} (hy : y < 2 ^ N) :
    push_contrib_sum C (.S q) N amp y = pullEval (act y) amp := by
  rw [cpa_S C q] at hact
  replace hact := Option.some.inj hact
  subst hact
  have hpush : ∀ x, push_apply C (.S q) x (amp x)
      = .nonbranching x (amp x * (if Basis.get x q then Cplx.mk 0 1 else 1)) := by
    intro x
    by_cases hx : Basis.get x q <;> simp [push_apply, hx]
  rw [sum_outContrib_diag C _ amp _ hpush hy]
  by_cases hyq : Basis.get y q <;> simp [pullEval, hyq]

theorem duality_Sdg (C : Consts K) {N q : Nat} (_hq : q < N)
    (act : Nat → PullApplyOutput K)
    (hact : create_pull_action C (.Sdg q) = some act)
    (amp : Nat → Cplx K) {y : Nat} (hy : y < 2 ^ N) :
    push_contrib_sum C (.Sdg q) N amp y = pullEval (act y) amp := by
  rw [cpa_Sdg C q] at hact
  replace hact := Option.some.inj hact
  subst hact
  have hpush : ∀ x, push_apply C (.Sdg q) x (amp x)
      = .nonbranching x (amp x * (if Basis.get x q then Cplx.mk 0 (-1) else 1)) := by
    intro x
    by_cases hx : Basis.get x q <;> simp [push_apply, hx]
  rw [sum_outContrib_diag C _ amp _ hpush hy]
  by_cases hyq : Basis.get y q <;> simp [pullEval, hyq]

theorem duality_T (C : Consts K) {N q : Nat} (_hq : q < N)
    (act : Nat → PullApplyOutput K)
    (hact : create_pull_action C (.T q) = some act)
    (amp : Nat → Cplx K) {y : Nat} (hy : y < 2 ^ N) :
    push_contrib_sum C (.T q) N amp y = pullEval (act y) amp := by
  rw [cpa_T C q] at hact
  replace hact := Option.some.inj hact
  subst hact
  have hpush : ∀ x, push_apply C (.T q) x (amp x)
      = .nonbranching x (amp x *
          (if Basis.get x q then Cplx.mk C.recpSqrt2 C.recpSqrt2 else 1)) := by
    intro x
    by_cases hx : Basis.get x q <;> simp [push_apply, hx]
  rw [sum_outContrib_diag C _ amp _ hpush hy]
  by_cases hyq : Basis.get y q <;> simp [pullEval, hyq]

theorem duality_Tdg (C : Consts K) {N q : Nat} (_hq : q < N)
    (act : Nat → PullApplyOutput K)
    (hact : create_pull_action C (.Tdg q) = some act)
    (amp : Nat → Cplx K) {y : Nat} (hy : y < 2 ^ N) :
    push_contrib_sum C (.Tdg q) N amp y = pullEval (act y) amp := by
  rw [cpa_Tdg C q] at hact
  replace hact := Option.some.inj hact
  subst hact
  have hpush : ∀ x, push_apply C (.Tdg q) x (amp x)
      = .nonbranching x (amp x *
          (if Basis.get x q then Cplx.mk C.recpSqrt2 (-C.recpSqrt2) else 1)) := by
    intro x
    by_cases hx : Basis.get x q <;> simp [push_apply, hx]
  rw [sum_outContrib_diag C _ amp _ hpush hy]
  by_cases hyq : Basis.get y q <;> simp [pullEval, hyq]

theorem duality_PauliZ (C : Consts K) {N q : Nat} (_hq : q < N)
    (act : Nat → PullApplyOutput K)
    (hact : create_pull_action C (.PauliZ q) = some act)
    (amp : Nat → Cplx K) {y : Nat} (hy : y < 2 ^ N) :
    push_contrib_sum C (.PauliZ q) N amp y = pullEval (act y) amp := by
  rw [cpa_PauliZ C q] at hact
  replace hact := Option.some.inj hact
  subst hact
  have hpush : ∀ x, push_apply C (.PauliZ q) x (amp x)
      = .nonbranching x (amp x * (if Basis.get x q then -1 else 1)) := by
    intro x
    by_cases hx : Basis.get x q <;> (simp [push_apply, hx]; try ring)
  rw [sum_outContrib_diag C _ amp _ hpush hy]
  by_cases hyq : Basis.get y q <;> simp [pullEval, hyq]

theorem duality_X (C : Consts K) {N q : Nat} (hq : q < N)
    (act : Nat → PullApplyOutput K)
    (hact : create_pull_action C (.X q) = some act)
    (amp : Nat → Cplx K) {y : Nat} (hy : y < 2 ^ N) :
    push_contrib_sum C (.X q) N amp y = pullEval (act y) amp := by
  rw [cpa_X C q] at hact
  replace hact := Option.some.inj hact
  subst hact
  have hpush : ∀ x, push_apply C (.X q) x (amp x)
      = .nonbranching (Basis.flip x q) (amp x * 1) := by
    intro x
    simp [push_apply]
  rw [sum_outContrib_invol C _ amp (fun x => Basis.flip x q) (fun _ => 1) hpush
    (fun z => Basis.flip_flip z q) (Basis.flip_lt hy hq)]
  simp [pullEval]

theorem duality_PauliY (C : Consts K) {N q : Nat} (hq : q < N)
    (act : Nat → PullApplyOutput K)
    (hact : create_pull_action C (.PauliY q) = some act)
    (amp : Nat → Cplx K) {y : Nat} (hy : y < 2 ^ N) :
    push_contrib_sum C (.PauliY q) N amp y = pullEval (act y) amp := by
  rw [cpa_PauliY C q] at hact
  replace hact := Option.some.inj hact
  subst hact
  have hpush : ∀ x, push_apply C (.PauliY q) x (amp x)
      = .nonbranching (Basis.flip x q)
          (amp x * (if Basis.get x q then Cplx.mk 0 (-1) else Cplx.mk 0 1)) := by
    intro x
    by_cases hx : Basis.get x q <;> simp [push_apply, hx]
  rw [sum_outContrib_invol C _ amp (fun x => Basis.flip x q) _ hpush
    (fun z => Basis.flip_flip z q) (Basis.flip_lt hy hq)]
  by_cases hyq : Basis.get y q <;>
    simp [pullEval, hyq, Basis.get_flip_self]

theorem duality_CPhase (C : Consts K) {N c t : Nat} (_hc : c < N) (_ht : t < N)
    (hne : c ≠ t) (rot : K) (act : Nat → PullApplyOutput K)
    (hact : create_pull_action C (.CPhase c t rot) = some act)
    (amp : Nat → Cplx K) {y : Nat} (hy : y < 2 ^ N) :
    push_contrib_sum C (.CPhase c t rot) N amp y = pullEval (act y) amp := by
  rw [cpa_CPhase C hne rot] at hact
  replace hact := Option.some.inj hact
  subst hact
  have hpush : ∀ x, push_apply C (.CPhase c t rot) x (amp x)
      = .nonbranching x (amp x *
          (if Basis.get x c && Basis.get x t then
            Cplx.mk (C.cos rot) (C.sin rot)
          else 1)) := by
    intro x
    by_cases hx1 : Basis.get x c <;> by_cases hx2 : Basis.get x t <;>
      simp [push_apply, hx1, hx2]
  rw [sum_outContrib_diag C _ amp _ hpush hy]
  by_cases hy1 : Basis.get y c <;> by_cases hy2 : Basis.get y t <;>
    simp [pullEval, hy1, hy2]

theorem duality_Swap (C : Consts K) {N t1 t2 : Nat} (h1 : t1 < N) (h2 : t2 < N)
    (hne : t1 ≠ t2) (act : Nat → PullApplyOutput K)
    (hact : create_pull_action C (.Swap t1 t2) = some act)
    (amp : Nat → Cplx K) {y : Nat} (hy : y < 2 ^ N) :
    push_contrib_sum C (.Swap t1 t2) N amp y = pullEval (act y) amp := by
  rw [cpa_Swap C hne] at hact
  replace hact := Option.some.inj hact
  subst hact
  have hpush : ∀ x, push_apply C (.Swap t1 t2) x (amp x)
      = .nonbranching (Basis.swap x t1 t2) (amp x * 1) := by
    intro x
    simp [push_apply]
  rw [sum_outContrib_invol C _ amp (fun x => Basis.swap x t1 t2) (fun _ => 1)
    hpush (fun z => Basis.swap_swap z hne) (Basis.swap_lt hy h1 h2)]
  simp [pullEval]

theorem Cplx.neg_mk (a b : K) : Cplx.mk (-a) b = -Cplx.mk a (-b) := by
  ext <;> simp

theorem duality_Hadamard (C : Consts K) {N q : Nat} (hq : q < N)
    (act : Nat → PullApplyOutput K)
    (hact : create_pull_action C (.Hadamard q) = some act)
    (amp : Nat → Cplx K) {y : Nat} (hy : y < 2 ^ N) :
    push_contrib_sum C (.Hadamard q) N amp y = pullEval (act y) amp := by
  simp only [create_pull_action, Option.some.injEq] at hact
  subst hact
  have hpush : ∀ x, push_apply C (.Hadamard q) x (amp x) = .branching
      (Basis.unset x q, amp x *
        (if Basis.get x q then Cplx.mk C.recpSqrt2 0 else Cplx.mk C.recpSqrt2 0))
      (Basis.set x q, amp x *
        (if Basis.get x q then -Cplx.mk C.recpSqrt2 0 else Cplx.mk C.recpSqrt2 0)) := by
    intro x
    by_cases hx : Basis.get x q <;>
      simp [push_apply, hx, Cplx.rmul_eq_mul] <;> congr 1 <;> ring
  rw [sum_outContrib_branching C _ amp _ _ _ _ hpush hq hy]
  have hneg : (Cplx.mk (-C.recpSqrt2) 0 : Cplx K) = -Cplx.mk C.recpSqrt2 0 := by
    ext <;> simp
  by_cases hyq : Basis.get y q <;> simp [pullEval, hyq, hneg]

theorem duality_RY (C : Consts K) {N t : Nat} (ht : t < N) (rot : K)
    (act : Nat → PullApplyOutput K)
    (hact : create_pull_action C (.RY rot t) = some act)
    (amp : Nat → Cplx K) {y : Nat} (hy : y < 2 ^ N) :
    push_contrib_sum C (.RY rot t) N amp y = pullEval (act y) amp := by
  simp only [create_pull_action, Option.some.injEq] at hact
  subst hact
  have hpush : ∀ x, push_apply C (.RY rot t) x (amp x) = .branching
      (Basis.unset x t, amp x *
        (if Basis.get x t then -Cplx.mk (C.sin (rot / 2)) 0
          else Cplx.mk (C.cos (rot / 2)) 0))
      (Basis.set x t, amp x *
        (if Basis.get x t then Cplx.mk (C.cos (rot / 2)) 0
          else Cplx.mk (C.sin (rot / 2)) 0)) := by
    intro x
    by_cases hx : Basis.get x t <;>
      simp [push_apply, hx, Cplx.rmul_eq_mul] <;> congr 1 <;> ext <;> simp <;> ring
  rw [sum_outContrib_branching C _ amp _ _ _ _ hpush ht hy]
  have hneg : (Cplx.mk (-C.sin (rot / 2)) 0 : Cplx K)
      = -Cplx.mk (C.sin (rot / 2)) 0 := by
    ext <;> simp
  by_cases hyt : Basis.get y t <;> simp [pullEval, hyt, hneg]

theorem duality_SqrtX (C : Consts K) {N q : Nat} (hq : q < N)
    (act : Nat → PullApplyOutput K)
    (hact : create_pull_action C (.SqrtX q) = some act)
    (amp : Nat → Cplx K) {y : Nat} (hy : y < 2 ^ N) :
    push_contrib_sum C (.SqrtX q) N amp y = pullEval (act y) amp := by
  simp only [create_pull_action, Option.some.injEq] at hact
  subst hact
  have hpush : ∀ x, push_apply C (.SqrtX q) x (amp x) = .branching
      (Basis.unset x q, amp x *
        (if Basis.get x q then Cplx.mk (1 / 2) (-(1 / 2)) else Cplx.mk (1 / 2) (1 / 2)))
      (Basis.set x q, amp x *
        (if Basis.get x q then Cplx.mk (1 / 2) (1 / 2) else Cplx.mk (1 / 2) (-(1 / 2)))) := by
    intro x
    by_cases hx : Basis.get x q <;> simp [push_apply, hx] <;> congr 1 <;> ring
  rw [sum_outContrib_branching C _ amp _ _ _ _ hpush hq hy]
  by_cases hyq : Basis.get y q <;> simp [pullEval, hyq]

theorem duality_SqrtXdg (C : Consts K) {N q : Nat} (hq : q < N)
    (act : Nat → PullApplyOutput K)
    (hact : create_pull_action C (.SqrtXdg q) = some act)
    (amp : Nat → Cplx K) {y : Nat} (hy : y < 2 ^ N) :
    push_contrib_sum C (.SqrtXdg q) N amp y = pullEval (act y) amp := by
  simp only [create_pull_action, Option.some.injEq] at hact
  subst hact
  have hpush : ∀ x, push_apply C (.SqrtXdg q) x (amp x) = .branching
      (Basis.unset x q, amp x *
        (if Basis.get x q then Cplx.mk (1 / 2) (1 / 2) else Cplx.mk (1 / 2) (-(1 / 2))))
      (Basis.set x q, amp x *
        (if Basis.get x q then Cplx.mk (1 / 2) (-(1 / 2)) else Cplx.mk (1 / 2) (1 / 2))) := by
    intro x
    by_cases hx : Basis.get x q <;> simp [push_apply, hx] <;> congr 1 <;> ring
  rw [sum_outContrib_branching C _ amp _ _ _ _ hpush hq hy]
  by_cases hyq : Basis.get y q <;> simp [pullEval, hyq]

/-- Push-pull duality of the two generic single-qubit 2×2 unitary routines:
for any gate whose push is `single_qubit_unitary_push` on `(a, b; c, d)`,
the pushed sum at `y` is the `single_qubit_unitary_pull` evaluation.  The two
routines take the same branch, so this holds for any near-zero predicate. -/
theorem duality_sq_unitary (C : Consts K) {N t : Nat} (ht : t < N)
    (g : GateDefn K) (a b c d : Cplx K) (amp₀ : Nat → Cplx K)
    (hg : ∀ x, push_apply C g x (amp₀ x) = single_qubit_unitary_push C x (amp₀ x) t a b c d)
    {y : Nat} (hy : y < 2 ^ N) :
    push_contrib_sum C g N amp₀ y
      = pullEval (single_qubit_unitary_pull C y t a b c d) amp₀ := by
  by_cases h1 : (C.isZero a && C.isZero d) = true
  · have hpush : ∀ x, push_apply C g x (amp₀ x)
        = .nonbranching (Basis.flip x t)
            (amp₀ x * (if Basis.get x t then b else c)) := by
      intro x
      rw [hg]
      unfold single_qubit_unitary_push
      rw [if_pos h1]
      by_cases hx : Basis.get x t <;> simp [hx] <;> ring
    rw [sum_outContrib_invol C _ amp₀ (fun x => Basis.flip x t) _ hpush
      (fun z => Basis.flip_flip z t) (Basis.flip_lt hy ht)]
    unfold single_qubit_unitary_pull
    rw [if_pos h1]
    by_cases hyt : Basis.get y t <;>
      simp [pullEval, hyt, Basis.get_flip_self]
  · by_cases h2 : (C.isZero c && C.isZero b) = true
    · have hpush : ∀ x, push_apply C g x (amp₀ x)
          = .nonbranching x (amp₀ x * (if Basis.get x t then d else a)) := by
        intro x
        rw [hg]
        unfold single_qubit_unitary_push
        rw [if_neg h1, if_pos h2]
        by_cases hx : Basis.get x t <;> simp [hx] <;> ring
      rw [sum_outContrib_diag C _ amp₀ _ hpush hy]
      unfold single_qubit_unitary_pull
      rw [if_neg h1, if_pos h2]
      by_cases hyt : Basis.get y t <;> simp [pullEval, hyt]
    · have hpush : ∀ x, push_apply C g x (amp₀ x) = .branching
          (Basis.unset x t, amp₀ x * (if Basis.get x t then b else a))
          (Basis.set x t, amp₀ x * (if Basis.get x t then d else c)) := by
        intro x
        rw [hg]
        unfold single_qubit_unitary_push
        rw [if_neg h1, if_neg h2]
        by_cases hx : Basis.get x t <;> simp [hx, mul_comm]
      rw [sum_outContrib_branching C _ amp₀ _ _ _ _ hpush ht hy]
      unfold single_qubit_unitary_pull
      rw [if_neg h1, if_neg h2]
      by_cases hyt : Basis.get y t <;> simp [pullEval, hyt]

theorem duality_RX (C : Consts K) {N t : Nat} (ht : t < N) (rot : K)
    (act : Nat → PullApplyOutput K)
    (hact : create_pull_action C (.RX rot t) = some act)
    (amp : Nat → Cplx K) {y : Nat} (hy : y < 2 ^ N) :
    push_contrib_sum C (.RX rot t) N amp y = pullEval (act y) amp := by
  simp only [create_pull_action, Option.some.injEq] at hact
  subst hact
  exact duality_sq_unitary C ht (.RX rot t) _ _ _ _ amp (fun x => rfl) hy

theorem duality_U (C : Consts K) {N t : Nat} (ht : t < N) (theta phi lambda : K)
    (act : Nat → PullApplyOutput K)
    (hact : create_pull_action C (.U t theta phi lambda) = some act)
    (amp : Nat → Cplx K) {y : Nat} (hy : y < 2 ^ N) :
    push_contrib_sum C (.U t theta phi lambda) N amp y = pullEval (act y) amp := by
  simp only [create_pull_action] at hact
  split at hact
  · cases hact
  · replace hact := Option.some.inj hact
    subst hact
    exact duality_sq_unitary C ht (.U t theta phi lambda) _ _ _ _ amp
      (fun x => rfl) hy

/-- Push-pull duality for every gate with a pull action whose touched qubits
are pairwise distinct and within range: for every output basis `y`, the total
weight pushed into `y` equals the pull action's evaluation at `y`.  (The
distinctness hypothesis is necessary: see the C2 counterexample.) -/
theorem gate_duality (C : Consts K) {N : Nat} (g : GateDefn K)
    (act : Nat → PullApplyOutput K)
    (hact : create_pull_action C g = some act)
    (hdist : (create_touches g).Pairwise (fun a b => a ≠ b))
    (hrange : ∀ q ∈ create_touches g, q < N)
    (amp : Nat → Cplx K) {y : Nat} (hy : y < 2 ^ N) :
    push_contrib_sum C g N amp y = pullEval (act y) amp := by
  cases g with
  | CCX c1 c2 t =>
    simp [create_pull_action, push_to_pull, create_touches] at hact
  | CSwap c t1 t2 =>
    simp [create_pull_action, push_to_pull, create_touches] at hact
  | FSim l r theta phi =>
    simp [create_pull_action, push_to_pull, create_touches, branching_type]
      at hact
  | CX c t =>
    have hne : c ≠ t := by
      simp [create_touches, List.pairwise_cons] at hdist
      exact hdist
    exact duality_CX C (hrange c (by simp [create_touches]))
      (hrange t (by simp [create_touches])) hne act hact amp hy
  | CZ c t =>
    exact duality_CZ C (hrange c (by simp [create_touches]))
      (hrange t (by simp [create_touches])) act hact amp hy
  | CPhase c t rot =>
    have hne : c ≠ t := by
      simp [create_touches, List.pairwise_cons] at hdist
      exact hdist
    exact duality_CPhase C (hrange c (by simp [create_touches]))
      (hrange t (by simp [create_touches])) hne rot act hact amp hy
  | Swap t1 t2 =>
    have hne : t1 ≠ t2 := by
      simp [create_touches, List.pairwise_cons] at hdist
      exact hdist
    exact duality_Swap C (hrange t1 (by simp [create_touches]))
      (hrange t2 (by simp [create_touches])) hne act hact amp hy
  | Hadamard q =>
    exact duality_Hadamard C (hrange q (by simp [create_touches])) act hact amp hy
  | PauliY q =>
    exact duality_PauliY C (hrange q (by simp [create_touches])) act hact amp hy
  | PauliZ q =>
    exact duality_PauliZ C (hrange q (by simp [create_touches])) act hact amp hy
  | Phase rot t =>
    exact duality_Phase C (hrange t (by simp [create_touches])) rot act hact amp hy
  | RX rot t =>
    exact duality_RX C (hrange t (by simp [create_touches])) rot act hact amp hy
  | RY rot t =>
    exact duality_RY C (hrange t (by simp [create_touches])) rot act hact amp hy
  | RZ rot t =>
    exact duality_RZ C (hrange t (by simp [create_touches])) rot act hact amp hy
  | S q =>
    exact duality_S C (hrange q (by simp [create_touches])) act hact amp hy
  | Sdg q =>
    exact duality_Sdg C (hrange q (by simp [create_touches])) act hact amp hy
  | SqrtX q =>
    exact duality_SqrtX C (hrange q (by simp [create_touches])) act hact amp hy
  | SqrtXdg q =>
    exact duality_SqrtXdg C (hrange q (by simp [create_touches])) act hact amp hy
  | T q =>
    exact duality_T C (hrange q (by simp [create_touches])) act hact amp hy
  | Tdg q =>
    exact duality_Tdg C (hrange q (by simp [create_touches])) act hact amp hy
  | U t theta phi lambda =>
    exact duality_U C (hrange t (by simp [create_touches])) theta phi lambda
      act hact amp hy
  | X q =>
    exact duality_X C (hrange q (by simp [create_touches])) act hact amp hy

end DualityCases

/-! ## Kernel-level semantics: closure, homogeneity, push sums, pull runs -/

section Kernel

variable {K : Type} [Field K]

/-- Output bases of a push output lie below `2^N`. -/
def PushOutClosed (o : PushApplyOutput K) (N : Nat) : Prop :=
  match o with
  | .nonbranching b _ => b < 2 ^ N
  | .branching (b1, _) (b2, _) => b1 < 2 ^ N ∧ b2 < 2 ^ N

theorem single_qubit_unitary_push_closed (C : Consts K) {N x t : Nat}
    (hx : x < 2 ^ N) (ht : t < N) (w a b c d : Cplx K) :
    PushOutClosed (single_qubit_unitary_push C x w t a b c d) N := by
  unfold single_qubit_unitary_push
  split_ifs <;>
    simp [PushOutClosed, Basis.flip_lt hx ht, Basis.set_lt hx ht,
      Basis.unset_lt hx ht, hx]

theorem push_apply_closed (C : Consts K) {N : Nat} (g : GateDefn K)
    (hrange : ∀ q ∈ create_touches g, q < N) {x : Nat} (hx : x < 2 ^ N)
    (w : Cplx K) : PushOutClosed (push_apply C g x w) N := by
  cases g <;> simp only [create_touches, List.mem_cons, List.mem_singleton,
    List.not_mem_nil, or_false, forall_eq_or_imp, forall_eq] at hrange
  case RX rot t =>
    exact single_qubit_unitary_push_closed C hx hrange w _ _ _ _
  case U t theta phi lambda =>
    exact single_qubit_unitary_push_closed C hx hrange w _ _ _ _
  case FSim l r theta phi =>
    obtain ⟨hl, hr⟩ := hrange
    simp only [push_apply]
    cases hgl : Basis.get x l <;> cases hgr : Basis.get x r <;>
      (try split_ifs) <;>
      simp [PushOutClosed, hx, Basis.set_lt (Basis.unset_lt hx hl) hr,
        Basis.set_lt (Basis.unset_lt hx hr) hl]
  case CCX c1 c2 t =>
    obtain ⟨h1, h2, h3⟩ := hrange
    simp only [push_apply, PushOutClosed]
    split_ifs <;> simp [hx, Basis.flip_lt hx h3]
  case CSwap c t1 t2 =>
    obtain ⟨h1, h2, h3⟩ := hrange
    simp only [push_apply, PushOutClosed]
    split_ifs <;> simp [hx, Basis.swap_lt hx h2 h3]
  case CX c t =>
    obtain ⟨h1, h2⟩ := hrange
    simp only [push_apply, PushOutClosed]
    split_ifs <;> simp [hx, Basis.flip_lt hx h2]
  case Swap t1 t2 =>
    obtain ⟨h1, h2⟩ := hrange
    simp only [push_apply, PushOutClosed]
    exact Basis.swap_lt hx h1 h2
  case Hadamard q =>
    simp only [push_apply, PushOutClosed]
    split_ifs <;>
      exact ⟨Basis.unset_lt hx hrange, Basis.set_lt hx hrange⟩
  case RY rot t =>
    simp only [push_apply, PushOutClosed]
    split_ifs <;>
      exact ⟨Basis.unset_lt hx hrange, Basis.set_lt hx hrange⟩
  case SqrtX q =>
    simp only [push_apply, PushOutClosed]
    split_ifs <;>
      exact ⟨Basis.unset_lt hx hrange, Basis.set_lt hx hrange⟩
  case SqrtXdg q =>
    simp only [push_apply, PushOutClosed]
    split_ifs <;>
      exact ⟨Basis.unset_lt hx hrange, Basis.set_lt hx hrange⟩
  case PauliY q =>
    simp only [push_apply, PushOutClosed]
    exact Basis.flip_lt hx hrange
  case X q =>
    simp only [push_apply, PushOutClosed]
    exact Basis.flip_lt hx hrange
  all_goals
    simp only [push_apply, PushOutClosed]
  all_goals
    exact hx

theorem puts_at_append (l1 l2 : List (Nat × Cplx K)) (y : Nat) :
    puts_at (l1 ++ l2) y = puts_at l1 y + puts_at l2 y := by
  simp [puts_at]

/-- The weight a zero-weight push contributes anywhere is zero (all output
weights of `push_apply` at weight 0 are 0, by homogeneity). -/
theorem outContrib_zero_weight (C : Consts K) (g : GateDefn K) (x z : Nat) :
    outContrib (push_apply C g x 0) z = 0 := by
  have hs : push_apply C g x 0 = (push_apply C g x 0).scale 0 := by
    have := push_apply_smul C g x 0 0
    rwa [zero_mul] at this
  cases hp : push_apply C g x 0 with
  | nonbranching b' w' =>
    rw [hp] at hs
    simp only [PushApplyOutput.scale, PushApplyOutput.nonbranching.injEq,
      zero_mul] at hs
    simp [outContrib, hs.2]
  | branching p1 p2 =>
    obtain ⟨b1, w1⟩ := p1
    obtain ⟨b2, w2⟩ := p2
    rw [hp] at hs
    simp only [PushApplyOutput.scale, PushApplyOutput.branching.injEq,
      Prod.mk.injEq, zero_mul] at hs
    simp [outContrib, hs.1.2, hs.2.2]

theorem apply_gates_zero (C : Consts K) (gates : List (Gate K)) (b y : Nat) :
    puts_at (apply_gates C gates b 0).1 y = 0 := by
  induction gates generalizing b with
  | nil =>
    unfold apply_gates
    split_ifs <;> simp [puts_at]
  | cons g rest ih =>
    unfold apply_gates
    split_ifs with h
    · simp [puts_at]
    · have hs : push_apply C g.defn b 0 = (push_apply C g.defn b 0).scale 0 := by
        have := push_apply_smul C g.defn b 0 0
        rwa [zero_mul] at this
      cases hp : push_apply C g.defn b 0 with
      | nonbranching b' w' =>
        rw [hp] at hs
        simp only [PushApplyOutput.scale, PushApplyOutput.nonbranching.injEq,
          zero_mul] at hs
        simp [hp, hs.2, ih]
      | branching p1 p2 =>
        obtain ⟨b1, w1⟩ := p1
        obtain ⟨b2, w2⟩ := p2
        rw [hp] at hs
        simp only [PushApplyOutput.scale, PushApplyOutput.branching.injEq,
          Prod.mk.injEq, zero_mul] at hs
        simp [hp, hs.1.2, hs.2.2, puts_at_append, ih]

theorem isZero_one_eq_false (C : Consts K)
    (HZ : ∀ w : Cplx K, C.isZero w = true → w = 0) :
    C.isZero 1 = false := by
  cases h : C.isZero 1
  · rfl
  · have h10 : (1 : Cplx K) = 0 := HZ 1 h
    have := congrArg Cplx.re h10
    simp at this

theorem apply_gates_isZero (C : Consts K) (gates : List (Gate K)) (b : Nat)
    {w : Cplx K} (hw : C.isZero w = true) :
    apply_gates C gates b w = ([], 0) := by
  rw [apply_gates.eq_def, if_pos hw]

theorem apply_gates_cons (C : Consts K) (g : Gate K) (rest : List (Gate K))
    (b : Nat) {w : Cplx K} (hw : C.isZero w = false) :
    apply_gates C (g :: rest) b w =
      match push_apply C g.defn b w with
      | .nonbranching b1 w1 =>
        ((apply_gates C rest b1 w1).1, 1 + (apply_gates C rest b1 w1).2)
      | .branching (b1, w1) (b2, w2) =>
        ((apply_gates C rest b1 w1).1 ++ (apply_gates C rest b2 w2).1,
          1 + (apply_gates C rest b1 w1).2 + (apply_gates C rest b2 w2).2) := by
  rw [apply_gates.eq_def, if_neg (by simp [hw])]

/-- Under an honest near-zero predicate (only exact zeros pass), the pushed
puts are homogeneous in the source weight. -/
theorem apply_gates_homog (C : Consts K)
    (HZ : ∀ w : Cplx K, C.isZero w = true → w = 0)
    (gates : List (Gate K)) (b y : Nat) (w : Cplx K) :
    puts_at (apply_gates C gates b w).1 y
      = w * puts_at (apply_gates C gates b 1).1 y := by
  have h1 := isZero_one_eq_false C HZ
  induction gates generalizing b w with
  | nil =>
    by_cases hw : C.isZero w = true
    · rw [apply_gates_isZero C [] b hw, HZ w hw, zero_mul]
      simp [puts_at]
    · rw [apply_gates, if_neg hw, apply_gates, if_neg (by simp [h1])]
      simp only [puts_at, List.map_cons, List.map_nil, List.sum_cons,
        List.sum_nil]
      split_ifs <;> simp
  | cons g rest ih =>
    by_cases hw : C.isZero w = true
    · rw [apply_gates_isZero C (g :: rest) b hw, HZ w hw, zero_mul]
      simp [puts_at]
    · have hwf : C.isZero w = false := by simpa using hw
      rw [apply_gates_cons C g rest b hwf, apply_gates_cons C g rest b h1]
      cases hp : push_apply C g.defn b 1 with
      | nonbranching b1 m =>
        have hsc : push_apply C g.defn b w
            = PushApplyOutput.nonbranching b1 (w * m) := by
          have hh := push_apply_smul C g.defn b w 1
          rw [mul_one, hp] at hh
          simpa [PushApplyOutput.scale] using hh
        rw [hsc]
        show puts_at (apply_gates C rest b1 (w * m)).1 y
            = w * puts_at (apply_gates C rest b1 m).1 y
        rw [ih b1 (w * m), ih b1 m]
        ring
      | branching p1 p2 =>
        obtain ⟨b1, m1⟩ := p1
        obtain ⟨b2, m2⟩ := p2
        have hsc : push_apply C g.defn b w
            = PushApplyOutput.branching (b1, w * m1) (b2, w * m2) := by
          have hh := push_apply_smul C g.defn b w 1
          rw [mul_one, hp] at hh
          simpa [PushApplyOutput.scale] using hh
        rw [hsc]
        show puts_at ((apply_gates C rest b1 (w * m1)).1
              ++ (apply_gates C rest b2 (w * m2)).1) y
            = w * puts_at ((apply_gates C rest b1 m1).1
              ++ (apply_gates C rest b2 m2).1) y
        rw [puts_at_append, puts_at_append, ih b1 (w * m1), ih b2 (w * m2),
          ih b1 m1, ih b2 m2]
        ring

/-- The per-output-cell semantics of pushing a kernel from a dense amplitude
vector, gate by gate from first to last: each gate turns the vector `v` into
`y \u21a6 push_contrib_sum v y`. -/
def run_push (C : Consts K) (N : Nat) :
    List (Gate K) → (Nat → Cplx K) → Nat → Cplx K
  | [], v, y => v y
  | g :: rest, v, y =>
      run_push C N rest (fun z => push_contrib_sum C g.defn N v z) y

/-- The pushed total at a cell `y < 2^N`, summed over all `2^N` sources,
is `run_push`: gates act first-to-last as matrices applied left-to-right. -/
theorem sum_apply_gates_eq_run_push (C : Consts K)
    (HZ : ∀ w : Cplx K, C.isZero w = true → w = 0)
    {N : Nat} (gates : List (Gate K)) (v : Nat → Cplx K) {y : Nat}
    (hy : y < 2 ^ N)
    (hg : ∀ g ∈ gates, ∀ q ∈ create_touches g.defn, q < N) :
    ∑ x ∈ Finset.range (2 ^ N), puts_at (apply_gates C gates x (v x)).1 y
      = run_push C N gates v y := by
  revert hg
  induction gates generalizing v with
  | nil =>
    intro _
    have hstep : ∀ x ∈ Finset.range (2 ^ N),
        puts_at (apply_gates C [] x (v x)).1 y = if x = y then v x else 0 := by
      intro x _
      by_cases hw : C.isZero (v x) = true
      · rw [apply_gates_isZero C [] x hw]
        simp [puts_at, HZ _ hw]
      · rw [apply_gates.eq_def, if_neg hw]
        simp [puts_at]
    rw [Finset.sum_congr rfl hstep,
      Finset.sum_ite_eq' (Finset.range (2 ^ N)) y v,
      if_pos (Finset.mem_range.mpr hy)]
    rfl
  | cons g rest ih =>
    intro hg
    have hgg : ∀ q ∈ create_touches g.defn, q < N :=
      hg g (List.mem_cons_self g rest)
    have hgr : ∀ g2 ∈ rest, ∀ q ∈ create_touches g2.defn, q < N :=
      fun g2 hm => hg g2 (List.mem_cons_of_mem g hm)
    have hstep : ∀ x ∈ Finset.range (2 ^ N),
        puts_at (apply_gates C (g :: rest) x (v x)).1 y
          = ∑ z ∈ Finset.range (2 ^ N),
              outContrib (push_apply C g.defn x (v x)) z
                * puts_at (apply_gates C rest z 1).1 y := by
      intro x hx
      rw [Finset.mem_range] at hx
      by_cases hw : C.isZero (v x) = true
      · rw [apply_gates_isZero C (g :: rest) x hw, HZ _ hw]
        simp [puts_at, outContrib_zero_weight]
      · have hwf : C.isZero (v x) = false := by simpa using hw
        have hcl := push_apply_closed C g.defn hgg hx (v x)
        rw [apply_gates_cons C g rest x hwf]
        cases hp : push_apply C g.defn x (v x) with
        | nonbranching b1 w1 =>
          rw [hp] at hcl
          have hb1 : b1 < 2 ^ N := hcl
          show puts_at (apply_gates C rest b1 w1).1 y = _
          rw [apply_gates_homog C HZ rest b1 y w1]
          have hcg : ∀ z ∈ Finset.range (2 ^ N),
              outContrib (PushApplyOutput.nonbranching b1 w1) z
                  * puts_at (apply_gates C rest z 1).1 y
                = if b1 = z
                    then w1 * puts_at (apply_gates C rest z 1).1 y else 0 := by
            intro z _
            simp only [outContrib]
            split_ifs <;> simp
          rw [Finset.sum_congr rfl hcg, Finset.sum_ite_eq,
            if_pos (Finset.mem_range.mpr hb1)]
        | branching p1 p2 =>
          obtain ⟨b1, w1⟩ := p1
          obtain ⟨b2, w2⟩ := p2
          rw [hp] at hcl
          obtain ⟨hb1, hb2⟩ := hcl
          show puts_at ((apply_gates C rest b1 w1).1
              ++ (apply_gates C rest b2 w2).1) y = _
          rw [puts_at_append, apply_gates_homog C HZ rest b1 y w1,
            apply_gates_homog C HZ rest b2 y w2]
          have hcg : ∀ z ∈ Finset.range (2 ^ N),
              outContrib (PushApplyOutput.branching (b1, w1) (b2, w2)) z
                  * puts_at (apply_gates C rest z 1).1 y
                = (if b1 = z
                    then w1 * puts_at (apply_gates C rest z 1).1 y else 0)
                  + (if b2 = z
                    then w2 * puts_at (apply_gates C rest z 1).1 y else 0) := by
            intro z _
            simp only [outContrib]
            split_ifs <;> ring
          rw [Finset.sum_congr rfl hcg, Finset.sum_add_distrib,
            Finset.sum_ite_eq, Finset.sum_ite_eq,
            if_pos (Finset.mem_range.mpr hb1),
            if_pos (Finset.mem_range.mpr hb2)]
    rw [Finset.sum_congr rfl hstep, Finset.sum_comm]
    show _ = run_push C N rest (fun z => push_contrib_sum C g.defn N v z) y
    rw [← ih (fun z => push_contrib_sum C g.defn N v z) hgr]
    refine Finset.sum_congr rfl fun z _ => ?_
    rw [apply_gates_homog C HZ rest z y (push_contrib_sum C g.defn N v z),
      ← Finset.sum_mul]
    rfl

/-- Neighbors requested by a pull output lie below `2^N`. -/
def PullNeighborsClosed (o : PullApplyOutput K) (N : Nat) : Prop :=
  match o with
  | .nonbranching n _ => n < 2 ^ N
  | .branching (n1, _) (n2, _) => n1 < 2 ^ N ∧ n2 < 2 ^ N

theorem single_qubit_unitary_pull_closed (C : Consts K) {N y t : Nat}
    (hy : y < 2 ^ N) (ht : t < N) (a b c d : Cplx K) :
    PullNeighborsClosed (single_qubit_unitary_pull C y t a b c d) N := by
  unfold single_qubit_unitary_pull
  split_ifs <;>
    simp [PullNeighborsClosed, Basis.flip_lt hy ht, Basis.set_lt hy ht,
      Basis.unset_lt hy ht, hy]

/-- Every gate's pull action only requests in-range neighbors from an in-range
output basis (given in-range, pairwise-distinct touched qubits). -/
theorem pull_action_closed (C : Consts K) {N : Nat} (g : GateDefn K)
    (act : Nat → PullApplyOutput K)
    (hact : create_pull_action C g = some act)
    (hdist : (create_touches g).Pairwise (fun a b => a ≠ b))
    (hrange : ∀ q ∈ create_touches g, q < N)
    {y : Nat} (hy : y < 2 ^ N) :
    PullNeighborsClosed (act y) N := by
  cases g with
  | CCX c1 c2 t =>
    simp [create_pull_action, push_to_pull, create_touches] at hact
  | CSwap c t1 t2 =>
    simp [create_pull_action, push_to_pull, create_touches] at hact
  | FSim l r theta phi =>
    simp [create_pull_action, push_to_pull, create_touches, branching_type]
      at hact
  | CX c t =>
    have ht : t < N := hrange t (by simp [create_touches])
    simp only [create_pull_action, Option.some.injEq] at hact
    rw [← hact]
    by_cases hc : Basis.get y c = true <;>
      simp [PullNeighborsClosed, hc, Basis.flip_lt hy ht, hy]
  | CZ c t =>
    simp only [create_pull_action, Option.some.injEq] at hact
    rw [← hact]
    by_cases hc : (Basis.get y c && Basis.get y t) = true <;>
      simp [PullNeighborsClosed, hc, hy]
  | CPhase c t rot =>
    have hne : c ≠ t := by
      simp [create_touches, List.pairwise_cons] at hdist
      exact hdist
    rw [cpa_CPhase C hne rot] at hact
    rw [← Option.some.inj hact]
    exact hy
  | Swap t1 t2 =>
    have hne : t1 ≠ t2 := by
      simp [create_touches, List.pairwise_cons] at hdist
      exact hdist
    have h1 : t1 < N := hrange t1 (by simp [create_touches])
    have h2 : t2 < N := hrange t2 (by simp [create_touches])
    rw [cpa_Swap C hne] at hact
    rw [← Option.some.inj hact]
    exact Basis.swap_lt hy h1 h2
  | Hadamard q =>
    have hq : q < N := hrange q (by simp [create_touches])
    simp only [create_pull_action, Option.some.injEq] at hact
    rw [← hact]
    by_cases hg : Basis.get y q = true <;>
      simp [PullNeighborsClosed, hg, Basis.unset_lt hy hq, Basis.set_lt hy hq]
  | PauliY q =>
    have hq : q < N := hrange q (by simp [create_touches])
    rw [cpa_PauliY C q] at hact
    rw [← Option.some.inj hact]
    exact Basis.flip_lt hy hq
  | PauliZ q =>
    rw [cpa_PauliZ C q] at hact
    rw [← Option.some.inj hact]
    exact hy
  | Phase rot t =>
    simp only [create_pull_action, Option.some.injEq] at hact
    rw [← hact]
    by_cases hg : Basis.get y t = true <;> simp [PullNeighborsClosed, hg, hy]
  | RX rot t =>
    have ht : t < N := hrange t (by simp [create_touches])
    simp only [create_pull_action, Option.some.injEq] at hact
    rw [← hact]
    exact single_qubit_unitary_pull_closed C hy ht _ _ _ _
  | RY rot t =>
    have ht : t < N := hrange t (by simp [create_touches])
    simp only [create_pull_action, Option.some.injEq] at hact
    rw [← hact]
    by_cases hg : Basis.get y t = true <;>
      simp [PullNeighborsClosed, hg, Basis.unset_lt hy ht, Basis.set_lt hy ht]
  | RZ rot t =>
    simp only [create_pull_action, Option.some.injEq] at hact
    rw [← hact]
    by_cases hg : Basis.get y t = true <;> simp [PullNeighborsClosed, hg, hy]
  | S q =>
    rw [cpa_S C q] at hact
    rw [← Option.some.inj hact]
    exact hy
  | Sdg q =>
    rw [cpa_Sdg C q] at hact
    rw [← Option.some.inj hact]
    exact hy
  | SqrtX q =>
    have hq : q < N := hrange q (by simp [create_touches])
    simp only [create_pull_action, Option.some.injEq] at hact
    rw [← hact]
    by_cases hg : Basis.get y q = true <;>
      simp [PullNeighborsClosed, hg, Basis.unset_lt hy hq, Basis.set_lt hy hq]
  | SqrtXdg q =>
    have hq : q < N := hrange q (by simp [create_touches])
    simp only [create_pull_action, Option.some.injEq] at hact
    rw [← hact]
    by_cases hg : Basis.get y q = true <;>
      simp [PullNeighborsClosed, hg, Basis.unset_lt hy hq, Basis.set_lt hy hq]
  | T q =>
    rw [cpa_T C q] at hact
    rw [← Option.some.inj hact]
    exact hy
  | Tdg q =>
    rw [cpa_Tdg C q] at hact
    rw [← Option.some.inj hact]
    exact hy
  | U t theta phi lambda =>
    have ht : t < N := hrange t (by simp [create_touches])
    simp only [create_pull_action] at hact
    split at hact
    · exact absurd hact (by simp)
    · rw [← Option.some.inj hact]
      exact single_qubit_unitary_pull_closed C hy ht _ _ _ _
  | X q =>
    have hq : q < N := hrange q (by simp [create_touches])
    rw [cpa_X C q] at hact
    rw [← Option.some.inj hact]
    exact Basis.flip_lt hy hq

theorem run_push_append (C : Consts K) (N : Nat) (L : List (Gate K))
    (g : Gate K) (v : Nat → Cplx K) (y : Nat) :
    run_push C N (L ++ [g]) v y
      = push_contrib_sum C g.defn N (fun z => run_push C N L v z) y := by
  induction L generalizing v with
  | nil => rfl
  | cons h L ih =>
    show run_push C N (L ++ [g]) (fun z => push_contrib_sum C h.defn N v z) y
        = _
    rw [ih]
    rfl

/-- **Kernel-level pull/push relation**: pulling a kernel of `Gate::new`-built
pullable gates (in-range, pairwise-distinct touches) at an output cell
computes exactly the push semantics of the REVERSED kernel. -/
theorem apply_pull_gates_eq_run_push (C : Consts K) {N : Nat}
    (gates : List (Gate K)) (st : St K) {y : Nat} (hy : y < 2 ^ N)
    (hnew : ∀ g ∈ gates, g = Gate.new C g.defn)
    (hdist : ∀ g ∈ gates, (create_touches g.defn).Pairwise (fun a b => a ≠ b))
    (hrange : ∀ g ∈ gates, ∀ q ∈ create_touches g.defn, q < N)
    (hploop : ∀ g ∈ gates, (create_pull_action C g.defn).isSome = true) :
    (apply_pull_gates C gates st y).map Prod.fst
      = some (run_push C N gates.reverse st.get y) := by
  revert hy hnew hdist hrange hploop
  induction gates generalizing y with
  | nil =>
    intro _ _ _ _ _
    simp [apply_pull_gates, run_push]
  | cons g rest ih =>
    intro hy hnew hdist hrange hploop
    obtain ⟨act, hact⟩ := Option.isSome_iff_exists.mp
      (hploop g (List.mem_cons_self g rest))
    have hpa : g.pull_action = some act := by
      conv_lhs => rw [hnew g (List.mem_cons_self g rest)]
      simpa [Gate.new] using hact
    have hgd : ∀ q ∈ create_touches g.defn, q < N :=
      hrange g (List.mem_cons_self g rest)
    have hgdist : (create_touches g.defn).Pairwise (fun a b => a ≠ b) :=
      hdist g (List.mem_cons_self g rest)
    have hcl := pull_action_closed C g.defn act hact hgdist hgd hy
    have hnewR : ∀ g2 ∈ rest, g2 = Gate.new C g2.defn :=
      fun g2 hm => hnew g2 (List.mem_cons_of_mem g hm)
    have hdistR : ∀ g2 ∈ rest,
        (create_touches g2.defn).Pairwise (fun a b => a ≠ b) :=
      fun g2 hm => hdist g2 (List.mem_cons_of_mem g hm)
    have hrangeR : ∀ g2 ∈ rest, ∀ q ∈ create_touches g2.defn, q < N :=
      fun g2 hm => hrange g2 (List.mem_cons_of_mem g hm)
    have hploopR : ∀ g2 ∈ rest, (create_pull_action C g2.defn).isSome = true :=
      fun g2 hm => hploop g2 (List.mem_cons_of_mem g hm)
    simp only [apply_pull_gates]
    rw [hpa]
    dsimp only
    rw [List.reverse_cons, run_push_append,
      gate_duality C g.defn act hact hgdist hgd
        (fun z => run_push C N rest.reverse st.get z) hy]
    cases hay : act y with
    | nonbranching n m =>
      rw [hay] at hcl
      have hn : n < 2 ^ N := hcl
      have hr := ih hn hnewR hdistR hrangeR hploopR
      cases hrv : apply_pull_gates C rest st n with
      | none =>
        rw [hrv] at hr
        simp at hr
      | some r =>
        rw [hrv] at hr
        simp only [Option.map_some'] at hr
        have hr1 : r.1 = run_push C N rest.reverse st.get n :=
          Option.some.inj hr
        dsimp only
        rw [hrv]
        simp only [Option.map_some']
        rw [hr1]
        rfl
    | branching p1 p2 =>
      obtain ⟨n1, m1⟩ := p1
      obtain ⟨n2, m2⟩ := p2
      rw [hay] at hcl
      obtain ⟨hn1, hn2⟩ := hcl
      have hr1 := ih hn1 hnewR hdistR hrangeR hploopR
      have hr2 := ih hn2 hnewR hdistR hrangeR hploopR
      cases hrv1 : apply_pull_gates C rest st n1 with
      | none =>
        rw [hrv1] at hr1
        simp at hr1
      | some r1 =>
        cases hrv2 : apply_pull_gates C rest st n2 with
        | none =>
          rw [hrv2] at hr2
          simp at hr2
        | some r2 =>
          rw [hrv1] at hr1
          rw [hrv2] at hr2
          simp only [Option.map_some'] at hr1 hr2
          dsimp only
          rw [hrv1, hrv2]
          simp only [Option.map_some']
          rw [Option.some.inj hr1, Option.some.inj hr2]
          rfl

end Kernel

/-! ## Claim C1: dense pull vs dense push -/

section C1

/-- A `Consts` environment over `ℚ` whose near-zero predicate accepts exactly
zero (an honest instantiation of `utility::is_zero` for exact arithmetic). -/
def exactConsts : Consts ℚ :=
  { recpSqrt2 := 0, cos := fun _ => 0, sin := fun _ => 0,
    isZero := fun w => decide (w.re = 0 ∧ w.im = 0) }

theorem exactConsts_honest (w : Cplx ℚ) (h : exactConsts.isZero w = true) :
    w = 0 := by
  simp only [exactConsts, decide_eq_true_eq] at h
  exact Cplx.ext h.1 h.2

variable {K : Type} [Field K]

/-- Every pull walk succeeds when every gate of the kernel has a pull
action. -/
theorem apply_pull_gates_isSome (C : Consts K) (gates : List (Gate K))
    (st : St K) (hp : ∀ g ∈ gates, g.pull_action.isSome = true) (bidx : Nat) :
    (apply_pull_gates C gates st bidx).isSome = true := by
  induction gates generalizing bidx with
  | nil => simp [apply_pull_gates]
  | cons g rest ih =>
    obtain ⟨act, hact⟩ := Option.isSome_iff_exists.mp
      (hp g (List.mem_cons_self g rest))
    have hpR : ∀ g2 ∈ rest, g2.pull_action.isSome = true :=
      fun g2 hm => hp g2 (List.mem_cons_of_mem g hm)
    simp only [apply_pull_gates]
    rw [hact]
    dsimp only
    cases act bidx with
    | nonbranching n m =>
      simp [Option.isSome_map', ih hpR n]
    | branching p1 p2 =>
      obtain ⟨n1, m1⟩ := p1
      obtain ⟨n2, m2⟩ := p2
      obtain ⟨r1, hr1⟩ := Option.isSome_iff_exists.mp (ih hpR n1)
      obtain ⟨r2, hr2⟩ := Option.isSome_iff_exists.mp (ih hpR n2)
      dsimp only
      rw [hr1, hr2]
      rfl

/-- Dropping the near-zero-filtered sources from a push sum changes nothing
when the near-zero predicate only accepts exact zeros. -/
theorem sum_push_sources_eq (C : Consts K)
    {N : Nat} (gates : List (Gate K)) (st : St K) (y : Nat) :
    ∑ x ∈ push_sources C N st, puts_at (apply_gates C gates x (st.get x)).1 y
      = ∑ x ∈ Finset.range (2 ^ N),
          puts_at (apply_gates C gates x (st.get x)).1 y := by
  cases st with
  | dense v => rfl
  | sparse v =>
    refine Finset.sum_subset (Finset.filter_subset _ _) ?_
    intro x hx hnx
    simp only [push_sources, Finset.mem_filter, Consts.isNonzero,
      Bool.not_eq_true'] at hnx
    have hz : C.isZero (v x) = true := by
      by_cases h : C.isZero (v x) = true
      · exact h
      · exact absurd ⟨hx, by simp [h]⟩ hnx
    show puts_at (apply_gates C gates x ((St.sparse v).get x)).1 y = 0
    have hget : (St.sparse v).get x = v x := rfl
    rw [hget, apply_gates_isZero C gates x hz]
    simp [puts_at]

/-- **C1** (corrected): dense pull agrees with dense push of the REVERSED
kernel, cell by cell — not of the same kernel (see `c1_counterexample`):
`apply_pull_gates` walks the kernel first-to-last through pull actions, which
composes the gate matrices in the opposite order to `expand_push_dense`.
Hypotheses: the near-zero predicate accepts only exact zeros, the gates are
`Gate::new`-built with pairwise-distinct in-range touched qubits, every gate
is pullable, and the inspected cell is in range. -/
theorem c1_pull_dense_eq_push_dense_reversed (C : Consts K)
    (HZ : ∀ w : Cplx K, C.isZero w = true → w = 0)
    {N : Nat} (gates : List (Gate K)) (st : St K)
    (hnew : ∀ g ∈ gates, g = Gate.new C g.defn)
    (hdist : ∀ g ∈ gates, (create_touches g.defn).Pairwise (fun a b => a ≠ b))
    (hrange : ∀ g ∈ gates, ∀ q ∈ create_touches g.defn, q < N)
    (hpull : ∀ g ∈ gates, g.is_pullable = true)
    (res : ExpandResult K)
    (hres : expand_pull_dense C gates N st = some res)
    {y : Nat} (hy : y < 2 ^ N) :
    res.state.get y = (expand_push_dense C gates.reverse N st).state.get y := by
  have hploop : ∀ g ∈ gates, (create_pull_action C g.defn).isSome = true := by
    intro g hm
    have hg := hpull g hm
    rw [hnew g hm] at hg
    simpa [Gate.is_pullable, Gate.new] using hg
  have hLpull :=
    apply_pull_gates_eq_run_push C gates st hy hnew hdist hrange hploop
  simp only [expand_pull_dense] at hres
  split at hres
  case isFalse => simp at hres
  case isTrue hguard =>
    have hrec := Option.some.inj hres
    subst hrec
    cases hr : apply_pull_gates C gates st y with
    | none =>
      rw [hr] at hLpull
      simp at hLpull
    | some r =>
      rw [hr] at hLpull
      simp only [Option.map_some'] at hLpull
      have hr1 : r.1 = run_push C N gates.reverse st.get y :=
        Option.some.inj hLpull
      have hgrev : ∀ g ∈ gates.reverse, ∀ q ∈ create_touches g.defn, q < N :=
        fun g hm => hrange g (List.mem_reverse.mp hm)
      show (if y < 2 ^ N then ((apply_pull_gates C gates st y).getD (0, 0)).1
          else 0) = _
      rw [if_pos hy, hr]
      show r.1 = _
      rw [hr1]
      show _ = ∑ x ∈ push_sources C N st,
        puts_at (apply_gates C gates.reverse x (st.get x)).1 y
      rw [sum_push_sources_eq C gates.reverse st y,
        sum_apply_gates_eq_run_push C HZ gates.reverse st.get hy hgrev]

/-- **C1**, witness: the amended theorem applied to the empty kernel on one
qubit over the exact environment, starting from the δ₀ sparse state. -/
theorem c1_pull_dense_eq_push_dense_reversed_witness :
    ((expand_pull_dense exactConsts ([] : List (Gate ℚ)) 1
        (St.sparse fun b => if b = 0 then 1 else 0)).map
      fun res => res.state.get 0)
      = some ((expand_push_dense exactConsts
          ([] : List (Gate ℚ)).reverse 1
          (St.sparse fun b => if b = 0 then 1 else 0)).state.get 0) := by
  have hsome : (expand_pull_dense exactConsts ([] : List (Gate ℚ)) 1
      (St.sparse fun b => if b = 0 then 1 else 0)).isSome = true := by
    have hgw : ∀ i ∈ Finset.range (2 ^ 1),
        (apply_pull_gates exactConsts ([] : List (Gate ℚ))
          (St.sparse fun b => if b = 0 then 1 else 0) i).isSome = true :=
      fun i _ => rfl
    simp only [expand_pull_dense]
    rw [if_pos hgw]
    rfl
  obtain ⟨res, hres⟩ := Option.isSome_iff_exists.mp hsome
  rw [hres, Option.map_some']
  exact congrArg some
    (c1_pull_dense_eq_push_dense_reversed exactConsts exactConsts_honest
      [] (St.sparse fun b => if b = 0 then 1 else 0)
      (by simp) (by simp) (by simp) (by simp) res hres (by norm_num))

/-- **C1**, counterexample to the claim as stated (same kernel, cell by
cell): for the kernel `[X 0, CX 0 1]` on two qubits from the δ₀ state,
dense pull puts amplitude 1 in cell 1 while dense push puts 0 there (push
sends the amplitude to cell 3) — pull applied the two gates in reverse
order. -/
theorem c1_counterexample :
    ((expand_pull_dense ratConsts
        [Gate.new ratConsts (GateDefn.X 0), Gate.new ratConsts (GateDefn.CX 0 1)]
        2 (St.sparse fun b => if b = 0 then 1 else 0)).map
      fun r => r.state.get 1) = some 1
    ∧ (expand_push_dense ratConsts
        [Gate.new ratConsts (GateDefn.X 0), Gate.new ratConsts (GateDefn.CX 0 1)]
        2 (St.sparse fun b => if b = 0 then 1 else 0)).state.get 1 = 0
    ∧ (1 : Cplx ℚ) ≠ 0 := by
  have hXpull : (Gate.new ratConsts (GateDefn.X 0)).pull_action
      = some fun b => .nonbranching (Basis.flip b 0) 1 := cpa_X ratConsts 0
  have hCXpull : (Gate.new ratConsts (GateDefn.CX 0 1)).pull_action
      = some fun b =>
          if Basis.get b 0 then .nonbranching (Basis.flip b 1) (Cplx.mk 1 0)
          else .nonbranching b (Cplx.mk 1 0) := rfl
  have hf10 : Basis.flip 1 0 = 0 := by decide
  have hg00 : Basis.get 0 0 = false := by decide
  have h1z : ratConsts.isZero (1 : Cplx ℚ) = false := by
    rw [← Cplx.mk_one]
    exact is_zero_spec_one
  have hpull1 : apply_pull_gates ratConsts
      [Gate.new ratConsts (GateDefn.X 0), Gate.new ratConsts (GateDefn.CX 0 1)]
      (St.sparse fun b => if b = 0 then (1 : Cplx ℚ) else 0) 1
      = some (1, 2) := by
    simp [apply_pull_gates, hXpull, hCXpull, hf10, hg00, St.get]
  refine ⟨?_, ?_, ?_⟩
  · have hguard : ∀ i ∈ Finset.range (2 ^ 2),
        (apply_pull_gates ratConsts
          [Gate.new ratConsts (GateDefn.X 0),
            Gate.new ratConsts (GateDefn.CX 0 1)]
          (St.sparse fun b => if b = 0 then (1 : Cplx ℚ) else 0) i).isSome
          = true := by
      intro i _
      refine apply_pull_gates_isSome _ _ _ ?_ i
      intro g hg
      simp only [List.mem_cons, List.not_mem_nil, or_false] at hg
      rcases hg with rfl | rfl
      · rw [hXpull]; rfl
      · rw [hCXpull]; rfl
    simp only [expand_pull_dense]
    rw [if_pos hguard]
    simp only [Option.map_some', St.get]
    rw [if_pos (by norm_num : (1 : Nat) < 2 ^ 2), hpull1]
    rfl
  · have hsrcs : push_sources ratConsts 2
        (St.sparse fun b => if b = 0 then (1 : Cplx ℚ) else 0) = {0} := by
      ext x
      constructor
      · intro hx
        simp only [push_sources, Finset.mem_filter, Finset.mem_range,
          Consts.isNonzero] at hx
        obtain ⟨hx4, hnz⟩ := hx
        rw [Finset.mem_singleton]
        by_contra hne
        rw [if_neg hne] at hnz
        rw [show ratConsts.isZero (0 : Cplx ℚ) = true from is_zero_spec_zero]
          at hnz
        simp at hnz
      · intro hx
        rw [Finset.mem_singleton] at hx
        subst hx
        simp only [push_sources, Finset.mem_filter, Finset.mem_range,
          Consts.isNonzero]
        refine ⟨by norm_num, ?_⟩
        simp [h1z]
    have hf00 : Basis.flip 0 0 = 1 := by decide
    have hg10 : Basis.get 1 0 = true := by decide
    have hf11 : Basis.flip 1 1 = 3 := by decide
    have hag : puts_at (apply_gates ratConsts
        [Gate.new ratConsts (GateDefn.X 0), Gate.new ratConsts (GateDefn.CX 0 1)]
        0 ((St.sparse fun b => if b = 0 then (1 : Cplx ℚ) else 0).get 0)).1 1
        = 0 := by
      have hst0 : (St.sparse fun b => if b = 0 then (1 : Cplx ℚ) else 0).get 0
          = 1 := by simp [St.get]
      rw [hst0]
      simp [apply_gates, h1z, Gate.new, push_apply, hf00, hg10, hf11, puts_at]
    show (∑ x ∈ push_sources ratConsts 2 _,
        puts_at (apply_gates ratConsts _ x _).1 1) = 0
    rw [hsrcs, Finset.sum_singleton, hag]
  · intro h
    have hre := congrArg Cplx.re h
    simp only [Cplx.one_re, Cplx.zero_re] at hre
    norm_num at hre

end C1

/-! ## Claims C6 and C7: expansion dispatch and gate-application counts -/

section C6C7

variable {K : Type} [Field K]

/-- **C6** (confirmed): `expand`'s density-driven dispatch.  Under the
asserted config invariant `dense_threshold ≤ pull_threshold`, the returned
method is `Sparse` exactly when `expected_density < dense_threshold`;
`PullDense` exactly when the density is at or above both thresholds and every
gate of the kernel has a pull action; `PushDense` in all remaining cases. -/
theorem c6_expand_dispatch (C : Consts K) (gates : List (Gate K))
    (config : Config) (N prev : Nat) (st : St K)
    (hcfg : config.dense_threshold ≤ config.pull_threshold)
    (res : ExpandResult K)
    (hres : expand C gates config N prev st = some res) :
    (res.method = ExpandMethod.sparse ↔
      (expected_cost N (st.num_nonzeros C N) prev).1 < config.dense_threshold)
    ∧ (res.method = ExpandMethod.pullDense ↔
        config.dense_threshold ≤ (expected_cost N (st.num_nonzeros C N) prev).1
        ∧ config.pull_threshold ≤ (expected_cost N (st.num_nonzeros C N) prev).1
        ∧ (gates.all fun g => g.is_pullable) = true)
    ∧ (res.method = ExpandMethod.pushDense ↔
        config.dense_threshold ≤ (expected_cost N (st.num_nonzeros C N) prev).1
        ∧ ((expected_cost N (st.num_nonzeros C N) prev).1 < config.pull_threshold
            ∨ ¬(gates.all fun g => g.is_pullable) = true)) := by
  simp only [expand] at hres
  rw [if_neg (not_not_intro hcfg)] at hres
  by_cases h1 : (expected_cost N (st.num_nonzeros C N) prev).1
      < config.dense_threshold
  · rw [if_pos h1] at hres
    have hr := Option.some.inj hres
    subst hr
    refine ⟨?_, ?_, ?_⟩
    · simpa [expand_sparse] using h1
    · constructor
      · intro h
        exact absurd h (by simp [expand_sparse])
      · rintro ⟨hle, _⟩
        exact absurd h1 (not_lt.mpr hle)
    · constructor
      · intro h
        exact absurd h (by simp [expand_sparse])
      · rintro ⟨hle, _⟩
        exact absurd h1 (not_lt.mpr hle)
  · rw [if_neg h1] at hres
    by_cases h2 : config.pull_threshold
          ≤ (expected_cost N (st.num_nonzeros C N) prev).1
        ∧ (gates.all fun gate => gate.is_pullable) = true
    · rw [if_pos h2] at hres
      have hall : ∀ g ∈ gates, g.pull_action.isSome = true := by
        intro g hg
        have := (List.all_eq_true.mp h2.2) g hg
        simpa [Gate.is_pullable] using this
      have hguard : ∀ i ∈ Finset.range (2 ^ N),
          (apply_pull_gates C gates st i).isSome = true :=
        fun i _ => apply_pull_gates_isSome C gates st hall i
      simp only [expand_pull_dense] at hres
      rw [if_pos hguard] at hres
      have hr := Option.some.inj hres
      have hm : res.method = ExpandMethod.pullDense := by rw [← hr]
      refine ⟨?_, ?_, ?_⟩
      · rw [hm]
        constructor
        · intro h
          exact absurd h (by simp)
        · intro h
          exact absurd h h1
      · rw [hm]
        exact ⟨fun _ => ⟨not_lt.mp h1, h2.1, h2.2⟩, fun _ => rfl⟩
      · rw [hm]
        constructor
        · intro h
          exact absurd h (by simp)
        · rintro ⟨_, h3 | h3⟩
          · exact absurd h2.1 (not_le.mpr h3)
          · exact absurd h2.2 h3
    · rw [if_neg h2] at hres
      have hr := Option.some.inj hres
      subst hr
      have h2' := not_and_or.mp h2
      refine ⟨?_, ?_, ?_⟩
      · constructor
        · intro h
          exact absurd h (by simp [expand_push_dense])
        · intro h
          exact absurd h h1
      · constructor
        · intro h
          exact absurd h (by simp [expand_push_dense])
        · rintro ⟨_, hp, hall⟩
          rcases h2' with h3 | h3
          · exact absurd hp h3
          · exact absurd hall h3
      · refine ⟨fun _ => ⟨not_lt.mp h1, ?_⟩, fun _ => by simp [expand_push_dense]⟩
        rcases h2' with h3 | h3
        · exact Or.inl (not_le.mp h3)
        · exact Or.inr h3

/-- **C6**, witness: the dispatch theorem at the empty kernel over `ℚ` with
both thresholds 1 and the all-zero one-qubit sparse state (density 0, so the
sparse branch is taken). -/
theorem c6_expand_dispatch_witness :
    expand ratConsts ([] : List (Gate ℚ)) ⟨1, 1, 1, 1⟩ 1 0
        (St.sparse fun _ => 0)
      = some (expand_sparse ratConsts [] 1 ⟨1, 1, 1, 1⟩
          (expected_cost 1
            ((St.sparse fun _ => (0 : Cplx ℚ)).num_nonzeros ratConsts 1) 0).2
          (St.sparse fun _ => 0))
    ∧ ((expand_sparse ratConsts ([] : List (Gate ℚ)) 1 ⟨1, 1, 1, 1⟩
          (expected_cost 1
            ((St.sparse fun _ => (0 : Cplx ℚ)).num_nonzeros ratConsts 1) 0).2
          (St.sparse fun _ => 0)).method = ExpandMethod.sparse
        ↔ (expected_cost 1
            ((St.sparse fun _ => (0 : Cplx ℚ)).num_nonzeros ratConsts 1) 0).1
          < (⟨1, 1, 1, 1⟩ : Config).dense_threshold) := by
  have hnz : (St.sparse fun _ => (0 : Cplx ℚ)).num_nonzeros ratConsts 1 = 0 := by
    simp [St.num_nonzeros, table_num_nonzeros, Consts.isNonzero,
      show ratConsts.isZero (0 : Cplx ℚ) = true from is_zero_spec_zero]
  have hd : (expected_cost 1
      ((St.sparse fun _ => (0 : Cplx ℚ)).num_nonzeros ratConsts 1) 0).1
      < (⟨1, 1, 1, 1⟩ : Config).dense_threshold := by
    rw [hnz]
    norm_num [expected_cost]
  have hres : expand ratConsts ([] : List (Gate ℚ)) ⟨1, 1, 1, 1⟩ 1 0
      (St.sparse fun _ => 0)
      = some (expand_sparse ratConsts [] 1 ⟨1, 1, 1, 1⟩
          (expected_cost 1
            ((St.sparse fun _ => (0 : Cplx ℚ)).num_nonzeros ratConsts 1) 0).2
          (St.sparse fun _ => 0)) := by
    simp only [expand]
    rw [if_neg (not_not_intro (le_refl (1 : ℚ))), if_pos hd]
  exact ⟨hres,
    (c6_expand_dispatch ratConsts [] ⟨1, 1, 1, 1⟩ 1 0 (St.sparse fun _ => 0)
      (le_refl 1) _ hres).1⟩

/-- **C7** (corrected): the dense push and dense pull paths do return the
summed per-source / per-cell gate-application counts, but `expand_sparse`
returns the literal constant 0 (`let num_gate_apps = 0;` in the source),
discarding the counts its `apply_gates1` calls computed. -/
theorem c7_num_gate_apps (C : Consts K) (gates : List (Gate K)) (N : Nat)
    (config : Config) (e : Nat) (st : St K) (res : ExpandResult K)
    (hres : expand_pull_dense C gates N st = some res) :
    (expand_sparse C gates N config e st).num_gate_apps = 0
    ∧ (expand_push_dense C gates N st).num_gate_apps
        = ∑ x ∈ push_sources C N st, (apply_gates C gates x (st.get x)).2
    ∧ res.num_gate_apps
        = ∑ i ∈ Finset.range (2 ^ N),
            ((apply_pull_gates C gates st i).getD (0, 0)).2 := by
  refine ⟨rfl, rfl, ?_⟩
  simp only [expand_pull_dense] at hres
  split at hres
  · rw [← Option.some.inj hres]
  · simp at hres

/-- **C7**, witness: the amended count theorem at the empty kernel on one
qubit over `ℚ` from the all-zero sparse state. -/
theorem c7_num_gate_apps_witness :
    expand_pull_dense ratConsts ([] : List (Gate ℚ)) 1 (St.sparse fun _ => 0)
      = some
        { state := St.dense fun i => if i < 2 ^ 1 then
            ((apply_pull_gates ratConsts ([] : List (Gate ℚ))
              (St.sparse fun _ => 0) i).getD (0, 0)).1 else 0
          num_nonzeros := ((Finset.range (2 ^ 1)).filter fun i =>
            ratConsts.isNonzero ((apply_pull_gates ratConsts ([] : List (Gate ℚ))
              (St.sparse fun _ => 0) i).getD (0, 0)).1 = true).card
          num_gate_apps := ∑ i ∈ Finset.range (2 ^ 1),
            ((apply_pull_gates ratConsts ([] : List (Gate ℚ))
              (St.sparse fun _ => 0) i).getD (0, 0)).2
          method := ExpandMethod.pullDense }
    ∧ (ExpandResult.num_gate_apps
        { state := St.dense fun i => if i < 2 ^ 1 then
            ((apply_pull_gates ratConsts ([] : List (Gate ℚ))
              (St.sparse fun _ => 0) i).getD (0, 0)).1 else 0
          num_nonzeros := ((Finset.range (2 ^ 1)).filter fun i =>
            ratConsts.isNonzero ((apply_pull_gates ratConsts ([] : List (Gate ℚ))
              (St.sparse fun _ => 0) i).getD (0, 0)).1 = true).card
          num_gate_apps := ∑ i ∈ Finset.range (2 ^ 1),
            ((apply_pull_gates ratConsts ([] : List (Gate ℚ))
              (St.sparse fun _ => 0) i).getD (0, 0)).2
          method := ExpandMethod.pullDense })
        = ∑ i ∈ Finset.range (2 ^ 1),
            ((apply_pull_gates ratConsts ([] : List (Gate ℚ))
              (St.sparse fun _ => 0) i).getD (0, 0)).2 := by
  have hgw : ∀ i ∈ Finset.range (2 ^ 1),
      (apply_pull_gates ratConsts ([] : List (Gate ℚ))
        (St.sparse fun _ => 0) i).isSome = true :=
    fun i _ => rfl
  have hres : expand_pull_dense ratConsts ([] : List (Gate ℚ)) 1
      (St.sparse fun _ => 0)
      = some
        { state := St.dense fun i => if i < 2 ^ 1 then
            ((apply_pull_gates ratConsts ([] : List (Gate ℚ))
              (St.sparse fun _ => 0) i).getD (0, 0)).1 else 0
          num_nonzeros := ((Finset.range (2 ^ 1)).filter fun i =>
            ratConsts.isNonzero ((apply_pull_gates ratConsts ([] : List (Gate ℚ))
              (St.sparse fun _ => 0) i).getD (0, 0)).1 = true).card
          num_gate_apps := ∑ i ∈ Finset.range (2 ^ 1),
            ((apply_pull_gates ratConsts ([] : List (Gate ℚ))
              (St.sparse fun _ => 0) i).getD (0, 0)).2
          method := ExpandMethod.pullDense } := by
    simp only [expand_pull_dense]
    rw [if_pos hgw]
  exact ⟨hres,
    (c7_num_gate_apps ratConsts [] 1 ⟨1, 1, 1, 1⟩ 0
      (St.sparse fun _ => 0) _ hres).2.2⟩

/-- **C7**, counterexample to the claim as stated: for the kernel `[X 0]` on
one qubit from the δ₀ state, the sparse expansion performs one gate
application per the `apply_gates` count, yet the returned
`ExpandResult.num_gate_apps` is 0. -/
theorem c7_counterexample :
    (expand_sparse ratConsts [Gate.new ratConsts (GateDefn.X 0)] 1 ⟨1, 1, 1, 1⟩
        0 (St.sparse fun b => if b = 0 then 1 else 0)).num_gate_apps = 0
    ∧ ∑ x ∈ push_sources ratConsts 1
          (St.sparse fun b => if b = 0 then (1 : Cplx ℚ) else 0),
        (apply_gates ratConsts [Gate.new ratConsts (GateDefn.X 0)] x
          ((St.sparse fun b => if b = 0 then (1 : Cplx ℚ) else 0).get x)).2 = 1
    ∧ (1 : Nat) ≠ 0 := by
  have h1z : ratConsts.isZero (1 : Cplx ℚ) = false := by
    rw [← Cplx.mk_one]
    exact is_zero_spec_one
  have hsrcs : push_sources ratConsts 1
      (St.sparse fun b => if b = 0 then (1 : Cplx ℚ) else 0) = {0} := by
    ext x
    constructor
    · intro hx
      simp only [push_sources, Finset.mem_filter, Finset.mem_range,
        Consts.isNonzero] at hx
      obtain ⟨hx2, hnz⟩ := hx
      rw [Finset.mem_singleton]
      by_contra hne
      rw [if_neg hne] at hnz
      rw [show ratConsts.isZero (0 : Cplx ℚ) = true from is_zero_spec_zero]
        at hnz
      simp at hnz
    · intro hx
      rw [Finset.mem_singleton] at hx
      subst hx
      simp only [push_sources, Finset.mem_filter, Finset.mem_range,
        Consts.isNonzero]
      refine ⟨by norm_num, ?_⟩
      simp [h1z]
  refine ⟨rfl, ?_, by norm_num⟩
  rw [hsrcs, Finset.sum_singleton]
  have hst0 : (St.sparse fun b => if b = 0 then (1 : Cplx ℚ) else 0).get 0
      = 1 := by simp [St.get]
  rw [hst0]
  simp [apply_gates, h1z, Gate.new, push_apply]

end C6C7

/-! ## Claim C8: the Bell pair -/

section C8

variable {K : Type} [Field K]

/-- **C8** (confirmed): pushing the kernel `[H 0, CX 0 1]` from the sparse
initial state `{zeros ↦ 1}` on two qubits yields the Bell state: amplitude
`1/√2` (the environment's `recpSqrt2`) at bases 00 and 11 and zero at 01 and
10.  The near-zero hypotheses say the predicate holds at 0 and fails at the
two weights that actually flow (1 and `⟨recpSqrt2, 0⟩`). -/
theorem c8_bell_pair (C : Consts K)
    (hz0 : C.isZero 0 = true) (hz1 : C.isZero 1 = false)
    (hzr : C.isZero (Cplx.mk C.recpSqrt2 0) = false)
    (hrnz : Cplx.mk C.recpSqrt2 0 ≠ (0 : Cplx K)) :
    (∀ y < 4,
      (expand_push_dense C
        [Gate.new C (.Hadamard 0), Gate.new C (.CX 0 1)] 2
        (St.sparse fun b => if b = 0 then 1 else 0)).state.get y
        = if y = 0 ∨ y = 3 then Cplx.mk C.recpSqrt2 0 else 0)
    ∧ Cplx.mk C.recpSqrt2 0 ≠ (0 : Cplx K) := by
  have hw : (1 : Cplx K).rmul C.recpSqrt2 = Cplx.mk C.recpSqrt2 0 := by
    ext <;> simp
  have hsrcs : push_sources C 2
      (St.sparse fun b => if b = 0 then (1 : Cplx K) else 0) = {0} := by
    ext x
    constructor
    · intro hx
      simp only [push_sources, Finset.mem_filter, Finset.mem_range,
        Consts.isNonzero] at hx
      obtain ⟨hx4, hnz⟩ := hx
      rw [Finset.mem_singleton]
      by_contra hne
      rw [if_neg hne, hz0] at hnz
      simp at hnz
    · intro hx
      rw [Finset.mem_singleton] at hx
      subst hx
      simp only [push_sources, Finset.mem_filter, Finset.mem_range,
        Consts.isNonzero]
      refine ⟨by norm_num, ?_⟩
      simp [hz1]
  have hst0 : (St.sparse fun b => if b = 0 then (1 : Cplx K) else 0).get 0
      = 1 := by simp [St.get]
  have hag : (apply_gates C
      [Gate.new C (.Hadamard 0), Gate.new C (.CX 0 1)] 0 (1 : Cplx K)).1
      = [(0, Cplx.mk C.recpSqrt2 0), (3, Cplx.mk C.recpSqrt2 0)] := by
    simp [apply_gates, hz1, Gate.new, push_apply, hw, hzr,
      (by decide : Basis.get 0 0 = false),
      (by decide : Basis.unset 0 0 = 0),
      (by decide : Basis.set 0 0 = 1),
      (by decide : Basis.get 1 0 = true),
      (by decide : Basis.flip 1 1 = 3)]
  refine ⟨?_, hrnz⟩
  intro y hy
  simp only [expand_push_dense, St.get]
  rw [hsrcs, Finset.sum_singleton, if_pos rfl, hag]
  interval_cases y <;> simp [puts_at]

/-- **C8**, witness: the Bell theorem evaluated over `ℚ(√2)`, where
`recpSqrt2` is the genuine `1/√2` and the near-zero predicate is exact. -/
theorem c8_bell_pair_witness :
    Qr.qrConsts.isZero 0 = true
    ∧ ((expand_push_dense Qr.qrConsts
        [Gate.new Qr.qrConsts (.Hadamard 0), Gate.new Qr.qrConsts (.CX 0 1)] 2
        (St.sparse fun b => if b = 0 then 1 else 0)).state.get 0
        = Cplx.mk Qr.qrConsts.recpSqrt2 0)
    ∧ ((expand_push_dense Qr.qrConsts
        [Gate.new Qr.qrConsts (.Hadamard 0), Gate.new Qr.qrConsts (.CX 0 1)] 2
        (St.sparse fun b => if b = 0 then 1 else 0)).state.get 1 = 0)
    ∧ Cplx.mk Qr.qrConsts.recpSqrt2 0 ≠ (0 : Cplx Qr) := by
  have h0 : Qr.qrConsts.isZero 0 = true := by simp [Qr.qrConsts]
  have h1ne : (1 : Cplx Qr) ≠ 0 := by
    intro h
    have hre := congrArg Cplx.re h
    simp only [Cplx.one_re, Cplx.zero_re] at hre
    exact one_ne_zero hre
  have hz1 : Qr.qrConsts.isZero 1 = false := by simp [Qr.qrConsts, h1ne]
  have hrne0 : Cplx.mk Qr.r0 0 ≠ (0 : Cplx Qr) := by
    intro h
    have hre := congrArg Cplx.re h
    simp only [Cplx.mk_re, Cplx.zero_re] at hre
    have hb := congrArg Qr.b hre
    norm_num [Qr.r0] at hb
  have hrne : Cplx.mk Qr.qrConsts.recpSqrt2 0 ≠ (0 : Cplx Qr) := hrne0
  have hzr : Qr.qrConsts.isZero (Cplx.mk Qr.qrConsts.recpSqrt2 0) = false := by
    simp [Qr.qrConsts, hrne0]
  have hmain := c8_bell_pair Qr.qrConsts h0 hz1 hzr hrne
  refine ⟨h0, ?_, ?_, hrne⟩
  · have := hmain.1 0 (by norm_num)
    simpa using this
  · have := hmain.1 1 (by norm_num)
    simpa using this

end C8

/-! ## Claim C5: the CCX decomposition -/

section C5

theorem Qr.r0_a : Qr.r0.a = 0 := rfl

theorem Qr.r0_b : Qr.r0.b = 1 := rfl

/-- **C5** (code bug): the 11-gate `decompose_ccx` sequence is NOT equivalent
to the native CCX push.  Over the exact field `ℚ(√2, i)` (with `recpSqrt2`
the genuine `1/√2`), pushing the decomposition of `CCX 0 1 2` from the basis
state |010⟩ (index 2, second control set, first clear) leaves amplitude
`e^{iπ/4} = ⟨1/√2, 1/√2⟩` at basis 2, while the native CCX leaves amplitude
1 there; the two differ by a phase whose imaginary part squares to 1/2 —
far beyond any 1e-10 tolerance.  (The list is only the first 11 gates of the
15-gate Nielsen-Chuang network: the closing `T(c1); CX(c1,c2); Tdg(c2);
CX(c1,c2)` phase-fixing block is missing.) -/
theorem c5_decompose_ccx_code_bug :
    ((expand_push_dense Qr.qrConsts
        ((decompose_ccx (GateDefn.CCX 0 1 2)).map (Gate.new Qr.qrConsts)) 3
        (St.sparse fun b => if b = 2 then 1 else 0)).state.get 2
      = Cplx.mk Qr.r0 Qr.r0)
    ∧ ((expand_push_dense Qr.qrConsts
        [Gate.new Qr.qrConsts (GateDefn.CCX 0 1 2)] 3
        (St.sparse fun b => if b = 2 then 1 else 0)).state.get 2 = 1)
    ∧ Cplx.mk Qr.r0 Qr.r0 ≠ (1 : Cplx Qr)
    ∧ (Cplx.mk Qr.r0 Qr.r0 - 1).im ^ 2 = (⟨1 / 2, 0⟩ : Qr) := by
  have h1ne : (1 : Cplx Qr) ≠ 0 := by
    intro h
    have hre := congrArg Cplx.re h
    simp only [Cplx.one_re, Cplx.zero_re] at hre
    exact one_ne_zero hre
  have hz1 : Qr.qrConsts.isZero 1 = false := by simp [Qr.qrConsts, h1ne]
  have hsrcs : push_sources Qr.qrConsts 3
      (St.sparse fun b => if b = 2 then (1 : Cplx Qr) else 0) = {2} := by
    ext x
    constructor
    · intro hx
      simp only [push_sources, Finset.mem_filter, Finset.mem_range,
        Consts.isNonzero] at hx
      obtain ⟨hx8, hnz⟩ := hx
      rw [Finset.mem_singleton]
      by_contra hne
      rw [if_neg hne] at hnz
      rw [show Qr.qrConsts.isZero (0 : Cplx Qr) = true by simp [Qr.qrConsts]]
        at hnz
      simp at hnz
    · intro hx
      rw [Finset.mem_singleton] at hx
      subst hx
      simp only [push_sources, Finset.mem_filter, Finset.mem_range,
        Consts.isNonzero]
      refine ⟨by norm_num, ?_⟩
      simp [hz1]
  refine ⟨?_, ?_, ?_, ?_⟩
  · simp only [expand_push_dense, St.get]
    rw [hsrcs, Finset.sum_singleton, if_pos rfl]
    norm_num [decompose_ccx, apply_gates, push_apply, puts_at, Gate.new,
      Qr.qrConsts, Cplx.rmul, Cplx.ext_iff, Qr.ext_iff,
      Qr.r0_a, Qr.r0_b,
      (by decide : Basis.get 2 0 = false), (by decide : Basis.get 2 1 = true),
      (by decide : Basis.get 2 2 = false), (by decide : Basis.get 6 0 = false),
      (by decide : Basis.get 6 1 = true), (by decide : Basis.get 6 2 = true),
      (by decide : Basis.flip 2 2 = 6), (by decide : Basis.flip 6 2 = 2),
      (by decide : Basis.set 2 2 = 6), (by decide : Basis.set 6 2 = 6),
      (by decide : Basis.unset 2 2 = 2), (by decide : Basis.unset 6 2 = 2)]
  · simp only [expand_push_dense, St.get]
    rw [hsrcs, Finset.sum_singleton, if_pos rfl]
    norm_num [apply_gates, push_apply, puts_at, Gate.new, hz1,
      (by decide : Basis.get 2 0 = false), (by decide : Basis.get 2 1 = true)]
  · intro h
    have him := congrArg Cplx.im h
    simp only [Cplx.mk_im, Cplx.one_im] at him
    have hb := congrArg Qr.b him
    norm_num [Qr.r0_b, Qr.zero_b] at hb
  · have him : (Cplx.mk Qr.r0 Qr.r0 - 1).im = Qr.r0 := by
      rw [sub_eq_add_neg, Cplx.add_im, Cplx.neg_im, Cplx.mk_im, Cplx.one_im,
        neg_zero, add_zero]
    rw [him, pow_two]
    refine Qr.ext ?_ ?_ <;> norm_num [Qr.r0_a, Qr.r0_b]

end C5

/-! ## Claim C3: the greedy nonbranching scheduler -/

section C3

/-- Two gates share a touched qubit (decidable, for concrete evaluation). -/
def shares (touches : List (List Nat)) (a b : Nat) : Bool :=
  (touches.getD a []).any fun qi => qi ∈ touches.getD b []

theorem shares_symm {touches : List (List Nat)} {a b : Nat}
    (h : shares touches a b = true) : shares touches b a = true := by
  simp only [shares, List.any_eq_true, decide_eq_true_eq] at h ⊢
  obtain ⟨qi, h1, h2⟩ := h
  exact ⟨qi, h2, h1⟩

/-- Characterization of the source's `next_touch`: the least gate index at or
after `k` touching `qi`, or `num_gates` if there is none. -/
theorem next_touch_spec (G : Nat) (touches : List (List Nat)) (qi : Nat)
    (k : Nat) :
    (next_touch G touches qi k = G
      ∧ ∀ g, k ≤ g → g < G → qi ∉ touches.getD g [])
    ∨ (k ≤ next_touch G touches qi k ∧ next_touch G touches qi k < G
      ∧ qi ∈ touches.getD (next_touch G touches qi k) []
      ∧ ∀ g, k ≤ g → g < next_touch G touches qi k
          → qi ∉ touches.getD g []) := by
  have main : ∀ n k, G - k ≤ n →
      (next_touch G touches qi k = G
        ∧ ∀ g, k ≤ g → g < G → qi ∉ touches.getD g [])
      ∨ (k ≤ next_touch G touches qi k ∧ next_touch G touches qi k < G
        ∧ qi ∈ touches.getD (next_touch G touches qi k) []
        ∧ ∀ g, k ≤ g → g < next_touch G touches qi k
            → qi ∉ touches.getD g []) := by
    intro n
    induction n with
    | zero =>
      intro k hk
      have hkG : k ≥ G := by omega
      left
      rw [next_touch, if_pos hkG]
      exact ⟨rfl, fun g hg1 hg2 => absurd (lt_of_le_of_lt hg1 hg2)
        (by omega)⟩
    | succ n ih =>
      intro k hk
      by_cases hkG : k ≥ G
      · left
        rw [next_touch, if_pos hkG]
        exact ⟨rfl, fun g hg1 hg2 => absurd (lt_of_le_of_lt hg1 hg2)
          (by omega)⟩
      · by_cases hmem : qi ∈ touches.getD k []
        · right
          rw [next_touch, if_neg hkG, if_pos hmem]

          exact ⟨le_refl k, by omega, hmem, fun g hg1 hg2 => by omega⟩
        · have heq : next_touch G touches qi k
              = next_touch G touches qi (k + 1) := by
            rw [next_touch, if_neg hkG, if_neg hmem]
          rcases ih (k + 1) (by omega) with ⟨h1, h2⟩ | ⟨h1, h2, h3, h4⟩
          · left
            refine ⟨heq ▸ h1, fun g hg1 hg2 hg3 => ?_⟩
            rcases Nat.eq_or_lt_of_le hg1 with rfl | hlt
            · exact hmem hg3
            · exact h2 g hlt hg2 hg3
          · right
            rw [heq]
            refine ⟨by omega, h2, h3, fun g hg1 hg2 hg3 => ?_⟩
            rcases Nat.eq_or_lt_of_le hg1 with rfl | hlt
            · exact hmem hg3
            · exact h4 g hlt hg2 hg3
  exact main (G - k) k (le_refl _)

theorem foldl_set_length (tl : List Nat) (f0 : List Nat) (upd : Nat → Nat) :
    (tl.foldl (fun f qi => f.set qi (upd qi)) f0).length = f0.length := by
  induction tl generalizing f0 with
  | nil => rfl
  | cons q tl ih =>
    show (tl.foldl _ (f0.set q (upd q))).length = _
    rw [ih, List.length_set]

theorem foldl_set_getD (tl : List Nat) (f0 : List Nat) (upd : Nat → Nat)
    (hb : ∀ qi ∈ tl, qi < f0.length) (j : Nat) :
    (tl.foldl (fun f qi => f.set qi (upd qi)) f0).getD j 0
      = if j ∈ tl then upd j else f0.getD j 0 := by
  induction tl generalizing f0 with
  | nil => simp
  | cons q tl ih =>
    have hq : q < f0.length := hb q (List.mem_cons_self q tl)
    have hb' : ∀ qi ∈ tl, qi < (f0.set q (upd q)).length := by
      intro qi hqi
      rw [List.length_set]
      exact hb qi (List.mem_cons_of_mem q hqi)
    show (tl.foldl _ (f0.set q (upd q))).getD j 0 = _
    rw [ih (f0.set q (upd q)) hb']
    by_cases hjt : j ∈ tl
    · rw [if_pos hjt, if_pos (List.mem_cons_of_mem q hjt)]
    · rw [if_neg hjt]
      by_cases hjq : j = q
      · subst hjq
        rw [if_pos (List.mem_cons_self j tl)]
        rw [List.getD_eq_getElem?_getD, List.getElem?_set_self hq]
        rfl
      · rw [if_neg (by simp [hjt, hjq])]
        rw [List.getD_eq_getElem?_getD, List.getElem?_set_ne (fun h => hjq h.symm),
          ← List.getD_eq_getElem?_getD]

/-- The frontier invariant: for every qubit, the frontier entry is the least
gate not yet in `V` touching that qubit (or `num_gates` if all its touching
gates are in `V`). -/
def FrontierSpec (G Q : Nat) (touches : List (List Nat)) (s : GNBScheduler)
    (V : List Nat) : Prop :=
  ∀ qi, qi < Q →
    (s.frontier.getD qi 0 = G
      ∧ ∀ g, g < G → qi ∈ touches.getD g [] → g ∈ V)
    ∨ (s.frontier.getD qi 0 < G
      ∧ qi ∈ touches.getD (s.frontier.getD qi 0) []
      ∧ s.frontier.getD qi 0 ∉ V
      ∧ ∀ g, g < s.frontier.getD qi 0 → qi ∈ touches.getD g [] → g ∈ V)

/-- The scheduler invariant tying a state to the ordered list `L` of visited
gates. -/
def Inv (G Q : Nat) (touches : List (List Nat)) (branching : List Bool)
    (s : GNBScheduler) (L : List Nat) : Prop :=
  s.num_gates = G ∧ s.num_qubits = Q ∧ s.gate_touches = touches
  ∧ s.gate_is_branching = branching ∧ s.max_branching_stride = 2
  ∧ s.frontier.length = Q
  ∧ L.Nodup ∧ (∀ g ∈ L, g < G)
  ∧ (∀ g ∈ L, ∀ g', g' < g → shares touches g' g = true → g' ∈ L)
  ∧ L.Pairwise (fun a b => shares touches a b = true → a < b)
  ∧ FrontierSpec G Q touches s L

theorem inv_length_le {G Q : Nat} {touches : List (List Nat)}
    {branching : List Bool} {s : GNBScheduler} {L : List Nat}
    (h : Inv G Q touches branching s L) : L.length ≤ G := by
  obtain ⟨-, -, -, -, -, -, hnd, hlt, -⟩ := h
  have hsub : L ⊆ List.range G := fun g hg => List.mem_range.mpr (hlt g hg)
  calc L.length = L.toFinset.card := (List.toFinset_card_of_nodup hnd).symm
    _ ≤ (List.range G).toFinset.card := by
        apply Finset.card_le_card
        intro a ha
        rw [List.mem_toFinset] at ha
        rw [List.mem_toFinset]
        exact hsub ha
    _ ≤ (List.range G).length := List.toFinset_card_le _
    _ = G := List.length_range G

/-- Visiting an `okay_to_visit` gate preserves the invariant, appending the
gate to the visit order. -/
theorem visit_invariant {G Q : Nat} {touches : List (List Nat)}
    {branching : List Bool} {s : GNBScheduler} {L : List Nat}
    (htq : ∀ g, g < G → ∀ qi ∈ touches.getD g [], qi < Q)
    (hne : ∀ g, g < G → touches.getD g [] ≠ [])
    (hInv : Inv G Q touches branching s L) {gi : Nat}
    (hok : s.okay_to_visit gi = true) :
    gi < G ∧ gi ∉ L ∧ Inv G Q touches branching (s.visit gi) (L ++ [gi]) := by
  obtain ⟨hng, hnq, hgt, hgb, hms, hfl, hnd, hlt, hcl, hord, hfs⟩ := hInv
  rw [GNBScheduler.okay_to_visit, Bool.and_eq_true, decide_eq_true_eq,
    List.all_eq_true] at hok
  obtain ⟨hgiG, hfront⟩ := hok
  rw [hng] at hgiG
  have hfront' : ∀ qi ∈ touches.getD gi [], s.frontier.getD qi 0 = gi := by
    intro qi hqi
    have := hfront qi (by rw [hgt]; exact hqi)
    exact eq_of_beq this
  obtain ⟨qi0, hqi0⟩ := List.exists_mem_of_ne_nil _ (hne gi hgiG)
  have hq0 : qi0 < Q := htq gi hgiG qi0 hqi0
  have hginL : gi ∉ L := by
    rcases hfs qi0 hq0 with ⟨hG, -⟩ | ⟨-, -, hnv, -⟩
    · rw [hfront' qi0 hqi0] at hG
      omega
    · rw [hfront' qi0 hqi0] at hnv
      exact hnv
  -- the frontier spec at every touched qubit is in its second case, at gi
  have hspec : ∀ qi ∈ touches.getD gi [],
      ∀ g, g < gi → qi ∈ touches.getD g [] → g ∈ L := by
    intro qi hqi g hg hgt2
    have hq : qi < Q := htq gi hgiG qi hqi
    rcases hfs qi hq with ⟨hG, -⟩ | ⟨-, -, -, h4⟩
    · rw [hfront' qi hqi] at hG
      omega
    · rw [hfront' qi hqi] at h4
      exact h4 g hg hgt2
  refine ⟨hgiG, hginL, ?_, ?_, ?_, ?_, ?_, ?_, ?_, ?_, ?_, ?_, ?_⟩
  · exact hng
  · exact hnq
  · exact hgt
  · exact hgb
  · exact hms
  · show ((s.gate_touches.getD gi []).foldl _ s.frontier).length = Q
    rw [foldl_set_length, hfl]
  · simp [List.nodup_append, hnd, hginL]
  · intro g hg
    rcases List.mem_append.mp hg with hg | hg
    · exact hlt g hg
    · rw [List.mem_singleton] at hg
      exact hg ▸ hgiG
  · -- order-closure of L ++ [gi]
    intro g hg g' hg' hsh
    rcases List.mem_append.mp hg with hg | hg
    · exact List.mem_append_left _ (hcl g hg g' hg' hsh)
    · rw [List.mem_singleton] at hg
      subst hg
      simp only [shares, List.any_eq_true, decide_eq_true_eq] at hsh
      obtain ⟨qi, hqi1, hqi2⟩ := hsh
      exact List.mem_append_left _ (hspec qi hqi2 g' hg' hqi1)
  · -- pairwise order of L ++ [gi]
    rw [List.pairwise_append]
    refine ⟨hord, List.pairwise_singleton _ _, ?_⟩
    intro a ha b hb hsh
    rw [List.mem_singleton] at hb
    rw [hb] at hsh ⊢
    rcases Nat.lt_trichotomy a gi with h | h | h
    · exact h
    · exact absurd (h ▸ ha) hginL
    · exfalso
      simp only [shares, List.any_eq_true, decide_eq_true_eq] at hsh
      obtain ⟨qi, hqi1, hqi2⟩ := hsh
      exact hginL (hcl a ha gi h (by
        simp only [shares, List.any_eq_true, decide_eq_true_eq]
        exact ⟨qi, hqi2, hqi1⟩))
  · -- frontier spec for the new state
    intro qi hq
    have hbnd : ∀ q ∈ s.gate_touches.getD gi [], q < s.frontier.length := by
      rw [hgt, hfl]
      exact htq gi hgiG
    have hfr : (s.visit gi).frontier.getD qi 0
        = if qi ∈ touches.getD gi [] then next_touch G touches qi (gi + 1)
          else s.frontier.getD qi 0 := by
      show ((s.gate_touches.getD gi []).foldl _ s.frontier).getD qi 0 = _
      rw [foldl_set_getD _ _ _ hbnd qi, hgt, hng]
    rw [hfr]
    by_cases hmem : qi ∈ touches.getD gi []
    · rw [if_pos hmem]
      rcases next_touch_spec G touches qi (gi + 1) with
        ⟨h1, h2⟩ | ⟨h1, h2, h3, h4⟩
      · left
        refine ⟨h1, fun g hg hgt2 => ?_⟩
        rcases Nat.lt_trichotomy g gi with hc | hc | hc
        · exact List.mem_append_left _ (hspec qi hmem g hc hgt2)
        · rw [hc]
          exact List.mem_append_right _ (List.mem_singleton_self gi)
        · exact absurd hgt2 (h2 g (by omega) hg)
      · right
        set nt := next_touch G touches qi (gi + 1) with hnt
        have hntgi : gi < nt := by omega
        refine ⟨h2, h3, ?_, fun g hg hgt2 => ?_⟩
        · intro hmemL
          rcases List.mem_append.mp hmemL with hmemL | hmemL
          · exact hginL (hcl nt hmemL gi hntgi (by
              simp only [shares, List.any_eq_true, decide_eq_true_eq]
              exact ⟨qi, hmem, h3⟩))
          · rw [List.mem_singleton] at hmemL
            omega
        · rcases Nat.lt_trichotomy g gi with hc | hc | hc
          · exact List.mem_append_left _ (hspec qi hmem g hc hgt2)
          · rw [hc]
            exact List.mem_append_right _ (List.mem_singleton_self gi)
          · exact absurd hgt2 (h4 g (by omega) hg)
    · rw [if_neg hmem]
      rcases hfs qi hq with ⟨h1, h2⟩ | ⟨h1, h2, h3, h4⟩
      · left
        exact ⟨h1, fun g hg hgt2 => List.mem_append_left _ (h2 g hg hgt2)⟩
      · right
        refine ⟨h1, h2, ?_, fun g hg hgt2 =>
          List.mem_append_left _ (h4 g hg hgt2)⟩
        intro hmemL
        rcases List.mem_append.mp hmemL with hmemL | hmemL
        · exact h3 hmemL
        · rw [List.mem_singleton] at hmemL
          exact hmem (hmemL ▸ h2)

/-- The break condition of the inner per-qubit loop of
`visit_maximal_nonbranching_run`. -/
def BreakCond (s : GNBScheduler) (qi : Nat) : Prop :=
  s.frontier.getD qi 0 ≥ s.num_gates
  ∨ s.gate_is_branching.getD (s.frontier.getD qi 0) false = true
  ∨ s.okay_to_visit (s.frontier.getD qi 0) = false

/-- The per-qubit chain visits fresh nonbranching ready gates, preserving the
invariant; with enough fuel it ends in the break condition. -/
theorem chain_invariant {G Q : Nat} {touches : List (List Nat)}
    {branching : List Bool}
    (htq : ∀ g, g < G → ∀ qi ∈ touches.getD g [], qi < Q)
    (hne : ∀ g, g < G → touches.getD g [] ≠ []) :
    ∀ (fuel : Nat) (s : GNBScheduler) (L sel : List Nat) (qi : Nat),
    Inv G Q touches branching s L →
    ∃ s' delta,
      GNBScheduler.visit_qubit_chain fuel s qi sel = (s', sel ++ delta)
      ∧ Inv G Q touches branching s' (L ++ delta)
      ∧ (delta = [] → s' = s)
      ∧ (fuel > G - L.length → BreakCond s' qi) := by
  intro fuel
  induction fuel with
  | zero =>
    intro s L sel qi hInv
    refine ⟨s, [], by simp [GNBScheduler.visit_qubit_chain], by simpa, fun _ => rfl, ?_⟩
    intro h
    exact absurd h (by omega)
  | succ fuel ih =>
    intro s L sel qi hInv
    by_cases hc : (decide (s.frontier.getD qi 0 ≥ s.num_gates)
        || s.gate_is_branching.getD (s.frontier.getD qi 0) false
        || !s.okay_to_visit (s.frontier.getD qi 0)) = true
    · refine ⟨s, [], ?_, by simpa, fun _ => rfl, fun _ => ?_⟩
      · show (if _ then _ else _) = _
        rw [if_pos hc]
        simp
      · simp only [Bool.or_eq_true, decide_eq_true_eq,
          Bool.not_eq_true'] at hc
        rcases hc with (hc | hc) | hc
        · exact Or.inl hc
        · exact Or.inr (Or.inl hc)
        · exact Or.inr (Or.inr hc)
    · have hc' := hc
      simp only [Bool.or_eq_true, decide_eq_true_eq, Bool.not_eq_true',
        not_or] at hc'
      obtain ⟨⟨hlt2, hbr⟩, hok⟩ := hc'
      have hok2 : s.okay_to_visit (s.frontier.getD qi 0) = true := by
        cases h : s.okay_to_visit (s.frontier.getD qi 0)
        · exact absurd h hok
        · rfl
      obtain ⟨hgiG, hfresh, hInv2⟩ := visit_invariant htq hne hInv hok2
      obtain ⟨s', delta, heq, hInv3, hemp, hbrk⟩ :=
        ih (s.visit (s.frontier.getD qi 0)) (L ++ [s.frontier.getD qi 0])
          (sel ++ [s.frontier.getD qi 0]) qi hInv2
      refine ⟨s', s.frontier.getD qi 0 :: delta, ?_, ?_, ?_, ?_⟩
      · show (if _ then _ else _) = _
        rw [if_neg hc, heq, List.append_assoc]
        rfl
      · rw [List.append_assoc, List.singleton_append] at hInv3
        exact hInv3
      · intro h
        exact absurd h (by simp)
      · intro hfuel
        have hlen := inv_length_le hInv2
        rw [List.length_append, List.length_singleton] at hlen
        refine hbrk ?_
        rw [List.length_append, List.length_singleton]
        omega

/-- The qubit sweep preserves the invariant; an empty sweep leaves the state
unchanged and (with enough fuel) certifies the break condition at every swept
qubit. -/
theorem sweep_fold_invariant {G Q : Nat} {touches : List (List Nat)}
    {branching : List Bool}
    (htq : ∀ g, g < G → ∀ qi ∈ touches.getD g [], qi < Q)
    (hne : ∀ g, g < G → touches.getD g [] ≠ []) :
    ∀ (qs : List Nat) (fuel : Nat) (s : GNBScheduler) (L sel : List Nat),
    Inv G Q touches branching s L →
    ∃ s' delta,
      qs.foldl (fun acc qi => GNBScheduler.visit_qubit_chain fuel acc.1 qi acc.2)
          (s, sel) = (s', sel ++ delta)
      ∧ Inv G Q touches branching s' (L ++ delta)
      ∧ (delta = [] → s' = s
          ∧ (fuel > G - L.length → ∀ qi ∈ qs, BreakCond s qi)) := by
  intro qs
  induction qs with
  | nil =>
    intro fuel s L sel hInv
    exact ⟨s, [], by simp, by simpa, fun _ => ⟨rfl, fun _ qi h => absurd h
      (List.not_mem_nil qi)⟩⟩
  | cons q qs ih =>
    intro fuel s L sel hInv
    obtain ⟨s1, d1, heq1, hInv1, hemp1, hbrk1⟩ :=
      chain_invariant htq hne fuel s L sel q hInv
    obtain ⟨s', d2, heq2, hInv2, hemp2⟩ :=
      ih fuel s1 (L ++ d1) (sel ++ d1) hInv1
    refine ⟨s', d1 ++ d2, ?_, ?_, ?_⟩
    · show qs.foldl _ (GNBScheduler.visit_qubit_chain fuel s q sel) = _
      rw [heq1, heq2, List.append_assoc]
    · rw [← List.append_assoc]
      exact hInv2
    · intro h
      rw [List.append_eq_nil] at h
      obtain ⟨h1, h2⟩ := h
      subst h1
      subst h2
      have hs1 : s1 = s := hemp1 rfl
      obtain ⟨hs2, hb2⟩ := hemp2 rfl
      constructor
      · rw [hs2]
        exact hs1
      · intro hfuel qi hqi
        rcases List.mem_cons.mp hqi with rfl | hqi
        · have hbc := hbrk1 hfuel
          rw [hs1] at hbc
          exact hbc
        · have hbc := hb2 (by simpa using hfuel) qi hqi
          rw [hs1] at hbc
          exact hbc

/-- `visit_maximal_nonbranching_run` preserves the invariant; it leaves the
state unchanged when it selects nothing, and with sufficient fuel its final
state satisfies the break condition at every qubit. -/
theorem vmr_invariant {G Q : Nat} {touches : List (List Nat)}
    {branching : List Bool}
    (htq : ∀ g, g < G → ∀ qi ∈ touches.getD g [], qi < Q)
    (hne : ∀ g, g < G → touches.getD g [] ≠ []) :
    ∀ (outer : Nat) (inner : Nat) (s : GNBScheduler) (L acc : List Nat),
    Inv G Q touches branching s L → G < inner →
    ∃ s' delta,
      GNBScheduler.visit_maximal_run outer inner s acc = (s', acc ++ delta)
      ∧ Inv G Q touches branching s' (L ++ delta)
      ∧ (delta = [] → s' = s)
      ∧ (outer > G - L.length → ∀ qi, qi < Q → BreakCond s' qi) := by
  intro outer
  induction outer with
  | zero =>
    intro inner s L acc hInv hinner
    exact ⟨s, [], by simp [GNBScheduler.visit_maximal_run], by simpa,
      fun _ => rfl, fun h => absurd h (by omega)⟩
  | succ outer ih =>
    intro inner s L acc hInv hinner
    have hnq : s.num_qubits = Q := hInv.2.1
    obtain ⟨s1, d1, heq1, hInv1, hempty1⟩ :=
      sweep_fold_invariant htq hne (List.range s.num_qubits) inner s L []
        hInv
    have hstep : GNBScheduler.sweep_qubits inner s = (s1, d1) := by
      rw [GNBScheduler.sweep_qubits, heq1]
      rfl
    by_cases hd1 : d1 = []
    · subst hd1
      obtain ⟨hs1, hbrk⟩ := hempty1 rfl
      refine ⟨s1, [], ?_, by simpa using hInv1, fun _ => hs1, fun _ qi hqi => ?_⟩
      · show (if _ then _ else _) = _
        rw [hstep]
        simp
      · have hbc := hbrk (by omega) qi (by
          rw [hnq]
          exact List.mem_range.mpr hqi)
        rw [← hs1] at hbc
        exact hbc
    · obtain ⟨s', d2, heq2, hInv2, hempty2, hbrk2⟩ :=
        ih inner s1 (L ++ d1) (acc ++ d1) hInv1 hinner
      refine ⟨s', d1 ++ d2, ?_, ?_, ?_, ?_⟩
      · show (if _ then _ else _) = _
        rw [hstep]
        simp only [List.isEmpty_eq_true]
        rw [if_neg hd1, heq2, List.append_assoc]
      · rw [← List.append_assoc]
        exact hInv2
      · intro h
        rw [List.append_eq_nil] at h
        exact absurd h.1 hd1
      · intro hfuel
        refine hbrk2 ?_
        have hlen := inv_length_le hInv1
        rw [List.length_append] at hlen ⊢
        have hd1len : 0 < d1.length := List.length_pos.mpr hd1
        omega

/-- `visit_branching` either visits a ready branching gate (preserving the
invariant) or certifies that no frontier entry is a ready branching gate. -/
theorem visit_branching_invariant {G Q : Nat} {touches : List (List Nat)}
    {branching : List Bool} {s : GNBScheduler} {L : List Nat}
    (htq : ∀ g, g < G → ∀ qi ∈ touches.getD g [], qi < Q)
    (hne : ∀ g, g < G → touches.getD g [] ≠ [])
    (hInv : Inv G Q touches branching s L) :
    (∀ gi s2, GNBScheduler.visit_branching s = (some gi, s2) →
      Inv G Q touches branching s2 (L ++ [gi]))
    ∧ (∀ s2, GNBScheduler.visit_branching s = (none, s2) →
      s2 = s ∧ ∀ v ∈ s.frontier,
        ¬(decide (v < s.num_gates) && s.gate_is_branching.getD v false
          && s.okay_to_visit v) = true) := by
  constructor
  · intro gi s2 hvb
    rw [GNBScheduler.visit_branching] at hvb
    cases hf : s.frontier.find? fun gi =>
        decide (gi < s.num_gates) && s.gate_is_branching.getD gi false
          && s.okay_to_visit gi with
    | none =>
      rw [hf] at hvb
      simp at hvb
    | some gj =>
      rw [hf] at hvb
      simp only [Prod.mk.injEq, Option.some.injEq] at hvb
      obtain ⟨rfl, rfl⟩ := hvb
      have hp := List.find?_some hf
      simp only [Bool.and_eq_true, decide_eq_true_eq] at hp
      exact (visit_invariant htq hne hInv hp.2).2.2
  · intro s2 hvb
    rw [GNBScheduler.visit_branching] at hvb
    cases hf : s.frontier.find? fun gi =>
        decide (gi < s.num_gates) && s.gate_is_branching.getD gi false
          && s.okay_to_visit gi with
    | none =>
      rw [hf] at hvb
      simp only [Prod.mk.injEq] at hvb
      refine ⟨hvb.2.symm, ?_⟩
      intro v hv
      have := List.find?_eq_none.mp hf v hv
      simpa using this
    | some gj =>
      rw [hf] at hvb
      simp at hvb

/-- If every qubit satisfies the break condition and no frontier entry is a
ready branching gate, every gate has been visited. -/
theorem complete_of_stuck {G Q : Nat} {touches : List (List Nat)}
    {branching : List Bool} {s : GNBScheduler} {L : List Nat}
    (htq : ∀ g, g < G → ∀ qi ∈ touches.getD g [], qi < Q)
    (hne : ∀ g, g < G → touches.getD g [] ≠ [])
    (hInv : Inv G Q touches branching s L)
    (hbreak : ∀ qi, qi < Q → BreakCond s qi)
    (hnb : ∀ v ∈ s.frontier,
      ¬(decide (v < s.num_gates) && s.gate_is_branching.getD v false
        && s.okay_to_visit v) = true) :
    ∀ g, g < G → g ∈ L := by
  obtain ⟨hng, hnq, hgt, hgb, hms, hfl, hnd, hlt, hcl, hord, hfs⟩ := hInv
  intro g hgG
  by_contra hgL
  have hex : ∃ g0, g0 < G ∧ g0 ∉ L := ⟨g, hgG, hgL⟩
  classical
  set g0 := Nat.find hex with hg0def
  obtain ⟨hg0G, hg0L⟩ := Nat.find_spec hex
  have hmin : ∀ m, m < g0 → m < G → m ∈ L := by
    intro m hm hmG
    by_contra hmL
    exact absurd ⟨hmG, hmL⟩ (Nat.find_min hex hm)
  have hfq : ∀ qi ∈ touches.getD g0 [], s.frontier.getD qi 0 = g0 := by
    intro qi hqi
    have hq : qi < Q := htq g0 hg0G qi hqi
    rcases hfs qi hq with ⟨h1, h2⟩ | ⟨h1, h2, h3, h4⟩
    · exact absurd (h2 g0 hg0G hqi) hg0L
    · rcases Nat.lt_trichotomy (s.frontier.getD qi 0) g0 with hc | hc | hc
      · exact absurd (hmin _ hc h1) h3
      · exact hc
      · exact absurd (h4 g0 hc hqi) hg0L
  have hok : s.okay_to_visit g0 = true := by
    rw [GNBScheduler.okay_to_visit, Bool.and_eq_true, decide_eq_true_eq]
    refine ⟨by rw [hng]; exact hg0G, ?_⟩
    rw [List.all_eq_true]
    intro qi hqi
    rw [hgt] at hqi
    rw [hfq qi hqi]
    exact beq_self_eq_true g0
  obtain ⟨qi0, hqi0⟩ := List.exists_mem_of_ne_nil _ (hne g0 hg0G)
  have hq0 : qi0 < Q := htq g0 hg0G qi0 hqi0
  have hg0mem : g0 ∈ s.frontier := by
    have hq0l : qi0 < s.frontier.length := by rw [hfl]; exact hq0
    have := hfq qi0 hqi0
    rw [List.getD_eq_getElem?_getD, List.getElem?_eq_getElem hq0l] at this
    simp only [Option.getD_some] at this
    rw [← this]
    exact List.getElem_mem hq0l
  by_cases hbr : s.gate_is_branching.getD g0 false = true
  · refine hnb g0 hg0mem ?_
    rw [Bool.and_eq_true, Bool.and_eq_true, decide_eq_true_eq]
    exact ⟨⟨by rw [hng]; exact hg0G, hbr⟩, hok⟩
  · have hbc := hbreak qi0 hq0
    rw [BreakCond, hfq qi0 hqi0] at hbc
    rcases hbc with hbc | hbc | hbc
    · rw [hng] at hbc
      omega
    · exact hbr hbc
    · rw [hok] at hbc
      exact absurd hbc (by simp)

/-- The branching-budget loop of `pick_next_gates` preserves the invariant;
when it returns an empty kernel (with budget left), every gate has been
visited. -/
theorem pick_loop_invariant {G Q : Nat} {touches : List (List Nat)}
    {branching : List Bool}
    (htq : ∀ g, g < G → ∀ qi ∈ touches.getD g [], qi < Q)
    (hne : ∀ g, g < G → touches.getD g [] ≠ []) :
    ∀ (r : Nat) (s : GNBScheduler) (L acc : List Nat),
    Inv G Q touches branching s L →
    ∃ s' delta,
      GNBScheduler.pick_loop r (G + 1) s acc = (acc ++ delta, s')
      ∧ Inv G Q touches branching s' (L ++ delta)
      ∧ (delta = [] → r ≠ 0 → ∀ g, g < G → g ∈ L) := by
  intro r
  induction r with
  | zero =>
    intro s L acc hInv
    exact ⟨s, [], by simp [GNBScheduler.pick_loop], by simpa,
      fun _ h => absurd rfl h⟩
  | succ r ih =>
    intro s L acc hInv
    obtain ⟨s1, d1, heq1, hInv1, hempty1, hbrk1⟩ :=
      vmr_invariant htq hne (G + 1) (G + 1) s L [] hInv (by omega)
    rw [List.nil_append] at heq1
    obtain ⟨hsome, hnone⟩ := visit_branching_invariant htq hne hInv1
    cases hvb : GNBScheduler.visit_branching s1 with
    | mk ogi s2 =>
      cases ogi with
      | some gi =>
        obtain ⟨s', d2, heq2, hInv2, -⟩ :=
          ih s2 (L ++ d1 ++ [gi]) (acc ++ d1 ++ [gi]) (hsome gi s2 hvb)
        refine ⟨s', d1 ++ gi :: d2, ?_, ?_, ?_⟩
        · show (match GNBScheduler.visit_branching
              (GNBScheduler.visit_maximal_run (G + 1) (G + 1) s []).1 with
            | (some gi, s2) => GNBScheduler.pick_loop r (G + 1) s2
                ((acc ++ (GNBScheduler.visit_maximal_run (G + 1) (G + 1) s []).2)
                  ++ [gi])
            | (none, s2) => (acc
                ++ (GNBScheduler.visit_maximal_run (G + 1) (G + 1) s []).2, s2))
            = _
          rw [heq1]
          simp only
          rw [hvb]
          simp only
          rw [heq2]
          simp [List.append_assoc]
        · simpa [List.append_assoc] using hInv2
        · intro h
          simp at h
      | none =>
        obtain ⟨hs2, hnb⟩ := hnone s2 hvb
        refine ⟨s2, d1, ?_, ?_, ?_⟩
        · show (match GNBScheduler.visit_branching
              (GNBScheduler.visit_maximal_run (G + 1) (G + 1) s []).1 with
            | (some gi, s2) => GNBScheduler.pick_loop r (G + 1) s2
                ((acc ++ (GNBScheduler.visit_maximal_run (G + 1) (G + 1) s []).2)
                  ++ [gi])
            | (none, s2) => (acc
                ++ (GNBScheduler.visit_maximal_run (G + 1) (G + 1) s []).2, s2))
            = _
          rw [heq1]
          simp only
          rw [hvb]
        · rw [hs2]
          exact hInv1
        · intro hd1 hr
          subst hd1
          have hs1 : s1 = s := hempty1 rfl
          have hbrkQ : ∀ qi, qi < Q → BreakCond s1 qi := by
            intro qi hqi
            refine hbrk1 ?_ qi hqi
            have := inv_length_le hInv
            omega
          have hcomp := complete_of_stuck htq hne
            (by simpa using hInv1) hbrkQ hnb
          simpa using hcomp

/-- `pick_next_gates` preserves the invariant; an empty kernel certifies that
every gate has been visited. -/
theorem pick_next_gates_invariant {G Q : Nat} {touches : List (List Nat)}
    {branching : List Bool} {s : GNBScheduler} {L : List Nat}
    (htq : ∀ g, g < G → ∀ qi ∈ touches.getD g [], qi < Q)
    (hne : ∀ g, g < G → touches.getD g [] ≠ [])
    (hInv : Inv G Q touches branching s L) :
    ∃ s' delta,
      GNBScheduler.pick_next_gates s = (delta, s')
      ∧ Inv G Q touches branching s' (L ++ delta)
      ∧ (delta = [] → ∀ g, g < G → g ∈ L) := by
  obtain ⟨s', delta, heq, hInv2, hcomp⟩ :=
    pick_loop_invariant htq hne 2 s L [] hInv
  refine ⟨s', delta, ?_, hInv2, fun h => hcomp h (by omega)⟩
  rw [GNBScheduler.pick_next_gates, hInv.2.2.2.2.1, hInv.1, heq,
    List.nil_append]

/-- Running the scheduler to completion with fuel `G + 1` yields a
no-duplicate output covering exactly the gates `0..G`, in an order compatible
with qubit sharing. -/
theorem run_scheduler_invariant {G Q : Nat} {touches : List (List Nat)}
    {branching : List Bool}
    (htq : ∀ g, g < G → ∀ qi ∈ touches.getD g [], qi < Q)
    (hne : ∀ g, g < G → touches.getD g [] ≠ []) :
    ∀ (fuel : Nat) (s : GNBScheduler) (L : List Nat),
    Inv G Q touches branching s L → fuel > G - L.length →
    (L ++ (GNBScheduler.run_scheduler fuel s).flatten).Nodup
    ∧ (∀ g, g ∈ L ++ (GNBScheduler.run_scheduler fuel s).flatten ↔ g < G)
    ∧ (L ++ (GNBScheduler.run_scheduler fuel s).flatten).Pairwise
        (fun a b => shares touches a b = true → a < b) := by
  intro fuel
  induction fuel with
  | zero =>
    intro s L hInv hfuel
    exact absurd hfuel (by omega)
  | succ fuel ih =>
    intro s L hInv hfuel
    obtain ⟨s', delta, heq, hInv2, hcomp⟩ :=
      pick_next_gates_invariant htq hne hInv
    by_cases hd : delta = []
    · subst hd
      have hrun : GNBScheduler.run_scheduler (fuel + 1) s = [] := by
        show (if _ then _ else _) = _
        rw [heq]
        simp
      rw [hrun]
      obtain ⟨-, -, -, -, -, -, hnd, hlt, -, hord, -⟩ := hInv
      refine ⟨by simpa using hnd, fun g => ?_, by simpa using hord⟩
      simp only [List.flatten_nil, List.append_nil]
      exact ⟨fun h => hlt g h, fun h => hcomp rfl g h⟩
    · have hrun : GNBScheduler.run_scheduler (fuel + 1) s
          = delta :: GNBScheduler.run_scheduler fuel s' := by
        show (if _ then _ else _) = _
        rw [heq]
        simp only [List.isEmpty_eq_true]
        rw [if_neg hd]
      rw [hrun]
      have hih := ih s' (L ++ delta) hInv2 (by
        have hlen := inv_length_le hInv2
        rw [List.length_append] at hlen
        rw [List.length_append]
        have : 0 < delta.length := List.length_pos.mpr hd
        omega)
      rw [List.flatten_cons]
      rw [← List.append_assoc]
      exact hih

/-- The freshly constructed scheduler satisfies the invariant with an empty
visit list. -/
theorem new_invariant (G Q : Nat) (touches : List (List Nat))
    (branching : List Bool) :
    Inv G Q touches branching (GNBScheduler.new G Q touches branching) [] := by
  refine ⟨rfl, rfl, rfl, rfl, rfl, by simp [GNBScheduler.new], List.nodup_nil,
    by simp, by simp, List.Pairwise.nil, ?_⟩
  intro qi hqi
  have hfr : (GNBScheduler.new G Q touches branching).frontier.getD qi 0
      = next_touch G touches qi 0 := by
    show ((List.range Q).map fun qi => next_touch G touches qi 0).getD qi 0 = _
    rw [List.getD_eq_getElem?_getD, List.getElem?_map, List.getElem?_range hqi]
    rfl
  rw [hfr]
  rcases next_touch_spec G touches qi 0 with ⟨h1, h2⟩ | ⟨h1, h2, h3, h4⟩
  · exact Or.inl ⟨h1, fun g hg ht => absurd ht (h2 g (Nat.zero_le g) hg)⟩
  · exact Or.inr ⟨h2, h3, List.not_mem_nil _,
      fun g hg ht => absurd ht (h4 g (Nat.zero_le g) hg)⟩

/-- **C3** (confirmed): running `pick_next_gates` to exhaustion (fuel
`num_gates + 1` suffices) and concatenating the kernels yields a permutation
of the gate indices `0..G` in which any two gates sharing a touched qubit
appear in increasing circuit-index order.  Hypotheses: every gate touches at
least one qubit, and every touched qubit is in range (both guaranteed for
gates produced by `create_touches` on a well-formed circuit). -/
theorem c3_scheduler_correct (G Q : Nat) (touches : List (List Nat))
    (branching : List Bool)
    (htq : ∀ g, g < G → ∀ qi ∈ touches.getD g [], qi < Q)
    (hne : ∀ g, g < G → touches.getD g [] ≠ []) :
    ((GNBScheduler.run_scheduler (G + 1)
        (GNBScheduler.new G Q touches branching)).flatten).Perm (List.range G)
    ∧ ((GNBScheduler.run_scheduler (G + 1)
        (GNBScheduler.new G Q touches branching)).flatten).Pairwise
        (fun a b => shares touches a b = true → a < b) := by
  have hrun := run_scheduler_invariant htq hne (G + 1)
    (GNBScheduler.new G Q touches branching) [] (new_invariant G Q touches branching)
    (by simp)
  rw [List.nil_append] at hrun
  obtain ⟨hnd, hmem, hord⟩ := hrun
  refine ⟨?_, hord⟩
  rw [List.perm_ext_iff_of_nodup hnd (List.nodup_range G)]
  intro a
  rw [List.mem_range]
  exact hmem a

/-- **C3**, witness: the scheduler theorem at the two-gate circuit
`[gate 0 touching qubit 0 (nonbranching), gate 1 touching qubits 0 and 1
(branching)]`. -/
theorem c3_scheduler_correct_witness :
    ((GNBScheduler.run_scheduler (2 + 1)
        (GNBScheduler.new 2 2 [[0], [0, 1]] [false, true])).flatten).Perm
      (List.range 2)
    ∧ ((GNBScheduler.run_scheduler (2 + 1)
        (GNBScheduler.new 2 2 [[0], [0, 1]] [false, true])).flatten).Pairwise
        (fun a b => shares [[0], [0, 1]] a b = true → a < b) :=
  c3_scheduler_correct 2 2 [[0], [0, 1]] [false, true] (by decide) (by decide)

end C3







/-! ## Claims C2 and C4: per-gate duality and pullability -/


/-- The pull action's evaluation at one output basis, when the gate has one
(`Σᵢ amp nᵢ · mᵢ`). -/
def pull_eval_at {K : Type} [Field K] (g : Gate K) (y : Nat)
    (amp : Nat → Cplx K) : Option (Cplx K) :=
  g.pull_action.map fun act => pullEval (act y) amp

/-- **C2** (corrected): push-pull duality per gate, amended with the
hypothesis that the gate's touched qubits are pairwise distinct (necessary:
see `c2_counterexample`).  For every gate built by `Gate::new` that has a
pull action, every output basis `y < 2^N` and every amplitude assignment, the
sum over the pull branches of `amp[neighbor] · multiplier` equals the total
weight `push_apply` contributes to `y` over all inputs. -/
theorem c2_push_pull_duality {K : Type} [Field K] (C : Consts K) {N : Nat}
    (g : GateDefn K) (act : Nat → PullApplyOutput K)
    (hact : (Gate.new C g).pull_action = some act)
    (hdist : (Gate.new C g).touches.Pairwise (fun a b => a ≠ b))
    (hrange : ∀ q ∈ (Gate.new C g).touches, q < N)
    (amp : Nat → Cplx K) (y : Nat) (hy : y < 2 ^ N) :
    push_contrib_sum C g N amp y = pullEval (act y) amp :=
  gate_duality C g act hact hdist hrange amp hy

/-- **C2**, counterexample to the claim as stated: the degenerate gate
`CX{control: 0, target: 0}` has a (closed-form) pull action, but on one qubit
with all amplitudes 1 the pushed total into basis 0 is 2 while the pull
evaluation is 1: duality fails for a gate with a pull action whose touched
qubits coincide. -/
theorem c2_counterexample :
    pull_eval_at (Gate.new ratConsts (GateDefn.CX 0 0)) 0 (fun _ => 1) = some 1
    ∧ push_contrib_sum ratConsts (GateDefn.CX 0 0) 1 (fun _ => 1) 0 = 2
    ∧ (2 : Cplx ℚ) ≠ 1 := by
  have hb0 : Basis.get 0 0 = false := by decide
  have hb1 : Basis.get 1 0 = true := by decide
  have hf : Basis.flip 1 0 = 0 := by decide
  refine ⟨?_, ?_, ?_⟩
  · simp [pull_eval_at, Gate.new, create_pull_action, pullEval, hb0]
  · show ∑ x ∈ Finset.range (2 ^ 1),
        outContrib (push_apply ratConsts (GateDefn.CX 0 0) x 1) 0 = 2
    rw [show (2 : Nat) ^ 1 = 2 by norm_num]
    rw [Finset.sum_range_succ, Finset.sum_range_succ, Finset.sum_range_zero]
    simp [push_apply, outContrib, hb0, hb1, hf]
    ring
  · intro h
    rw [← one_add_one_eq_two] at h
    have hre := congrArg Cplx.re h
    simp only [Cplx.add_re, Cplx.one_re] at hre
    norm_num at hre

/-- **C4** (corrected): of the twelve permutation×phase gate definitions the
claim lists, the nine touching one or two (distinct) qubits do get a derived
pull action from `push_to_pull`, so `is_pullable()` is true; but `CCX` and
`CSwap` (three touched qubits) and `FSim` (two qubits, maybe-branching) fall
through `push_to_pull`'s match and get none, so `is_pullable()` is false. -/
theorem c4_pullability {K : Type} [Field K] (C : Consts K)
    (q c t t1 t2 c1 c2 : Nat) (rot theta phi : K)
    (hct : c ≠ t) (ht12 : t1 ≠ t2) :
    (Gate.new C (.CPhase c t rot)).is_pullable = true
    ∧ (Gate.new C (.Swap t1 t2)).is_pullable = true
    ∧ (Gate.new C (.PauliY q)).is_pullable = true
    ∧ (Gate.new C (.PauliZ q)).is_pullable = true
    ∧ (Gate.new C (.S q)).is_pullable = true
    ∧ (Gate.new C (.Sdg q)).is_pullable = true
    ∧ (Gate.new C (.T q)).is_pullable = true
    ∧ (Gate.new C (.Tdg q)).is_pullable = true
    ∧ (Gate.new C (.X q)).is_pullable = true
    ∧ (Gate.new C (.CCX c1 c2 t)).is_pullable = false
    ∧ (Gate.new C (.CSwap c t1 t2)).is_pullable = false
    ∧ (Gate.new C (.FSim t1 t2 theta phi)).is_pullable = false := by
  refine ⟨?_, ?_, ?_, ?_, ?_, ?_, ?_, ?_, ?_, ?_, ?_, ?_⟩
  · simp [Gate.new, Gate.is_pullable, cpa_CPhase C hct rot]
  · simp [Gate.new, Gate.is_pullable, cpa_Swap C ht12]
  · simp [Gate.new, Gate.is_pullable, cpa_PauliY C q]
  · simp [Gate.new, Gate.is_pullable, cpa_PauliZ C q]
  · simp [Gate.new, Gate.is_pullable, cpa_S C q]
  · simp [Gate.new, Gate.is_pullable, cpa_Sdg C q]
  · simp [Gate.new, Gate.is_pullable, cpa_T C q]
  · simp [Gate.new, Gate.is_pullable, cpa_Tdg C q]
  · simp [Gate.new, Gate.is_pullable, cpa_X C q]
  · simp [Gate.new, Gate.is_pullable, create_pull_action, push_to_pull,
      create_touches]
  · simp [Gate.new, Gate.is_pullable, create_pull_action, push_to_pull,
      create_touches]
  · simp [Gate.new, Gate.is_pullable, create_pull_action, push_to_pull,
      create_touches, branching_type]

/-- **C4**, witness at concrete gates (qubits 0/1/2, rotation 0). -/
theorem c4_pullability_witness :
    (Gate.new ratConsts (.CPhase 0 1 0)).is_pullable = true
    ∧ (Gate.new ratConsts (.Swap 0 1)).is_pullable = true
    ∧ (Gate.new ratConsts (.PauliY 0)).is_pullable = true
    ∧ (Gate.new ratConsts (.PauliZ 0)).is_pullable = true
    ∧ (Gate.new ratConsts (.S 0)).is_pullable = true
    ∧ (Gate.new ratConsts (.Sdg 0)).is_pullable = true
    ∧ (Gate.new ratConsts (.T 0)).is_pullable = true
    ∧ (Gate.new ratConsts (.Tdg 0)).is_pullable = true
    ∧ (Gate.new ratConsts (.X 0)).is_pullable = true
    ∧ (Gate.new ratConsts (.CCX 0 1 2)).is_pullable = false
    ∧ (Gate.new ratConsts (.CSwap 0 1 2)).is_pullable = false
    ∧ (Gate.new ratConsts (.FSim 0 1 0 0)).is_pullable = false :=
  c4_pullability ratConsts 0 0 1 1 2 0 1 0 0 0 (by decide) (by decide)

/-- **C4**, counterexample to the claim as stated: `FSim` is in the claim's
list, yet `Gate::new` gives it no pull action (`push_to_pull` declines
two-qubit maybe-branching definitions), so `is_pullable()` is false. -/
theorem c4_counterexample :
    (Gate.new ratConsts (GateDefn.FSim 0 1 0 0)).is_pullable = false := by
  simp [Gate.new, Gate.is_pullable, create_pull_action, push_to_pull,
    create_touches, branching_type]

/-- **C2**, witness: the duality theorem applied to the gate `X 0` on one
qubit with all amplitudes 1 at output basis 0. -/
theorem c2_push_pull_duality_witness :
    ∃ act, (Gate.new ratConsts (GateDefn.X 0)).pull_action = some act
      ∧ push_contrib_sum ratConsts (GateDefn.X 0) 1 (fun _ => 1) 0
          = pullEval (act 0) (fun _ => 1) := by
  refine ⟨_, cpa_X ratConsts 0, ?_⟩
  exact c2_push_pull_duality ratConsts (GateDefn.X 0) _ (cpa_X ratConsts 0)
    (by simp [Gate.new, create_touches]) (by simp [Gate.new, create_touches])
    (fun _ => 1) 0 (by norm_num)

